import Mathlib

/-!
Verification of the adaptive radix tree implementation in src/ART.cpp and
src/ART.hpp.  The C++ code is shallowly embedded: node handles become an
inductive type (`NTree` for inner nodes and pseudo-leaves, `Option NTree` for
nullable child slots), machine integers become `Nat`/`Int`, the two `double`
fields of `NodeLinear` become exact integer fractions (`Dbl`), and undefined
behaviour
(reads past a key buffer, `throw`, division by zero inside `learn`, unbounded
loops that run off the end of an array) is modelled by an `Option` crash
marker `none`.
-/

namespace ART

/-- Constant maxPrefixLength = 9 from ART.hpp. -/
def maxPrefLen : ℕ := 9

/-- Constant NODE4_SIZE = 4 from ART.hpp. -/
def NODE4_SIZE : ℕ := 4

/-- Constant NODE48_SIZE from ART.hpp.  The source really declares it as 24
(`static const int8_t NODE48_SIZE = 24;`), not 48. -/
def NODE48_SIZE : ℕ := 24

/-- Constant emptyMarker = NODE48_SIZE from ART.hpp. -/
def emptyMarker : ℕ := NODE48_SIZE

/-- Constant LINEAR_SIZE = 10 from ART.hpp. -/
def LINEAR_SIZE : ℕ := 10

/-- Model of loadKey from ART.cpp: the 8-byte big-endian encoding of a 64-bit
tuple identifier, viewed as a total function from byte positions to byte
values.  Positions outside the 8-byte buffer are modelled as 0; every theorem
below only relies on positions 0..7, matching the C buffer. -/
def loadKey (tid : ℕ) (i : ℕ) : ℕ :=
  if i < 8 then tid / 256 ^ (7 - i) % 256 else 0

/-- An IEEE double of the source, modelled as an exact fraction num/den of
unbounded integers.  At every concrete input appearing in a theorem below the
double computations of the source are exact (all values are small dyadic
rationals), so the exact-fraction semantics coincides with IEEE semantics
there; no theorem relies on rounding behaviour. -/
structure Dbl where
  num : ℤ
  den : ℤ
  deriving DecidableEq

/-- The C expression (int)(a*x + b) on doubles: the exact rational value,
truncated toward zero. -/
def dblAxPlusB (a b : Dbl) (x : ℕ) : ℤ :=
  Int.tdiv (a.num * x * b.den + b.num * a.den) (a.den * b.den)

/-- Keys agree on byte positions lo ≤ i < hi. -/
def AgreeOn (k1 k2 : ℕ → ℕ) (lo hi : ℕ) : Prop :=
  ∀ i, i < hi → lo ≤ i → k1 i = k2 i

instance (k1 k2 : ℕ → ℕ) (lo hi : ℕ) : Decidable (AgreeOn k1 k2 lo hi) :=
  Nat.decidableBallLT hi fun i _ => lo ≤ i → k1 i = k2 i

/-- The inner-node / pseudo-leaf structure of the tree, one constructor per
node variant of ART.hpp.  A `leaf v` is the tagged pseudo-leaf holding tuple
identifier v (makeLeaf / isLeaf / getLeafValue are the identity on this
representation).  For N4 and N16 only the first `count` array entries are ever
read by the source, so keys/children are lists of length `count`; N16 stores
its key bytes sign-flipped in the source purely so that signed SSE comparison
realises unsigned byte order, which we model by storing the plain bytes in
ascending unsigned order.  N48 keeps the 256-entry childIndex array and the
24-slot child array plus the count field; N256 keeps the 256 child slots plus
count.  NLinear keeps the two learned regression coefficients a and b, which
are IEEE doubles in the source and exact integer fractions here (every
concrete input used in a theorem below makes the double computations of the
source exact). -/
inductive NTree : Type where
  | leaf : ℕ → NTree
  | n4 : ℕ → List ℕ → List ℕ → List NTree → NTree
  | n16 : ℕ → List ℕ → List ℕ → List NTree → NTree
  | n48 : ℕ → List ℕ → List ℕ → List (Option NTree) → ℕ → NTree
  | n256 : ℕ → List ℕ → List (Option NTree) → ℕ → NTree
  | nlin : ℕ → List ℕ → Dbl → Dbl → List (Option NTree) → NTree

namespace NTree

/-- Header accessor: prefixLength (0 for a pseudo-leaf, which has no header). -/
def prefLenOf : NTree → ℕ
  | leaf _ => 0
  | n4 pl _ _ _ => pl
  | n16 pl _ _ _ => pl
  | n48 pl _ _ _ _ => pl
  | n256 pl _ _ _ => pl
  | nlin pl _ _ _ _ => pl

/-- Header accessor: the stored prefix bytes. -/
def pfOf : NTree → List ℕ
  | leaf _ => []
  | n4 _ pf _ _ => pf
  | n16 _ pf _ _ => pf
  | n48 _ pf _ _ _ => pf
  | n256 _ pf _ _ => pf
  | nlin _ pf _ _ _ => pf

/-- Replace the header prefix fields of a node, leaving the rest unchanged. -/
def withPref : NTree → ℕ → List ℕ → NTree
  | leaf v, _, _ => leaf v
  | n4 _ _ ks ch, pl, pf => n4 pl pf ks ch
  | n16 _ _ ks ch, pl, pf => n16 pl pf ks ch
  | n48 _ _ ci ch cnt, pl, pf => n48 pl pf ci ch cnt
  | n256 _ _ ch cnt, pl, pf => n256 pl pf ch cnt
  | nlin _ _ a b ch, pl, pf => nlin pl pf a b ch

end NTree

open NTree

/-- Size bound used in termination arguments: a child obtained from a list of
children is smaller than the list. -/
theorem sizeOf_lt_of_get? {l : List NTree} {i : ℕ} {c : NTree}
    (h : l.get? i = some c) : sizeOf c < sizeOf l :=
  List.sizeOf_lt_of_mem (List.get?_mem h)

/-- Size bound for optional child slots: a populated slot obtained with getD
is smaller than the slot list. -/
theorem sizeOf_lt_of_getD_opt {l : List (Option NTree)} {i : ℕ} {c : NTree}
    (h : l.getD i none = some c) : sizeOf c < sizeOf l := by
  have hg : l[i]? = some (some c) := by
    rcases hq : l[i]? with _ | o
    · rw [List.getD_eq_getElem?_getD, hq] at h
      simp at h
    · rw [List.getD_eq_getElem?_getD, hq] at h
      simp only [Option.getD_some] at h
      rw [h]
  have h1 : sizeOf (some c : Option NTree) < sizeOf l :=
    List.sizeOf_lt_of_mem (List.getElem?_mem hg)
  have h2 : sizeOf c < sizeOf (some c : Option NTree) := by
    simp [Option.some.sizeOf_spec]
  omega

/-- findChild on an NLinear node (ART.cpp lines 93-104): the learned bucket
with saturation at both ends. -/
def linBucket (a b : Dbl) (byte : ℕ) : ℕ :=
  let bucket := dblAxPlusB a b byte
  if bucket ≥ (LINEAR_SIZE : ℤ) then LINEAR_SIZE - 1
  else if bucket < 0 then 0
  else bucket.toNat

/-- minimum (ART.cpp lines 109-142).  Result: some (some v) is the leaf v,
some none is the C NULL return, none marks undefined behaviour (the switch
falling through to throw on NodeTypeLinear, the unbounded scan of an N48 or
N256 node with no populated slot running off the array, or exhausted fuel;
since every inner level of the source tree consumes at least one key byte of
an 8-byte key, any fuel of at least 9 is enough on intact trees). -/
def minimumF : ℕ → NTree → Option (Option ℕ)
  | 0, _ => none
  | fuel + 1, t =>
    match t with
    | leaf v => some (some v)
    | n4 _ _ _ ch =>
      match ch.get? 0 with
      | some c => minimumF fuel c
      | none => some none
    | n16 _ _ _ ch =>
      match ch.get? 0 with
      | some c => minimumF fuel c
      | none => some none
    | n48 _ _ ci ch _ =>
      match (List.range 256).find? (fun b => ci.getD b emptyMarker ≠ emptyMarker) with
      | none => none
      | some b =>
        match ch.getD (ci.getD b emptyMarker) none with
        | some c => minimumF fuel c
        | none => some none
    | n256 _ _ ch _ =>
      match (List.range 256).find? (fun b => (ch.getD b none).isSome) with
      | none => none
      | some b =>
        match ch.getD b none with
        | some c => minimumF fuel c
        | none => some none
    | nlin _ _ _ _ _ => none

/-- minimum on a nullable handle (minimum(NULL) = NULL in the source). -/
def minimum (fuel : ℕ) : Option NTree → Option (Option ℕ)
  | none => some none
  | some t => minimumF fuel t

/-- leafMatches (ART.cpp lines 179-189): compare the leaf key against the
searched key on positions depth..keyLength. -/
def leafMatches (v : ℕ) (key : ℕ → ℕ) (keyLength depth : ℕ) : Bool :=
  if depth ≠ keyLength then decide (AgreeOn (loadKey v) key depth keyLength)
  else true

/-- prefixMismatch (ART.cpp lines 191-209).  Returns some pos with the number
of matching bytes; none marks a crash inside minimum.  When the true prefix is
longer than the stored cap, the comparison continues against the key of the
minimum descendant leaf; minimum returning NULL makes the source read
getLeafValue(NULL) = 0, which is modelled faithfully by loading key 0. -/
def prefixMismatch (fuel : ℕ) (t : NTree) (key : ℕ → ℕ) (depth : ℕ) : Option ℕ :=
  let pl := prefLenOf t
  let pf := pfOf t
  if pl > maxPrefLen then
    match (List.range maxPrefLen).find? (fun pos => key (depth + pos) ≠ pf.getD pos 0) with
    | some pos => some pos
    | none =>
      match minimumF fuel t with
      | none => none
      | some r =>
        let minv := r.getD 0
        match (List.range (pl - maxPrefLen)).find?
            (fun j => key (depth + maxPrefLen + j) ≠ loadKey minv (depth + maxPrefLen + j)) with
        | some j => some (maxPrefLen + j)
        | none => some pl
  else
    match (List.range pl).find? (fun pos => key (depth + pos) ≠ pf.getD pos 0) with
    | some pos => some pos
    | none => some pl

/-- The prefix block of the optimistic lookup (ART.cpp lines 330-339): if the
node has a prefix it is either compared byte by byte against the searched key
(returning NULL on mismatch) when prefixLength < maxPrefixLength, or skipped
with the skipped flag set otherwise; depth advances by prefixLength either
way.  Returns none for the NULL return, or the new (depth, skipped) pair. -/
def lookupPref (pl : ℕ) (pf : List ℕ) (key : ℕ → ℕ) (depth : ℕ) (skipped : Bool) :
    Option (ℕ × Bool) :=
  if pl ≠ 0 then
    if pl < maxPrefLen then
      if (List.range pl).all (fun pos => key (depth + pos) = pf.getD pos 0) then
        some (depth + pl, skipped)
      else none
    else some (depth + pl, true)
  else some (depth, skipped)

/-- lookup, optimistic version (ART.cpp lines 308-349).  The while loop is
unrolled into recursion on the current node; the searched key is a total byte
function and keyLength is the key_len parameter.  After descending through a
child the source increments depth only when the node type is not
NodeTypeLinear (the check type != 4 on line 345). -/
def lookupF : ℕ → NTree → (ℕ → ℕ) → ℕ → ℕ → Bool → Option (Option ℕ)
  | 0, _, _, _, _, _ => none
  | fuel + 1, t, key, keyLength, depth, skipped =>
    match t with
    | leaf v =>
      if ¬ skipped ∧ depth = keyLength then some (some v)
      else if depth ≠ keyLength then
        if AgreeOn (loadKey v) key (if skipped then 0 else depth) keyLength then some (some v)
        else some none
      else some (some v)
    | n4 pl pf keys ch =>
      match lookupPref pl pf key depth skipped with
      | none => some none
      | some (d, sk) =>
        match keys.findIdx? (fun x => x = key d) with
        | none => some none
        | some i =>
          match ch.get? i with
          | none => none
          | some c => lookupF fuel c key keyLength (d + 1) sk
    | n16 pl pf keys ch =>
      match lookupPref pl pf key depth skipped with
      | none => some none
      | some (d, sk) =>
        match keys.findIdx? (fun x => x = key d) with
        | none => some none
        | some i =>
          match ch.get? i with
          | none => none
          | some c => lookupF fuel c key keyLength (d + 1) sk
    | n48 pl pf ci ch _ =>
      match lookupPref pl pf key depth skipped with
      | none => some none
      | some (d, sk) =>
        if ci.getD (key d) emptyMarker ≠ emptyMarker then
          match ch.getD (ci.getD (key d) emptyMarker) none with
          | none => some none
          | some c => lookupF fuel c key keyLength (d + 1) sk
        else some none
    | n256 pl pf ch _ =>
      match lookupPref pl pf key depth skipped with
      | none => some none
      | some (d, sk) =>
        match ch.getD (key d) none with
        | none => some none
        | some c => lookupF fuel c key keyLength (d + 1) sk
    | nlin pl pf a b ch =>
      match lookupPref pl pf key depth skipped with
      | none => some none
      | some (d, sk) =>
        match ch.getD (linBucket a b (key d)) none with
        | none => some none
        | some c => lookupF fuel c key keyLength d sk

/-- lookup on a nullable root handle (ART.cpp line 308).  The outer Option is
the fuel crash marker; the inner Option is the returned handle, some v for the
leaf v and none for the NULL "not found" return. -/
def lookup (fuel : ℕ) (t : Option NTree) (key : ℕ → ℕ) (keyLength depth : ℕ) :
    Option (Option ℕ) :=
  match t with
  | none => some none
  | some t => lookupF fuel t key keyLength depth false

/-- insertNode256 (ART.cpp lines 552-556): unconditional store, count
incremented. -/
def insertNode256 (pl : ℕ) (pf : List ℕ) (ch : List (Option NTree)) (cnt : ℕ)
    (b : ℕ) (c : NTree) : NTree :=
  n256 pl pf (ch.set b (some c)) (cnt + 1)

/-- insertNode48 (ART.cpp lines 528-550): place the child in slot count, or in
the first free slot if slot count is occupied; grow to Node256 when full.  The
capacity really is NODE48_SIZE = 24 in the source. -/
def insertNode48 (pl : ℕ) (pf : List ℕ) (ci : List ℕ) (ch : List (Option NTree))
    (cnt : ℕ) (b : ℕ) (c : NTree) : NTree :=
  if cnt < NODE48_SIZE then
    let pos := if (ch.getD cnt none).isSome then
        (List.range NODE48_SIZE).findIdx (fun j => (ch.getD j none).isNone)
      else cnt
    n48 pl pf (ci.set b pos) (ch.set pos (some c)) (cnt + 1)
  else
    let ch256 := (List.range 256).map (fun i =>
      if ci.getD i emptyMarker ≠ emptyMarker then ch.getD (ci.getD i emptyMarker) none
      else none)
    insertNode256 pl (pf.take (min pl maxPrefLen)) ch256 cnt b c

/-- insertNode16 (ART.cpp lines 487-526): sorted insertion at the first
position whose key byte exceeds the new byte (the SIMD signed comparison of
sign-flipped bytes realises exactly unsigned byte order, so the model keeps
plain bytes); grow to Node48 when full. -/
def insertNode16 (pl : ℕ) (pf : List ℕ) (keys : List ℕ) (ch : List NTree)
    (b : ℕ) (c : NTree) : NTree :=
  if keys.length < 16 then
    let pos := keys.findIdx (fun x => b < x)
    n16 pl pf (keys.insertIdx pos b) (ch.insertIdx pos c)
  else
    let ci0 := (List.range 256).map (fun _ => emptyMarker)
    let ci := keys.enum.foldl (fun acc p => acc.set p.2 p.1) ci0
    let ch48 := ch.map some ++ List.replicate (NODE48_SIZE - 16) none
    insertNode48 pl (pf.take (min pl maxPrefLen)) ci ch48 keys.length b c

/-- insertNode4 (ART.cpp lines 462-485): sorted insertion at the first
position whose key byte is not below the new byte; grow to Node16 when
full. -/
def insertNode4 (pl : ℕ) (pf : List ℕ) (keys : List ℕ) (ch : List NTree)
    (b : ℕ) (c : NTree) : NTree :=
  if keys.length < NODE4_SIZE then
    let pos := keys.findIdx (fun x => ¬ x < b)
    n4 pl pf (keys.insertIdx pos b) (ch.insertIdx pos c)
  else
    insertNode16 pl (pf.take (min pl maxPrefLen)) keys ch b c

/-- Apply insertNode4 to an already built node handle, as the two consecutive
insertNode4 calls of the source do through the Node4 pointer.  On a non-Node4
handle this is never invoked by the model. -/
def ins4 (t : NTree) (b : ℕ) (c : NTree) : NTree :=
  match t with
  | n4 pl pf keys ch => insertNode4 pl pf keys ch b c
  | t => t

/-- The longest-common-prefix loop of insert at an existing leaf (ART.cpp
lines 403-405): scan forward from depth while the two keys agree.  The source
loop has no bound of its own; scanning past the 8-byte key buffer is
undefined behaviour, modelled by exhausting the fuel and returning none. -/
def lcpScan (ek k : ℕ → ℕ) (d j : ℕ) : ℕ → Option ℕ
  | 0 => none
  | fuel + 1 => if ek (d + j) = k (d + j) then lcpScan ek k d (j + 1) fuel else some j

/-- The inner-node prefix stage of insert (ART.cpp lines 419-443).  On a
prefix mismatch the node is split: a fresh Node4 takes the matching part of
the prefix, the old node (with its prefix shortened past the mismatch byte)
and a new leaf become its two children, and the result replaces the slot
(Sum.inl).  On a full match the depth advances past the prefix (Sum.inr).
none marks a crash inside minimum. -/
def insPrefixStage (fuel : ℕ) (t : NTree) (key : ℕ → ℕ) (depth : ℕ) (value : ℕ) :
    Option (NTree ⊕ ℕ) :=
  let pl := prefLenOf t
  if pl ≠ 0 then
    match prefixMismatch fuel t key depth with
    | none => none
    | some mis =>
      if mis ≠ pl then
        let newPf := (pfOf t).take (min mis maxPrefLen)
        if pl < maxPrefLen then
          let t1 := withPref t (pl - (mis + 1))
            (((pfOf t).drop (mis + 1)).take (min (pl - (mis + 1)) maxPrefLen))
          let m := insertNode4 mis newPf [] [] ((pfOf t).getD mis 0) t1
          some (Sum.inl (ins4 m (key (depth + mis)) (leaf value)))
        else
          match minimumF fuel t with
          | none => none
          | some r =>
            let minv := r.getD 0
            let t1 := withPref t (pl - (mis + 1))
              ((List.range (min (pl - (mis + 1)) maxPrefLen)).map
                (fun i => loadKey minv (depth + mis + 1 + i)))
            let m := insertNode4 mis newPf [] [] (loadKey minv (depth + mis)) t1
            some (Sum.inl (ins4 m (key (depth + mis)) (leaf value)))
      else some (Sum.inr (depth + pl))
  else some (Sum.inr depth)

/-- insert (ART.cpp lines 389-460).  The slot (Node** nodeRef) is the input
and the returned value; none marks undefined behaviour (the unbounded
common-prefix loop running off the key buffer, or a crash inside minimum).
A null slot takes the new leaf; an existing leaf is split below a fresh Node4;
an inner node first handles its prefix, then either recurses into the child
for the next key byte or hands the new leaf to the variant-specific insert
helper.  The switch on line 454 has no NodeTypeLinear case, so when the
learned bucket slot of an NLinear node is empty the insert changes nothing. -/
def insertF : ℕ → Option NTree → (ℕ → ℕ) → ℕ → ℕ → Option (Option NTree)
  | 0, _, _, _, _ => none
  | _fuel + 1, none, _key, _depth, value => some (some (leaf value))
  | _fuel + 1, some (leaf e), key, depth, value =>
    match lcpScan (loadKey e) key depth 0 (8 - depth) with
    | none => none
    | some npl =>
      let pf := (List.range (min npl maxPrefLen)).map (fun i => key (depth + i))
      let m := insertNode4 npl pf [] [] (loadKey e (depth + npl)) (leaf e)
      some (some (ins4 m (key (depth + npl)) (leaf value)))
  | fuel + 1, some (n4 pl pf keys ch), key, depth, value =>
    match insPrefixStage fuel (n4 pl pf keys ch) key depth value with
    | none => none
    | some (Sum.inl res) => some (some res)
    | some (Sum.inr d) =>
      match keys.findIdx? (fun x => x = key d) with
      | some i =>
        match ch.get? i with
        | none => none
        | some c =>
          match insertF fuel (some c) key (d + 1) value with
          | some (some c2) => some (some (n4 pl pf keys (ch.set i c2)))
          | _ => none
      | none => some (some (insertNode4 pl pf keys ch (key d) (leaf value)))
  | fuel + 1, some (n16 pl pf keys ch), key, depth, value =>
    match insPrefixStage fuel (n16 pl pf keys ch) key depth value with
    | none => none
    | some (Sum.inl res) => some (some res)
    | some (Sum.inr d) =>
      match keys.findIdx? (fun x => x = key d) with
      | some i =>
        match ch.get? i with
        | none => none
        | some c =>
          match insertF fuel (some c) key (d + 1) value with
          | some (some c2) => some (some (n16 pl pf keys (ch.set i c2)))
          | _ => none
      | none => some (some (insertNode16 pl pf keys ch (key d) (leaf value)))
  | fuel + 1, some (n48 pl pf ci ch cnt), key, depth, value =>
    match insPrefixStage fuel (n48 pl pf ci ch cnt) key depth value with
    | none => none
    | some (Sum.inl res) => some (some res)
    | some (Sum.inr d) =>
      if ci.getD (key d) emptyMarker ≠ emptyMarker then
        match ch.getD (ci.getD (key d) emptyMarker) none with
        | some c =>
          match insertF fuel (some c) key (d + 1) value with
          | some (some c2) =>
            some (some (n48 pl pf ci (ch.set (ci.getD (key d) emptyMarker) (some c2)) cnt))
          | _ => none
        | none => some (some (insertNode48 pl pf ci ch cnt (key d) (leaf value)))
      else some (some (insertNode48 pl pf ci ch cnt (key d) (leaf value)))
  | fuel + 1, some (n256 pl pf ch cnt), key, depth, value =>
    match insPrefixStage fuel (n256 pl pf ch cnt) key depth value with
    | none => none
    | some (Sum.inl res) => some (some res)
    | some (Sum.inr d) =>
      match ch.getD (key d) none with
      | some c =>
        match insertF fuel (some c) key (d + 1) value with
        | some (some c2) => some (some (n256 pl pf (ch.set (key d) (some c2)) cnt))
        | _ => none
      | none => some (some (insertNode256 pl pf ch cnt (key d) (leaf value)))
  | fuel + 1, some (nlin pl pf a b ch), key, depth, value =>
    match insPrefixStage fuel (nlin pl pf a b ch) key depth value with
    | none => none
    | some (Sum.inl res) => some (some res)
    | some (Sum.inr d) =>
      match ch.getD (linBucket a b (key d)) none with
      | some c =>
        match insertF fuel (some c) key (d + 1) value with
        | some (some c2) =>
          some (some (nlin pl pf a b (ch.set (linBucket a b (key d)) (some c2))))
        | _ => none
      | none => some (some (nlin pl pf a b ch))

/-- Is the node handle a pseudo-leaf (isLeaf in ART.hpp). -/
def isLeafT : NTree → Bool
  | leaf _ => true
  | _ => false

/-- The test on ART.cpp line 585: the child is a leaf whose key matches the
searched key on depth..keyLength. -/
def isLeafMatching (c : NTree) (key : ℕ → ℕ) (keyLength depth : ℕ) : Bool :=
  match c with
  | leaf v => leafMatches v key keyLength depth
  | _ => false

/-- eraseNode4 (ART.cpp lines 599-628): remove the slot; when one child is
left the node collapses into it, concatenating this node's prefix, the
surviving key byte and the surviving child's prefix (all through the 9-byte
stored buffer) when the survivor is an inner node. -/
def eraseNode4 (pl : ℕ) (pf : List ℕ) (keys : List ℕ) (ch : List NTree)
    (pos : ℕ) : NTree :=
  let keys2 := keys.eraseIdx pos
  let ch2 := ch.eraseIdx pos
  if keys2.length = 1 then
    let c := ch2.getD 0 (leaf 0)
    if isLeafT c then c
    else
      let l1 := pl
      let b1 := if l1 < maxPrefLen then pf.take l1 ++ [keys2.getD 0 0] else pf
      let l1b := if l1 < maxPrefLen then l1 + 1 else l1
      let l2 := if l1b < maxPrefLen then min (prefLenOf c) (maxPrefLen - l1b) else 0
      let b2 := b1 ++ (pfOf c).take l2
      let copied := min (l1b + l2) maxPrefLen
      withPref c (prefLenOf c + pl + 1) (b2.take copied ++ (pfOf c).drop copied)
  else n4 pl pf keys2 ch2

/-- eraseNode16 (ART.cpp lines 630-648): remove the slot; demote to Node4
when the count drops to NODE4_SIZE - 1 = 3. -/
def eraseNode16 (pl : ℕ) (pf : List ℕ) (keys : List ℕ) (ch : List NTree)
    (pos : ℕ) : NTree :=
  let keys2 := keys.eraseIdx pos
  let ch2 := ch.eraseIdx pos
  if keys2.length = NODE4_SIZE - 1 then n4 pl (pf.take (min pl maxPrefLen)) keys2 ch2
  else n16 pl pf keys2 ch2

/-- eraseNode48 (ART.cpp lines 650-670): null the slot and the childIndex
entry; demote to Node16 when the count drops to 12, scanning bytes 0..255 in
ascending order. -/
def eraseNode48 (pl : ℕ) (pf : List ℕ) (ci : List ℕ) (ch : List (Option NTree))
    (cnt : ℕ) (b : ℕ) : NTree :=
  let ch2 := ch.set (ci.getD b emptyMarker) none
  let ci2 := ci.set b emptyMarker
  let cnt2 := cnt - 1
  if cnt2 = 12 then
    let pairs := (List.range 256).filterMap (fun b2 =>
      if ci2.getD b2 emptyMarker ≠ emptyMarker then
        (ch2.getD (ci2.getD b2 emptyMarker) none).map (fun c => (b2, c))
      else none)
    n16 pl (pf.take (min pl maxPrefLen)) (pairs.map Prod.fst) (pairs.map Prod.snd)
  else n48 pl pf ci2 ch2 cnt2

/-- eraseNode256 (ART.cpp lines 672-709): null the slot and decrement count;
demote to Node48 when the count drops to NODE48_SIZE*3/4 (= 24*3/4 = 18 with
the source's NODE48_SIZE of 24), scanning bytes 0..255 in ascending order. -/
def eraseNode256 (pl : ℕ) (pf : List ℕ) (ch : List (Option NTree)) (cnt : ℕ)
    (b : ℕ) : NTree :=
  let ch2 := ch.set b none
  let cnt2 := cnt - 1
  if cnt2 = NODE48_SIZE * 3 / 4 then
    let occ := (List.range 256).filterMap (fun b2 => (ch2.getD b2 none).map (fun c => (b2, c)))
    let ci := occ.enum.foldl (fun acc p => acc.set p.2.1 p.1)
      ((List.range 256).map (fun _ => emptyMarker))
    let ch48 := occ.map (fun p => some p.2) ++ List.replicate (NODE48_SIZE - occ.length) none
    n48 pl (pf.take (min pl maxPrefLen)) ci ch48 occ.length
  else n256 pl pf ch2 cnt2

/-- The prefix stage of erase (ART.cpp lines 578-582): some none means the
prefix mismatched and erase returns without changing anything; some (some d)
continues at the advanced depth; none marks a crash inside minimum. -/
def erasePref (fuel : ℕ) (t : NTree) (key : ℕ → ℕ) (depth : ℕ) : Option (Option ℕ) :=
  if prefLenOf t ≠ 0 then
    match prefixMismatch fuel t key depth with
    | none => none
    | some m => if m ≠ prefLenOf t then some none else some (some (depth + prefLenOf t))
  else some (some depth)

/-- erase (ART.cpp lines 564-597).  A matching root leaf nulls the slot;
otherwise the inner node locates the child for the next key byte; a matching
leaf child is removed by the variant-specific helper, anything else recurses.
The switch on line 587 has no NodeTypeLinear case, so a matching leaf under an
NLinear node is left in place. -/
def eraseF : ℕ → Option NTree → (ℕ → ℕ) → ℕ → ℕ → Option (Option NTree)
  | 0, _, _, _, _ => none
  | _fuel + 1, none, _, _, _ => some none
  | _fuel + 1, some (leaf v), key, keyLength, depth =>
    if leafMatches v key keyLength depth then some none else some (some (leaf v))
  | fuel + 1, some (n4 pl pf keys ch), key, keyLength, depth =>
    match erasePref fuel (n4 pl pf keys ch) key depth with
    | none => none
    | some none => some (some (n4 pl pf keys ch))
    | some (some d) =>
      match keys.findIdx? (fun x => x = key d) with
      | none => some (some (n4 pl pf keys ch))
      | some i =>
        match ch.get? i with
        | none => none
        | some c =>
          if isLeafMatching c key keyLength d then
            some (some (eraseNode4 pl pf keys ch i))
          else
            match eraseF fuel (some c) key keyLength (d + 1) with
            | some (some c2) => some (some (n4 pl pf keys (ch.set i c2)))
            | _ => none
  | fuel + 1, some (n16 pl pf keys ch), key, keyLength, depth =>
    match erasePref fuel (n16 pl pf keys ch) key depth with
    | none => none
    | some none => some (some (n16 pl pf keys ch))
    | some (some d) =>
      match keys.findIdx? (fun x => x = key d) with
      | none => some (some (n16 pl pf keys ch))
      | some i =>
        match ch.get? i with
        | none => none
        | some c =>
          if isLeafMatching c key keyLength d then
            some (some (eraseNode16 pl pf keys ch i))
          else
            match eraseF fuel (some c) key keyLength (d + 1) with
            | some (some c2) => some (some (n16 pl pf keys (ch.set i c2)))
            | _ => none
  | fuel + 1, some (n48 pl pf ci ch cnt), key, keyLength, depth =>
    match erasePref fuel (n48 pl pf ci ch cnt) key depth with
    | none => none
    | some none => some (some (n48 pl pf ci ch cnt))
    | some (some d) =>
      if ci.getD (key d) emptyMarker ≠ emptyMarker then
        match ch.getD (ci.getD (key d) emptyMarker) none with
        | none => some (some (n48 pl pf ci ch cnt))
        | some c =>
          if isLeafMatching c key keyLength d then
            some (some (eraseNode48 pl pf ci ch cnt (key d)))
          else
            match eraseF fuel (some c) key keyLength (d + 1) with
            | some (some c2) =>
              some (some (n48 pl pf ci (ch.set (ci.getD (key d) emptyMarker) (some c2)) cnt))
            | _ => none
      else some (some (n48 pl pf ci ch cnt))
  | fuel + 1, some (n256 pl pf ch cnt), key, keyLength, depth =>
    match erasePref fuel (n256 pl pf ch cnt) key depth with
    | none => none
    | some none => some (some (n256 pl pf ch cnt))
    | some (some d) =>
      match ch.getD (key d) none with
      | none => some (some (n256 pl pf ch cnt))
      | some c =>
        if isLeafMatching c key keyLength d then
          some (some (eraseNode256 pl pf ch cnt (key d)))
        else
          match eraseF fuel (some c) key keyLength (d + 1) with
          | some (some c2) => some (some (n256 pl pf (ch.set (key d) (some c2)) cnt))
          | _ => none
  | fuel + 1, some (nlin pl pf a b ch), key, keyLength, depth =>
    match erasePref fuel (nlin pl pf a b ch) key depth with
    | none => none
    | some none => some (some (nlin pl pf a b ch))
    | some (some d) =>
      match ch.getD (linBucket a b (key d)) none with
      | none => some (some (nlin pl pf a b ch))
      | some c =>
        if isLeafMatching c key keyLength d then some (some (nlin pl pf a b ch))
        else
          match eraseF fuel (some c) key keyLength (d + 1) with
          | some (some c2) =>
            some (some (nlin pl pf a b (ch.set (linBucket a b (key d)) (some c2))))
          | _ => none

/-- The inner while loop of learn (ART.cpp lines 740-762): distribute the
count of byte value i over quantile buckets, accumulating s_y, s_y2 and s_xy.
The state is (i_count, bucket_size, y); the loop makes progress only while
bucket_size is positive, so a fuel of i_count + 1 suffices exactly when the C
loop terminates; fuel exhaustion marks the loop spinning forever. -/
def learnYLoop (n i : ℕ) : ℕ → ℕ → ℕ → ℕ → ℤ → ℤ → ℤ → Option (ℕ × ℕ × ℤ × ℤ × ℤ)
  | 0, icount, bs, y, sy, sy2, sxy =>
    if icount = 0 then some (bs, y, sy, sy2, sxy) else none
  | fuel + 1, icount, bs, y, sy, sy2, sxy =>
    if icount = 0 then some (bs, y, sy, sy2, sxy)
    else if icount ≥ bs then
      let sy2a := sy2 + (bs : ℤ) * y * y
      let sxya := sxy + (bs : ℤ) * i * y
      let sya := sy + (bs : ℤ) * y
      let bs2 := if n / LINEAR_SIZE = 0 then 1 else n / LINEAR_SIZE
      learnYLoop n i fuel (icount - bs) bs2 (y + 1) sya sy2a sxya
    else
      let sy2a := sy2 + (icount : ℤ) * y * y
      let sxya := sxy + (icount : ℤ) * i * y
      let sya := sy + (icount : ℤ) * y
      let bs2 := bs - icount
      let bs3 := if bs2 = 0 then (if n / LINEAR_SIZE = 0 then 1 else n / LINEAR_SIZE) else bs2
      learnYLoop n i fuel 0 bs3 y sya sy2a sxya

/-- learn (ART.cpp lines 717-776): the per-node linear regression.  All sums
are C ints, modelled as unbounded integers; the two final double divisions are
modelled as exact rational divisions (at every input used in a theorem below
the doubles are exact).  A zero denominator would produce IEEE infinities or
NaNs in the source and is modelled as the crash marker none, as is an
exhausted inner loop. -/
def learn (dataset : List ℕ) (depth : ℕ) : Option (Dbl × Dbl) :=
  let n := dataset.length
  let counts := fun i => (dataset.filter (fun tid => loadKey tid depth = i)).length
  let bs0 := if n / LINEAR_SIZE = 0 then 1 else n / LINEAR_SIZE
  let res := (List.range 256).foldl
    (fun (st : Option (ℕ × ℕ × ℤ × ℤ × ℤ × ℤ × ℤ)) i =>
      match st with
      | none => none
      | some (bs, y, sx, sx2, sy, sy2, sxy) =>
        let c := counts i
        let sxa := sx + (c : ℤ) * i
        let sx2a := sx2 + (c : ℤ) * c * i
        match learnYLoop n i (c + 1) c bs y sy sy2 sxy with
        | none => none
        | some (bs2, y2, sya, sy2a, sxya) => some (bs2, y2, sxa, sx2a, sya, sy2a, sxya))
    (some (bs0, 0, 0, 0, 0, 0, 0))
  match res with
  | none => none
  | some (_, _, sx, sx2, sy, _, sxy) =>
    let den : ℤ := n * sx2 - sx * sx
    if den = 0 then none
    else some (⟨(n : ℤ) * sxy - sx * sy, den⟩, ⟨sy * sx2 - sx * sxy, den⟩)

/-- predict (ART.cpp lines 778-785): the learned bucket with saturation,
checking the lower bound first. -/
def predict (a b : Dbl) (byte : ℕ) : ℕ :=
  let bucket := dblAxPlusB a b byte
  if bucket < 0 then 0
  else if bucket ≥ (LINEAR_SIZE : ℤ) then LINEAR_SIZE - 1
  else bucket.toNat

/-- The shared-prefix loop of insertBulk (ART.cpp lines 814-831): the number
of consecutive positions from depth, capped at maxPrefixLength, at which every
dataset key agrees with the first key. -/
def computeNpl (dataset : List ℕ) (depth : ℕ) : ℕ :=
  ((List.range maxPrefLen).takeWhile (fun j =>
    dataset.all (fun tid => loadKey tid (depth + j) = loadKey (dataset.headD 0) (depth + j)))).length

/-- insertBulk (ART.cpp lines 787-874).  With 1 < n ≤ 8 the loop point-inserts
dataset[1] .. dataset[n-1] (starting at index 1) into the slot; with n ≤ 1 it
returns; otherwise it allocates an NLinear when the slot is null, computes the
shared prefix, learns the regression at the advanced depth, scatters the
dataset into buckets by predict, and recurses per bucket: a fresh NLinear
above 8 members, a pre-installed leaf for 1..8 members.  The fuel only bounds
the recursion depth (the source can recurse forever when the learned model
maps every key to one bucket and no prefix is consumed). -/
def insertBulk : ℕ → Option NTree → List ℕ → ℕ → Option (Option NTree)
  | 0, _, _, _ => none
  | fuel + 1, slot, dataset, depth =>
    let n := dataset.length
    if n ≤ 8 ∧ n > 1 then
      (dataset.drop 1).foldlM (fun s tid => insertF (fuel + 1) s (loadKey tid) depth tid) slot
    else if n ≤ 1 then some slot
    else
      match (match slot with
             | none => nlin 0 [] ⟨0, 1⟩ ⟨0, 1⟩ (List.replicate LINEAR_SIZE none)
             | some t => t) with
      | nlin _pl0 _pf0 _a0 _b0 ch =>
        let npl := computeNpl dataset depth
        let pf2 := (List.range (min npl maxPrefLen)).map
          (fun i => loadKey (dataset.headD 0) (depth + i))
        let d2 := depth + npl
        match learn dataset d2 with
        | none => none
        | some (a, b) =>
          let chRes := (List.range LINEAR_SIZE).foldlM
            (fun (chAcc : List (Option NTree)) i =>
              let bd := dataset.filter (fun tid => predict a b (loadKey tid d2) = i)
              if bd.length > 8 then
                match insertBulk fuel (some (nlin 0 [] ⟨0, 1⟩ ⟨0, 1⟩ (List.replicate LINEAR_SIZE none))) bd d2 with
                | some r => some (chAcc.set i r)
                | none => none
              else if bd.length ≠ 0 then
                match insertBulk fuel (some (leaf (bd.headD 0))) bd d2 with
                | some r => some (chAcc.set i r)
                | none => none
              else some chAcc) ch
          match chRes with
          | none => none
          | some ch2 => some (some (nlin npl pf2 a b ch2))
      | _ => none

/-- All NLinear occupancy vectors found in a tree, in traversal order: one
list of 10 booleans (slot populated or not) per NLinear node. -/
def nlinOccL : NTree → List (List Bool)
  | leaf _ => []
  | n4 _ _ _ ch => ch.attach.flatMap (fun x => nlinOccL x.1)
  | n16 _ _ _ ch => ch.attach.flatMap (fun x => nlinOccL x.1)
  | n48 _ _ _ ch _ =>
    ch.attach.flatMap (fun x =>
      match x with
      | ⟨none, _⟩ => []
      | ⟨some c, _⟩ => nlinOccL c)
  | n256 _ _ ch _ =>
    ch.attach.flatMap (fun x =>
      match x with
      | ⟨none, _⟩ => []
      | ⟨some c, _⟩ => nlinOccL c)
  | nlin _ _ _ _ ch =>
    (ch.map Option.isSome) ::
      ch.attach.flatMap (fun x =>
        match x with
        | ⟨none, _⟩ => []
        | ⟨some c, _⟩ => nlinOccL c)
termination_by t => sizeOf t
decreasing_by
  · have := List.sizeOf_lt_of_mem x.2
    simp only [NTree.n4.sizeOf_spec]
    omega
  · have := List.sizeOf_lt_of_mem x.2
    simp only [NTree.n16.sizeOf_spec]
    omega
  · rename_i hmem
    have h1 := List.sizeOf_lt_of_mem hmem
    simp only [Option.some.sizeOf_spec] at h1
    simp only [NTree.n48.sizeOf_spec]
    omega
  · rename_i hmem
    have h1 := List.sizeOf_lt_of_mem hmem
    simp only [Option.some.sizeOf_spec] at h1
    simp only [NTree.n256.sizeOf_spec]
    omega
  · rename_i hmem
    have h1 := List.sizeOf_lt_of_mem hmem
    simp only [Option.some.sizeOf_spec] at h1
    simp only [NTree.nlin.sizeOf_spec]
    omega

/-- The multiset of NLinear occupancy vectors of a tree (the child sets of
the NLinear nodes, up to reordering of nodes). -/
def nlinOcc (t : NTree) : Multiset (List Bool) := (nlinOccL t : Multiset (List Bool))

/-- nlinOcc lifted to a nullable slot. -/
def nlinOccOpt : Option NTree → Multiset (List Bool)
  | none => 0
  | some t => nlinOcc t

/-- The tuple identifiers of all leaves of a tree, in traversal order. -/
def tids : NTree → List ℕ
  | leaf v => [v]
  | n4 _ _ _ ch => ch.attach.flatMap (fun x => tids x.1)
  | n16 _ _ _ ch => ch.attach.flatMap (fun x => tids x.1)
  | n48 _ _ _ ch _ =>
    ch.attach.flatMap (fun x =>
      match x with
      | ⟨none, _⟩ => []
      | ⟨some c, _⟩ => tids c)
  | n256 _ _ ch _ =>
    ch.attach.flatMap (fun x =>
      match x with
      | ⟨none, _⟩ => []
      | ⟨some c, _⟩ => tids c)
  | nlin _ _ _ _ ch =>
    ch.attach.flatMap (fun x =>
      match x with
      | ⟨none, _⟩ => []
      | ⟨some c, _⟩ => tids c)
termination_by t => sizeOf t
decreasing_by
  · have := List.sizeOf_lt_of_mem x.2
    simp only [NTree.n4.sizeOf_spec]
    omega
  · have := List.sizeOf_lt_of_mem x.2
    simp only [NTree.n16.sizeOf_spec]
    omega
  · rename_i hmem
    have h1 := List.sizeOf_lt_of_mem hmem
    simp only [Option.some.sizeOf_spec] at h1
    simp only [NTree.n48.sizeOf_spec]
    omega
  · rename_i hmem
    have h1 := List.sizeOf_lt_of_mem hmem
    simp only [Option.some.sizeOf_spec] at h1
    simp only [NTree.n256.sizeOf_spec]
    omega
  · rename_i hmem
    have h1 := List.sizeOf_lt_of_mem hmem
    simp only [Option.some.sizeOf_spec] at h1
    simp only [NTree.nlin.sizeOf_spec]
    omega

/-- tids lifted to a nullable slot. -/
def tidsOpt : Option NTree → List ℕ
  | none => []
  | some t => tids t

theorem attach_flatMap_eq {α β : Type} (l : List α) (f : α → List β) :
    l.attach.flatMap (fun x => f x.1) = l.flatMap f := by
  rw [List.flatMap_def, List.flatMap_def, List.attach_map_val l f]

@[simp] theorem tids_leaf (v : ℕ) : tids (leaf v) = [v] := by
  simp [tids]

@[simp] theorem tids_n4 (pl : ℕ) (pf keys : List ℕ) (ch : List NTree) :
    tids (n4 pl pf keys ch) = ch.flatMap tids := by
  rw [tids]
  exact attach_flatMap_eq ch tids

@[simp] theorem tids_n16 (pl : ℕ) (pf keys : List ℕ) (ch : List NTree) :
    tids (n16 pl pf keys ch) = ch.flatMap tids := by
  rw [tids]
  exact attach_flatMap_eq ch tids

@[simp] theorem tids_n48 (pl : ℕ) (pf ci : List ℕ) (ch : List (Option NTree)) (cnt : ℕ) :
    tids (n48 pl pf ci ch cnt) = ch.flatMap tidsOpt := by
  rw [tids]
  have : (fun (x : {x // x ∈ ch}) =>
      (match x with
       | ⟨none, _⟩ => []
       | ⟨some c, _⟩ => tids c)) = fun (x : {x // x ∈ ch}) => tidsOpt x.1 := by
    funext x
    rcases x with ⟨o, ho⟩
    cases o <;> rfl
  rw [this]
  exact attach_flatMap_eq ch tidsOpt

@[simp] theorem tids_n256 (pl : ℕ) (pf : List ℕ) (ch : List (Option NTree)) (cnt : ℕ) :
    tids (n256 pl pf ch cnt) = ch.flatMap tidsOpt := by
  rw [tids]
  have : (fun (x : {x // x ∈ ch}) =>
      (match x with
       | ⟨none, _⟩ => []
       | ⟨some c, _⟩ => tids c)) = fun (x : {x // x ∈ ch}) => tidsOpt x.1 := by
    funext x
    rcases x with ⟨o, ho⟩
    cases o <;> rfl
  rw [this]
  exact attach_flatMap_eq ch tidsOpt

@[simp] theorem tids_nlin (pl : ℕ) (pf : List ℕ) (a b : Dbl) (ch : List (Option NTree)) :
    tids (nlin pl pf a b ch) = ch.flatMap tidsOpt := by
  rw [tids]
  have : (fun (x : {x // x ∈ ch}) =>
      (match x with
       | ⟨none, _⟩ => []
       | ⟨some c, _⟩ => tids c)) = fun (x : {x // x ∈ ch}) => tidsOpt x.1 := by
    funext x
    rcases x with ⟨o, ho⟩
    cases o <;> rfl
  rw [this]
  exact attach_flatMap_eq ch tidsOpt

/-- Lexicographic comparison (≤) of two keys on byte positions d..7. -/
def LexLeFrom (d : ℕ) (f g : ℕ → ℕ) : Prop :=
  AgreeOn f g d 8 ∨ ∃ j, d ≤ j ∧ j < 8 ∧ f j < g j ∧ AgreeOn f g d j

/-- Well-formedness of a subtree whose prefix starts at absolute key position
d, for trees built of the four adaptive variants over 8-byte keys; trees
containing NLinear nodes (which only the bulk loader creates) are not
covered.  It packages the invariants that point insert and point erase
maintain: the branch position d + prefixLength stays inside the key, the
stored prefix bytes are the bytes every leaf below shares, N4/N16 key arrays
are strictly sorted and aligned with the child arrays, the N48 childIndex /
child arrays are coherent, counts equal the number of populated slots and
stay within the ranges enforced by the promotion (4→16 at 5, 16→48 at 17,
48→256 at 25) and demotion (16→4 at 3, 48→16 at 12, 256→48 at 18) thresholds,
and each child's leaves carry the child's branch byte at the branch
position. -/
inductive Wf : ℕ → NTree → Prop where
  | leaf {d v : ℕ} (hd : d ≤ 8) (hv : v < 2 ^ 64) : Wf d (leaf v)
  | n4 {d pl : ℕ} {pf keys : List ℕ} {ch : List NTree}
      (hd : d + pl ≤ 7)
      (hpf : pf.length = pl)
      (hlen : keys.length = ch.length)
      (hcnt : 2 ≤ keys.length) (hcnt2 : keys.length ≤ 4)
      (hsort : keys.Pairwise (· < ·))
      (hbyte : ∀ b ∈ keys, b < 256)
      (hch : ∀ i, i < ch.length → Wf (d + pl + 1) (ch.getD i (leaf 0)))
      (hbr : ∀ i, i < ch.length → ∀ w ∈ tids (ch.getD i (leaf 0)),
        loadKey w (d + pl) = keys.getD i 0)
      (hpref : ∀ w ∈ ch.flatMap tids, ∀ j, j < pl → loadKey w (d + j) = pf.getD j 0) :
      Wf d (n4 pl pf keys ch)
  | n16 {d pl : ℕ} {pf keys : List ℕ} {ch : List NTree}
      (hd : d + pl ≤ 7)
      (hpf : pf.length = pl)
      (hlen : keys.length = ch.length)
      (hcnt : 4 ≤ keys.length) (hcnt2 : keys.length ≤ 16)
      (hsort : keys.Pairwise (· < ·))
      (hbyte : ∀ b ∈ keys, b < 256)
      (hch : ∀ i, i < ch.length → Wf (d + pl + 1) (ch.getD i (leaf 0)))
      (hbr : ∀ i, i < ch.length → ∀ w ∈ tids (ch.getD i (leaf 0)),
        loadKey w (d + pl) = keys.getD i 0)
      (hpref : ∀ w ∈ ch.flatMap tids, ∀ j, j < pl → loadKey w (d + j) = pf.getD j 0) :
      Wf d (n16 pl pf keys ch)
  | n48 {d pl : ℕ} {pf ci : List ℕ} {ch : List (Option NTree)} {cnt : ℕ}
      (hd : d + pl ≤ 7)
      (hpf : pf.length = pl)
      (hcilen : ci.length = 256) (hchlen : ch.length = 24)
      (hcival : ∀ b, b < 256 → ci.getD b emptyMarker = emptyMarker ∨
        (ci.getD b emptyMarker < 24 ∧ (ch.getD (ci.getD b emptyMarker) none).isSome))
      (hinj : ∀ b1 b2, b1 < 256 → b2 < 256 → ci.getD b1 emptyMarker ≠ emptyMarker →
        ci.getD b1 emptyMarker = ci.getD b2 emptyMarker → b1 = b2)
      (hsl : ∀ j, j < 24 → (ch.getD j none).isSome →
        ∃ b, b < 256 ∧ ci.getD b emptyMarker = j)
      (hcnt : cnt =
        ((List.range 256).filter (fun b => ci.getD b emptyMarker ≠ emptyMarker)).length)
      (hscnt : cnt = ((List.range 24).filter (fun j => (ch.getD j none).isSome)).length)
      (hc1 : 13 ≤ cnt) (hc2 : cnt ≤ 24)
      (hch : ∀ b, b < 256 → ci.getD b emptyMarker ≠ emptyMarker →
        ∀ c, ch.getD (ci.getD b emptyMarker) none = some c → Wf (d + pl + 1) c)
      (hbr : ∀ b, b < 256 → ci.getD b emptyMarker ≠ emptyMarker →
        ∀ c, ch.getD (ci.getD b emptyMarker) none = some c →
          ∀ w ∈ tids c, loadKey w (d + pl) = b)
      (hpref : ∀ w ∈ ch.flatMap tidsOpt, ∀ j, j < pl → loadKey w (d + j) = pf.getD j 0) :
      Wf d (n48 pl pf ci ch cnt)
  | n256 {d pl : ℕ} {pf : List ℕ} {ch : List (Option NTree)} {cnt : ℕ}
      (hd : d + pl ≤ 7)
      (hpf : pf.length = pl)
      (hchlen : ch.length = 256)
      (hcnt : cnt = ((List.range 256).filter (fun b => (ch.getD b none).isSome)).length)
      (hc1 : 19 ≤ cnt) (hc2 : cnt ≤ 256)
      (hch : ∀ b, b < 256 → ∀ c, ch.getD b none = some c → Wf (d + pl + 1) c)
      (hbr : ∀ b, b < 256 → ∀ c, ch.getD b none = some c →
        ∀ w ∈ tids c, loadKey w (d + pl) = b)
      (hpref : ∀ w ∈ ch.flatMap tidsOpt, ∀ j, j < pl → loadKey w (d + j) = pf.getD j 0) :
      Wf d (n256 pl pf ch cnt)

/-- Wf lifted to a nullable root slot. -/
def WfOpt (d : ℕ) : Option NTree → Prop
  | none => True
  | some t => Wf d t

theorem loadKey_lt (v i : ℕ) : loadKey v i < 256 := by
  unfold loadKey
  split
  · exact Nat.mod_lt _ (by norm_num)
  · norm_num

theorem digits256_inj : ∀ (k v w : ℕ), v < 256 ^ k → w < 256 ^ k →
    (∀ i, i < k → v / 256 ^ i % 256 = w / 256 ^ i % 256) → v = w := by
  intro k
  induction k with
  | zero =>
    intro v w hv hw _
    simp only [pow_zero] at hv hw
    omega
  | succ k ih =>
    intro v w hv hw h
    have h0 := h 0 (by omega)
    simp only [pow_zero, Nat.div_one] at h0
    have hpow : ∀ i : ℕ, 256 * 256 ^ i = 256 ^ (i + 1) := by
      intro i
      rw [pow_succ]
      ring
    have hdig : ∀ i, i < k → v / 256 / 256 ^ i % 256 = w / 256 / 256 ^ i % 256 := by
      intro i hi
      rw [Nat.div_div_eq_div_mul, Nat.div_div_eq_div_mul, hpow]
      exact h (i + 1) (by omega)
    have hvb : v / 256 < 256 ^ k := by
      rw [Nat.div_lt_iff_lt_mul (by norm_num : (0:ℕ) < 256)]
      calc v < 256 ^ (k + 1) := hv
        _ = 256 ^ k * 256 := by rw [pow_succ]
    have hwb : w / 256 < 256 ^ k := by
      rw [Nat.div_lt_iff_lt_mul (by norm_num : (0:ℕ) < 256)]
      calc w < 256 ^ (k + 1) := hw
        _ = 256 ^ k * 256 := by rw [pow_succ]
    have hq := ih (v / 256) (w / 256) hvb hwb hdig
    have hv2 := Nat.div_add_mod v 256
    have hw2 := Nat.div_add_mod w 256
    omega

/-- Two tuple identifiers below 2^64 with the same 8 key bytes are equal. -/
theorem loadKey_inj {v w : ℕ} (hv : v < 2 ^ 64) (hw : w < 2 ^ 64)
    (h : ∀ i, i < 8 → loadKey v i = loadKey w i) : v = w := by
  have h256 : (2 : ℕ) ^ 64 = 256 ^ 8 := by norm_num
  apply digits256_inj 8 v w (h256 ▸ hv) (h256 ▸ hw)
  intro i hi
  have := h (7 - i) (by omega)
  unfold loadKey at this
  rw [if_pos (by omega : 7 - i < 8), if_pos (by omega : 7 - i < 8)] at this
  have h7 : 7 - (7 - i) = i := by omega
  rw [h7] at this
  exact this

/-- AgreeOn from position d implies the keys of two stored leaves agree
everywhere below 8 once they also agree on 0..d. -/
theorem agreeOn_trans {f g h : ℕ → ℕ} {lo hi : ℕ}
    (h1 : AgreeOn f g lo hi) (h2 : AgreeOn g h lo hi) : AgreeOn f h lo hi := by
  intro i h3 h4
  rw [h1 i h3 h4, h2 i h3 h4]

theorem agreeOn_symm {f g : ℕ → ℕ} {lo hi : ℕ} (h1 : AgreeOn f g lo hi) :
    AgreeOn g f lo hi := by
  intro i h3 h4
  rw [h1 i h3 h4]

theorem agreeOn_mono {f g : ℕ → ℕ} {lo lo2 hi : ℕ} (h1 : AgreeOn f g lo hi)
    (h2 : lo ≤ lo2) : AgreeOn f g lo2 hi := by
  intro i h3 h4
  exact h1 i h3 (by omega)

/-- Membership in the leaf list of an N4/N16 child array, by index. -/
theorem mem_flatMap_tids {w : ℕ} {ch : List NTree} :
    w ∈ ch.flatMap tids ↔ ∃ i, i < ch.length ∧ w ∈ tids (ch.getD i (leaf 0)) := by
  rw [List.mem_flatMap]
  constructor
  · rintro ⟨c, hc, hw⟩
    rcases List.mem_iff_getElem.mp hc with ⟨i, hi, hg⟩
    refine ⟨i, hi, ?_⟩
    rw [List.getD_eq_getElem _ _ hi, hg]
    exact hw
  · rintro ⟨i, hi, hw⟩
    refine ⟨ch.getD i (leaf 0), ?_, hw⟩
    rw [List.getD_eq_getElem _ _ hi]
    exact List.getElem_mem hi

/-- Membership in the leaf list of an optional child array, by index. -/
theorem mem_flatMap_tidsOpt {w : ℕ} {ch : List (Option NTree)} :
    w ∈ ch.flatMap tidsOpt ↔
      ∃ i, i < ch.length ∧ ∃ c, ch.getD i none = some c ∧ w ∈ tids c := by
  rw [List.mem_flatMap]
  constructor
  · rintro ⟨o, ho, hw⟩
    rcases List.mem_iff_getElem.mp ho with ⟨i, hi, hg⟩
    rcases o with _ | c
    · simp [tidsOpt] at hw
    · refine ⟨i, hi, c, ?_, hw⟩
      rw [List.getD_eq_getElem _ _ hi, hg]
  · rintro ⟨i, hi, c, hc, hw⟩
    refine ⟨some c, ?_, hw⟩
    rw [List.getD_eq_getElem _ _ hi] at hc
    rw [← hc]
    exact List.getElem_mem hi

/-- Every stored tuple identifier of a well-formed subtree fits in 63+1 bits. -/
theorem wf_tids_lt {d : ℕ} {t : NTree} (hwf : Wf d t) : ∀ w ∈ tids t, w < 2 ^ 64 := by
  induction hwf with
  | leaf hd hv =>
    intro w hw
    simp only [tids_leaf, List.mem_singleton] at hw
    omega
  | n4 hd hpf hlen hcnt hcnt2 hsort hbyte hch hbr hpref ihch =>
    intro w hw
    rw [tids_n4] at hw
    rcases mem_flatMap_tids.mp hw with ⟨i, hi, hmem⟩
    exact ihch i hi w hmem
  | n16 hd hpf hlen hcnt hcnt2 hsort hbyte hch hbr hpref ihch =>
    intro w hw
    rw [tids_n16] at hw
    rcases mem_flatMap_tids.mp hw with ⟨i, hi, hmem⟩
    exact ihch i hi w hmem
  | n48 hd hpf hcilen hchlen hcival hinj hsl hcnt hscnt hc1 hc2 hch hbr hpref ihch =>
    intro w hw
    rw [tids_n48] at hw
    rcases mem_flatMap_tidsOpt.mp hw with ⟨i, hi, c, hc, hmem⟩
    rename_i d pl pf ci ch cnt
    have hi24 : i < 24 := by rw [hchlen] at hi; exact hi
    have hocc : (ch.getD i none).isSome := by rw [hc]; rfl
    rcases hsl i hi24 hocc with ⟨b, hb, hcib⟩
    have hne : ci.getD b emptyMarker ≠ emptyMarker := by
      rw [hcib]
      unfold emptyMarker NODE48_SIZE
      omega
    exact ihch b hb hne c (by rw [hcib]; exact hc) w hmem
  | n256 hd hpf hchlen hcnt hc1 hc2 hch hbr hpref ihch =>
    intro w hw
    rw [tids_n256] at hw
    rcases mem_flatMap_tidsOpt.mp hw with ⟨i, hi, c, hc, hmem⟩
    rename_i d pl pf ch cnt
    have hi256 : i < 256 := by rw [hchlen] at hi; exact hi
    exact ihch i hi256 c hc w hmem

/-- A well-formed subtree stores at least one leaf. -/
theorem wf_tids_ne_nil {d : ℕ} {t : NTree} (hwf : Wf d t) : tids t ≠ [] := by
  induction hwf with
  | leaf hd hv => simp
  | n4 hd hpf hlen hcnt hcnt2 hsort hbyte hch hbr hpref ihch =>
    rw [tids_n4]
    intro hnil
    rcases List.exists_mem_of_ne_nil _ (ihch 0 (by omega)) with ⟨w, hw⟩
    have hmem := mem_flatMap_tids.mpr ⟨0, by omega, hw⟩
    rw [hnil] at hmem
    simp at hmem
  | n16 hd hpf hlen hcnt hcnt2 hsort hbyte hch hbr hpref ihch =>
    rw [tids_n16]
    intro hnil
    rcases List.exists_mem_of_ne_nil _ (ihch 0 (by omega)) with ⟨w, hw⟩
    have hmem := mem_flatMap_tids.mpr ⟨0, by omega, hw⟩
    rw [hnil] at hmem
    simp at hmem
  | n48 hd hpf hcilen hchlen hcival hinj hsl hcnt hscnt hc1 hc2 hch hbr hpref ihch =>
    rename_i d2 pl pf ci ch cnt
    rw [tids_n48]
    intro hnil
    have hfne : (List.range 256).filter (fun b => ci.getD b emptyMarker ≠ emptyMarker) ≠ [] := by
      intro hf
      rw [hf] at hcnt
      simp at hcnt
      omega
    rcases List.exists_mem_of_ne_nil _ hfne with ⟨b, hbmem⟩
    have hb256 : b < 256 := by
      have := List.mem_filter.mp hbmem
      simpa using this.1
    have hbne : ci.getD b emptyMarker ≠ emptyMarker := by
      have := List.mem_filter.mp hbmem
      simpa using this.2
    rcases hcival b hb256 with hemp | ⟨hlt, hocc⟩
    · exact hbne hemp
    rcases ho : ch.getD (ci.getD b emptyMarker) none with _ | c
    · rw [ho] at hocc; simp at hocc
    rcases List.exists_mem_of_ne_nil _ (ihch b hb256 hbne c ho) with ⟨w, hw⟩
    have hmem := mem_flatMap_tidsOpt.mpr
      ⟨ci.getD b emptyMarker, by omega, c, ho, hw⟩
    rw [hnil] at hmem
    simp at hmem
  | n256 hd hpf hchlen hcnt hc1 hc2 hch hbr hpref ihch =>
    rename_i d2 pl pf ch cnt
    rw [tids_n256]
    intro hnil
    have hfne : (List.range 256).filter (fun b => (ch.getD b none).isSome) ≠ [] := by
      intro hf
      rw [hf] at hcnt
      simp at hcnt
      omega
    rcases List.exists_mem_of_ne_nil _ hfne with ⟨b, hbmem⟩
    have hb256 : b < 256 := by
      have := List.mem_filter.mp hbmem
      simpa using this.1
    have hocc : (ch.getD b none).isSome = true := by
      have := List.mem_filter.mp hbmem
      simpa using this.2
    rcases ho : ch.getD b none with _ | c
    · rw [ho] at hocc; simp at hocc
    rcases List.exists_mem_of_ne_nil _ (ihch b hb256 c ho) with ⟨w, hw⟩
    have hmem := mem_flatMap_tidsOpt.mpr ⟨b, by omega, c, ho, hw⟩
    rw [hnil] at hmem
    simp at hmem

/-- In a strictly sorted list, positions with equal entries coincide. -/
theorem sorted_getD_inj {keys : List ℕ} (hsort : keys.Pairwise (· < ·))
    {i j : ℕ} (hi : i < keys.length) (hj : j < keys.length)
    (h : keys.getD i 0 = keys.getD j 0) : i = j := by
  rcases Nat.lt_trichotomy i j with hij | hij | hij
  · exfalso
    have := List.pairwise_iff_getElem.mp hsort i j hi hj hij
    rw [List.getD_eq_getElem _ _ hi, List.getD_eq_getElem _ _ hj] at h
    omega
  · exact hij
  · exfalso
    have := List.pairwise_iff_getElem.mp hsort j i hj hi hij
    rw [List.getD_eq_getElem _ _ hi, List.getD_eq_getElem _ _ hj] at h
    omega

/-- Two leaves of a well-formed subtree whose keys agree on every byte
position from d on are the same leaf: the structure separates distinct keys. -/
theorem wf_agree_eq {d : ℕ} {t : NTree} (hwf : Wf d t) :
    ∀ w1 ∈ tids t, ∀ w2 ∈ tids t,
      AgreeOn (loadKey w1) (loadKey w2) d 8 → w1 = w2 := by
  induction hwf with
  | leaf hd hv =>
    intro w1 hw1 w2 hw2 _
    simp only [tids_leaf, List.mem_singleton] at hw1 hw2
    rw [hw1, hw2]
  | n4 hd hpf hlen hcnt hcnt2 hsort hbyte hch hbr hpref ihch =>
    rename_i d2 pl pf keys ch
    intro w1 hw1 w2 hw2 hagree
    rw [tids_n4] at hw1 hw2
    rcases mem_flatMap_tids.mp hw1 with ⟨i1, hi1, hm1⟩
    rcases mem_flatMap_tids.mp hw2 with ⟨i2, hi2, hm2⟩
    have hb1 := hbr i1 hi1 w1 hm1
    have hb2 := hbr i2 hi2 w2 hm2
    have heq : keys.getD i1 0 = keys.getD i2 0 := by
      rw [← hb1, ← hb2]
      exact hagree (d2 + pl) (by omega) (by omega)
    have hii : i1 = i2 := sorted_getD_inj hsort (by omega) (by omega) heq
    rw [hii] at hm1
    exact ihch i2 hi2 w1 hm1 w2 hm2 (agreeOn_mono hagree (by omega))
  | n16 hd hpf hlen hcnt hcnt2 hsort hbyte hch hbr hpref ihch =>
    rename_i d2 pl pf keys ch
    intro w1 hw1 w2 hw2 hagree
    rw [tids_n16] at hw1 hw2
    rcases mem_flatMap_tids.mp hw1 with ⟨i1, hi1, hm1⟩
    rcases mem_flatMap_tids.mp hw2 with ⟨i2, hi2, hm2⟩
    have hb1 := hbr i1 hi1 w1 hm1
    have hb2 := hbr i2 hi2 w2 hm2
    have heq : keys.getD i1 0 = keys.getD i2 0 := by
      rw [← hb1, ← hb2]
      exact hagree (d2 + pl) (by omega) (by omega)
    have hii : i1 = i2 := sorted_getD_inj hsort (by omega) (by omega) heq
    rw [hii] at hm1
    exact ihch i2 hi2 w1 hm1 w2 hm2 (agreeOn_mono hagree (by omega))
  | n48 hd hpf hcilen hchlen hcival hinj hsl hcnt hscnt hc1 hc2 hch hbr hpref ihch =>
    rename_i d2 pl pf ci ch cnt
    intro w1 hw1 w2 hw2 hagree
    rw [tids_n48] at hw1 hw2
    rcases mem_flatMap_tidsOpt.mp hw1 with ⟨i1, hi1, c1, hc1m, hm1⟩
    rcases mem_flatMap_tidsOpt.mp hw2 with ⟨i2, hi2, c2, hc2m, hm2⟩
    have hocc1 : (ch.getD i1 none).isSome := by rw [hc1m]; rfl
    have hocc2 : (ch.getD i2 none).isSome := by rw [hc2m]; rfl
    rcases hsl i1 (by omega) hocc1 with ⟨b1, hb1r, hcib1⟩
    rcases hsl i2 (by omega) hocc2 with ⟨b2, hb2r, hcib2⟩
    have hne1 : ci.getD b1 emptyMarker ≠ emptyMarker := by
      rw [hcib1]; unfold emptyMarker NODE48_SIZE; omega
    have hne2 : ci.getD b2 emptyMarker ≠ emptyMarker := by
      rw [hcib2]; unfold emptyMarker NODE48_SIZE; omega
    have hbyte1 := hbr b1 hb1r hne1 c1 (by rw [hcib1]; exact hc1m) w1 hm1
    have hbyte2 := hbr b2 hb2r hne2 c2 (by rw [hcib2]; exact hc2m) w2 hm2
    have hbb : b1 = b2 := by
      rw [← hbyte1, ← hbyte2]
      exact hagree (d2 + pl) (by omega) (by omega)
    have hii : i1 = i2 := by rw [← hcib1, ← hcib2, hbb]
    have hc12 : c1 = c2 := by
      rw [hii] at hc1m
      rw [hc1m] at hc2m
      exact Option.some_inj.mp hc2m
    rw [hc12] at hm1
    exact ihch b2 hb2r hne2 c2 (by rw [hcib2]; exact hc2m) w1 hm1 w2 hm2
      (agreeOn_mono hagree (by omega))
  | n256 hd hpf hchlen hcnt hc1 hc2 hch hbr hpref ihch =>
    rename_i d2 pl pf ch cnt
    intro w1 hw1 w2 hw2 hagree
    rw [tids_n256] at hw1 hw2
    rcases mem_flatMap_tidsOpt.mp hw1 with ⟨i1, hi1, c1, hc1m, hm1⟩
    rcases mem_flatMap_tidsOpt.mp hw2 with ⟨i2, hi2, c2, hc2m, hm2⟩
    have hbyte1 := hbr i1 (by omega) c1 hc1m w1 hm1
    have hbyte2 := hbr i2 (by omega) c2 hc2m w2 hm2
    have hbb : i1 = i2 := by
      rw [← hbyte1, ← hbyte2]
      exact hagree (d2 + pl) (by omega) (by omega)
    have hc12 : c1 = c2 := by
      rw [hbb] at hc1m
      rw [hc1m] at hc2m
      exact Option.some_inj.mp hc2m
    rw [hc12] at hm1
    exact ihch i2 (by omega) c2 hc2m w1 hm1 w2 hm2 (agreeOn_mono hagree (by omega))

theorem lookupPref_match {pl : ℕ} {pf : List ℕ} {key : ℕ → ℕ} {d : ℕ} {sk : Bool}
    (hpl : pl < maxPrefLen)
    (hmatch : ∀ j, j < pl → key (d + j) = pf.getD j 0) :
    lookupPref pl pf key d sk = some (d + pl, sk) := by
  unfold lookupPref
  by_cases h0 : pl = 0
  · subst h0
    simp
  · rw [if_pos h0, if_pos hpl, if_pos]
    rw [List.all_eq_true]
    intro x hx
    rw [List.mem_range] at hx
    exact decide_eq_true (hmatch x hx)

theorem lookupPref_mismatch {pl : ℕ} {pf : List ℕ} {key : ℕ → ℕ} {d : ℕ} {sk : Bool}
    (hpl : pl < maxPrefLen) {j : ℕ} (hj : j < pl) (hmis : key (d + j) ≠ pf.getD j 0) :
    lookupPref pl pf key d sk = none := by
  unfold lookupPref
  rw [if_pos (by omega : pl ≠ 0), if_pos hpl, if_neg]
  rw [List.all_eq_true]
  intro hall
  have := hall j (List.mem_range.mpr hj)
  exact hmis (of_decide_eq_true this)

/-- The optimistic lookup on a well-formed subtree returns the unique stored
leaf whose key matches the searched key from position d on, or NULL when no
stored key matches; it never exhausts its fuel when the fuel covers the
remaining key length. -/
theorem lookupF_wf {d : ℕ} {t : NTree} (hwf : Wf d t) :
    ∀ fuel, 9 - d ≤ fuel → ∀ key : ℕ → ℕ,
      (∃ v, v ∈ tids t ∧ AgreeOn (loadKey v) key d 8 ∧
        lookupF fuel t key 8 d false = some (some v)) ∨
      ((∀ w ∈ tids t, ¬ AgreeOn (loadKey w) key d 8) ∧
        lookupF fuel t key 8 d false = some none) := by
  induction hwf with
  | leaf hd hv =>
    rename_i d2 v
    intro fuel hfuel key
    rcases fuel with _ | f
    · omega
    by_cases h8 : d2 = 8
    · subst h8
      left
      exact ⟨v, by simp, by intro i h1 h2; omega, by simp [lookupF]⟩
    · by_cases hag : AgreeOn (loadKey v) key d2 8
      · left
        refine ⟨v, by simp, hag, ?_⟩
        simp [lookupF, h8, hag]
      · right
        refine ⟨?_, ?_⟩
        · intro w hw
          simp only [tids_leaf, List.mem_singleton] at hw
          rw [hw]
          exact hag
        · simp [lookupF, h8, hag]
  | n4 hd hpf hlen hcnt hcnt2 hsort hbyte hch hbr hpref ihch =>
    rename_i d2 pl pf keys ch
    intro fuel hfuel key
    rcases fuel with _ | f
    · omega
    by_cases hpm : ∀ j, j < pl → key (d2 + j) = pf.getD j 0
    · -- prefix matches; continue at d2 + pl
      have hlp := @lookupPref_match _ _ _ _ false (by unfold maxPrefLen; omega : pl < maxPrefLen) hpm
      rcases hfind : keys.findIdx? (fun x => x = key (d2 + pl)) with _ | i
      · -- no child for the next byte: NULL
        right
        constructor
        · intro w hw hag
          rw [tids_n4] at hw
          rcases mem_flatMap_tids.mp hw with ⟨i, hi, hm⟩
          have hb := hbr i hi w hm
          have hkey : keys.getD i 0 = key (d2 + pl) := by
            rw [← hb]
            exact hag (d2 + pl) (by omega) (by omega)
          rw [List.findIdx?_eq_none_iff] at hfind
          have hmemk : keys.getD i 0 ∈ keys := by
            rw [List.getD_eq_getElem _ _ (by omega)]
            exact List.getElem_mem (by omega)
          have := hfind _ hmemk
          simp only [decide_eq_false_iff_not] at this
          exact this hkey
        · simp only [lookupF, hlp, hfind]
      · -- child found at index i
        rcases List.findIdx?_eq_some_iff_getElem.mp hfind with ⟨hilen, hpi, hfirst⟩
        have hkeyi : keys.getD i 0 = key (d2 + pl) := by
          rw [List.getD_eq_getElem _ _ hilen]
          exact of_decide_eq_true hpi
        have hich : i < ch.length := by omega
        rcases hg : ch.get? i with _ | c
        · rw [List.get?_eq_getElem?, List.getElem?_eq_getElem hich] at hg
          simp at hg
        have hc : ch.getD i (leaf 0) = c := by
          rw [List.get?_eq_getElem?, List.getElem?_eq_getElem hich] at hg
          rw [List.getD_eq_getElem _ _ hich]
          exact Option.some_inj.mp hg
        have hihc := ihch i hich f (by omega) key
        rw [hc] at hihc
        rcases hihc with ⟨v, hvm, hvag, hvlk⟩ | ⟨hnone, hlk⟩
        · left
          refine ⟨v, ?_, ?_, ?_⟩
          · rw [tids_n4]
            exact mem_flatMap_tids.mpr ⟨i, hich, by rw [hc]; exact hvm⟩
          · intro j hj8 hdj
            by_cases hjlt : j < d2 + pl
            · have := hpref v (mem_flatMap_tids.mpr ⟨i, hich, by rw [hc]; exact hvm⟩)
                (j - d2) (by omega)
              have h2 := hpm (j - d2) (by omega)
              have hj2 : d2 + (j - d2) = j := by omega
              rw [hj2] at this h2
              rw [this, h2]
            · by_cases hjeq : j = d2 + pl
              · subst hjeq
                have := hbr i hich v (by rw [hc]; exact hvm)
                rw [this, hkeyi]
              · exact hvag j hj8 (by omega)
          · simp only [lookupF, hlp, hfind, hg]
            exact hvlk
        · right
          constructor
          · intro w hw hag
            rw [tids_n4] at hw
            rcases mem_flatMap_tids.mp hw with ⟨i2, hi2, hm2⟩
            have hb2 := hbr i2 hi2 w hm2
            have hkey2 : keys.getD i2 0 = key (d2 + pl) := by
              rw [← hb2]
              exact hag (d2 + pl) (by omega) (by omega)
            have hii : i2 = i :=
              sorted_getD_inj hsort (by omega) (by omega) (by rw [hkey2, hkeyi])
            rw [hii, hc] at hm2
            exact hnone w hm2 (agreeOn_mono hag (by omega))
          · simp only [lookupF, hlp, hfind, hg]
            exact hlk
    · -- prefix mismatch: NULL, and nothing below matches
      push_neg at hpm
      rcases hpm with ⟨j, hj, hne⟩
      have hlp := @lookupPref_mismatch _ _ key _ false
        (by unfold maxPrefLen; omega : pl < maxPrefLen) _ hj hne
      right
      constructor
      · intro w hw hag
        rw [tids_n4] at hw
        have := hpref w hw j hj
        have h2 := hag (d2 + j) (by omega) (by omega)
        rw [h2] at this
        exact hne this
      · simp only [lookupF, hlp]
  | n16 hd hpf hlen hcnt hcnt2 hsort hbyte hch hbr hpref ihch =>
    rename_i d2 pl pf keys ch
    intro fuel hfuel key
    rcases fuel with _ | f
    · omega
    by_cases hpm : ∀ j, j < pl → key (d2 + j) = pf.getD j 0
    · have hlp := @lookupPref_match _ _ _ _ false (by unfold maxPrefLen; omega : pl < maxPrefLen) hpm
      rcases hfind : keys.findIdx? (fun x => x = key (d2 + pl)) with _ | i
      · right
        constructor
        · intro w hw hag
          rw [tids_n16] at hw
          rcases mem_flatMap_tids.mp hw with ⟨i, hi, hm⟩
          have hb := hbr i hi w hm
          have hkey : keys.getD i 0 = key (d2 + pl) := by
            rw [← hb]
            exact hag (d2 + pl) (by omega) (by omega)
          rw [List.findIdx?_eq_none_iff] at hfind
          have hmemk : keys.getD i 0 ∈ keys := by
            rw [List.getD_eq_getElem _ _ (by omega)]
            exact List.getElem_mem (by omega)
          have := hfind _ hmemk
          simp only [decide_eq_false_iff_not] at this
          exact this hkey
        · simp only [lookupF, hlp, hfind]
      · rcases List.findIdx?_eq_some_iff_getElem.mp hfind with ⟨hilen, hpi, hfirst⟩
        have hkeyi : keys.getD i 0 = key (d2 + pl) := by
          rw [List.getD_eq_getElem _ _ hilen]
          exact of_decide_eq_true hpi
        have hich : i < ch.length := by omega
        rcases hg : ch.get? i with _ | c
        · rw [List.get?_eq_getElem?, List.getElem?_eq_getElem hich] at hg
          simp at hg
        have hc : ch.getD i (leaf 0) = c := by
          rw [List.get?_eq_getElem?, List.getElem?_eq_getElem hich] at hg
          rw [List.getD_eq_getElem _ _ hich]
          exact Option.some_inj.mp hg
        have hihc := ihch i hich f (by omega) key
        rw [hc] at hihc
        rcases hihc with ⟨v, hvm, hvag, hvlk⟩ | ⟨hnone, hlk⟩
        · left
          refine ⟨v, ?_, ?_, ?_⟩
          · rw [tids_n16]
            exact mem_flatMap_tids.mpr ⟨i, hich, by rw [hc]; exact hvm⟩
          · intro j hj8 hdj
            by_cases hjlt : j < d2 + pl
            · have := hpref v (mem_flatMap_tids.mpr ⟨i, hich, by rw [hc]; exact hvm⟩)
                (j - d2) (by omega)
              have h2 := hpm (j - d2) (by omega)
              have hj2 : d2 + (j - d2) = j := by omega
              rw [hj2] at this h2
              rw [this, h2]
            · by_cases hjeq : j = d2 + pl
              · subst hjeq
                have := hbr i hich v (by rw [hc]; exact hvm)
                rw [this, hkeyi]
              · exact hvag j hj8 (by omega)
          · simp only [lookupF, hlp, hfind, hg]
            exact hvlk
        · right
          constructor
          · intro w hw hag
            rw [tids_n16] at hw
            rcases mem_flatMap_tids.mp hw with ⟨i2, hi2, hm2⟩
            have hb2 := hbr i2 hi2 w hm2
            have hkey2 : keys.getD i2 0 = key (d2 + pl) := by
              rw [← hb2]
              exact hag (d2 + pl) (by omega) (by omega)
            have hii : i2 = i :=
              sorted_getD_inj hsort (by omega) (by omega) (by rw [hkey2, hkeyi])
            rw [hii, hc] at hm2
            exact hnone w hm2 (agreeOn_mono hag (by omega))
          · simp only [lookupF, hlp, hfind, hg]
            exact hlk
    · push_neg at hpm
      rcases hpm with ⟨j, hj, hne⟩
      have hlp := @lookupPref_mismatch _ _ key _ false
        (by unfold maxPrefLen; omega : pl < maxPrefLen) _ hj hne
      right
      constructor
      · intro w hw hag
        rw [tids_n16] at hw
        have := hpref w hw j hj
        have h2 := hag (d2 + j) (by omega) (by omega)
        rw [h2] at this
        exact hne this
      · simp only [lookupF, hlp]
  | n48 hd hpf hcilen hchlen hcival hinj hsl hcnt hscnt hc1 hc2 hch hbr hpref ihch =>
    rename_i d2 pl pf ci ch cnt
    intro fuel hfuel key
    rcases fuel with _ | f
    · omega
    by_cases hpm : ∀ j, j < pl → key (d2 + j) = pf.getD j 0
    · have hlp := @lookupPref_match _ _ _ _ false (by unfold maxPrefLen; omega : pl < maxPrefLen) hpm
      by_cases hemp : ci.getD (key (d2 + pl)) emptyMarker = emptyMarker
      · right
        constructor
        · intro w hw hag
          rw [tids_n48] at hw
          rcases mem_flatMap_tidsOpt.mp hw with ⟨i, hi, c, hcm, hm⟩
          have hocc : (ch.getD i none).isSome := by rw [hcm]; rfl
          rcases hsl i (by omega) hocc with ⟨b, hb256, hcib⟩
          have hbne : ci.getD b emptyMarker ≠ emptyMarker := by
            rw [hcib]; unfold emptyMarker NODE48_SIZE; omega
          have hbw := hbr b hb256 hbne c (by rw [hcib]; exact hcm) w hm
          have : b = key (d2 + pl) := by
            rw [← hbw]
            exact hag (d2 + pl) (by omega) (by omega)
          rw [this] at hbne
          exact hbne hemp
        · simp only [lookupF, hlp]
          rw [if_neg (by simpa using hemp)]
      · have hb256 : key (d2 + pl) < 256 := by
          by_contra hge
          push_neg at hge
          have : ci.getD (key (d2 + pl)) emptyMarker = emptyMarker :=
            List.getD_eq_default _ _ (by omega)
          exact hemp this
        rcases hcival (key (d2 + pl)) hb256 with h | ⟨hlt, hocc⟩
        · exact absurd h hemp
        rcases hcm : ch.getD (ci.getD (key (d2 + pl)) emptyMarker) none with _ | c
        · rw [hcm] at hocc; simp at hocc
        have hihc := ihch (key (d2 + pl)) hb256 hemp c hcm f (by omega) key
        rcases hihc with ⟨v, hvm, hvag, hvlk⟩ | ⟨hnone, hlk⟩
        · left
          refine ⟨v, ?_, ?_, ?_⟩
          · rw [tids_n48]
            exact mem_flatMap_tidsOpt.mpr
              ⟨ci.getD (key (d2 + pl)) emptyMarker, by omega, c, hcm, hvm⟩
          · intro j hj8 hdj
            by_cases hjlt : j < d2 + pl
            · have := hpref v (mem_flatMap_tidsOpt.mpr
                ⟨ci.getD (key (d2 + pl)) emptyMarker, by omega, c, hcm, hvm⟩)
                (j - d2) (by omega)
              have h2 := hpm (j - d2) (by omega)
              have hj2 : d2 + (j - d2) = j := by omega
              rw [hj2] at this h2
              rw [this, h2]
            · by_cases hjeq : j = d2 + pl
              · subst hjeq
                exact hbr (key (d2 + pl)) hb256 hemp c hcm v hvm
              · exact hvag j hj8 (by omega)
          · simp only [lookupF, hlp]
            rw [if_pos (by simpa using hemp)]
            simp only [hcm]
            exact hvlk
        · right
          constructor
          · intro w hw hag
            rw [tids_n48] at hw
            rcases mem_flatMap_tidsOpt.mp hw with ⟨i2, hi2, c2, hcm2, hm2⟩
            have hocc2 : (ch.getD i2 none).isSome := by rw [hcm2]; rfl
            rcases hsl i2 (by omega) hocc2 with ⟨b2, hb2r, hcib2⟩
            have hbne2 : ci.getD b2 emptyMarker ≠ emptyMarker := by
              rw [hcib2]; unfold emptyMarker NODE48_SIZE; omega
            have hbw2 := hbr b2 hb2r hbne2 c2 (by rw [hcib2]; exact hcm2) w hm2
            have hbb : b2 = key (d2 + pl) := by
              rw [← hbw2]
              exact hag (d2 + pl) (by omega) (by omega)
            have hslot : i2 = ci.getD (key (d2 + pl)) emptyMarker := by
              rw [← hcib2, hbb]
            rw [hslot, hcm] at hcm2
            have hc2c : c2 = c := Option.some_inj.mp hcm2.symm
            rw [hc2c] at hm2
            exact hnone w hm2 (agreeOn_mono hag (by omega))
          · simp only [lookupF, hlp]
            rw [if_pos (by simpa using hemp)]
            simp only [hcm]
            exact hlk
    · push_neg at hpm
      rcases hpm with ⟨j, hj, hne⟩
      have hlp := @lookupPref_mismatch _ _ key _ false
        (by unfold maxPrefLen; omega : pl < maxPrefLen) _ hj hne
      right
      constructor
      · intro w hw hag
        rw [tids_n48] at hw
        have := hpref w hw j hj
        have h2 := hag (d2 + j) (by omega) (by omega)
        rw [h2] at this
        exact hne this
      · simp only [lookupF, hlp]
  | n256 hd hpf hchlen hcnt hc1 hc2 hch hbr hpref ihch =>
    rename_i d2 pl pf ch cnt
    intro fuel hfuel key
    rcases fuel with _ | f
    · omega
    by_cases hpm : ∀ j, j < pl → key (d2 + j) = pf.getD j 0
    · have hlp := @lookupPref_match _ _ _ _ false (by unfold maxPrefLen; omega : pl < maxPrefLen) hpm
      rcases hcm : ch.getD (key (d2 + pl)) none with _ | c
      · right
        constructor
        · intro w hw hag
          rw [tids_n256] at hw
          rcases mem_flatMap_tidsOpt.mp hw with ⟨i, hi, c, hcm2, hm⟩
          have hbw := hbr i (by omega) c hcm2 w hm
          have : i = key (d2 + pl) := by
            rw [← hbw]
            exact hag (d2 + pl) (by omega) (by omega)
          rw [this, hcm] at hcm2
          simp at hcm2
        · simp only [lookupF, hlp, hcm]
      · have hb256 : key (d2 + pl) < 256 := by
          by_contra hge
          push_neg at hge
          have : ch.getD (key (d2 + pl)) none = none :=
            List.getD_eq_default _ _ (by omega)
          rw [this] at hcm
          exact Option.noConfusion hcm
        have hihc := ihch (key (d2 + pl)) hb256 c hcm f (by omega) key
        rcases hihc with ⟨v, hvm, hvag, hvlk⟩ | ⟨hnone, hlk⟩
        · left
          refine ⟨v, ?_, ?_, ?_⟩
          · rw [tids_n256]
            exact mem_flatMap_tidsOpt.mpr ⟨key (d2 + pl), by omega, c, hcm, hvm⟩
          · intro j hj8 hdj
            by_cases hjlt : j < d2 + pl
            · have := hpref v
                (mem_flatMap_tidsOpt.mpr ⟨key (d2 + pl), by omega, c, hcm, hvm⟩)
                (j - d2) (by omega)
              have h2 := hpm (j - d2) (by omega)
              have hj2 : d2 + (j - d2) = j := by omega
              rw [hj2] at this h2
              rw [this, h2]
            · by_cases hjeq : j = d2 + pl
              · subst hjeq
                exact hbr (key (d2 + pl)) hb256 c hcm v hvm
              · exact hvag j hj8 (by omega)
          · simp only [lookupF, hlp, hcm]
            exact hvlk
        · right
          constructor
          · intro w hw hag
            rw [tids_n256] at hw
            rcases mem_flatMap_tidsOpt.mp hw with ⟨i2, hi2, c2, hcm2, hm2⟩
            have hbw2 := hbr i2 (by omega) c2 hcm2 w hm2
            have : i2 = key (d2 + pl) := by
              rw [← hbw2]
              exact hag (d2 + pl) (by omega) (by omega)
            rw [this, hcm] at hcm2
            have hc2c : c2 = c := Option.some_inj.mp hcm2.symm
            rw [hc2c] at hm2
            exact hnone w hm2 (agreeOn_mono hag (by omega))
          · simp only [lookupF, hlp, hcm]
            exact hlk
    · push_neg at hpm
      rcases hpm with ⟨j, hj, hne⟩
      have hlp := @lookupPref_mismatch _ _ key _ false
        (by unfold maxPrefLen; omega : pl < maxPrefLen) _ hj hne
      right
      constructor
      · intro w hw hag
        rw [tids_n256] at hw
        have := hpref w hw j hj
        have h2 := hag (d2 + j) (by omega) (by omega)
        rw [h2] at this
        exact hne this
      · simp only [lookupF, hlp]

theorem getD_mem {l : List ℕ} {i : ℕ} (h : i < l.length) : l.getD i 0 ∈ l := by
  rw [List.getD_eq_getElem _ _ h]
  exact List.getElem_mem h

theorem pairwise_getD {l : List ℕ} (hs : l.Pairwise (· < ·)) {i j : ℕ}
    (hi : i < l.length) (hj : j < l.length) (hij : i < j) :
    l.getD i 0 < l.getD j 0 := by
  have := List.pairwise_iff_getElem.mp hs i j hi hj hij
  rw [List.getD_eq_getElem _ _ hi, List.getD_eq_getElem _ _ hj]
  exact this

theorem findIdx_getD_true {p : ℕ → Bool} {l : List ℕ} (h : l.findIdx p < l.length) :
    p (l.getD (l.findIdx p) 0) = true := by
  rw [List.getD_eq_getElem _ _ h]
  exact List.findIdx_getElem

theorem findIdx_getD_false {p : ℕ → Bool} {l : List ℕ} {i : ℕ}
    (h : i < l.findIdx p) (hl : i < l.length) : p (l.getD i 0) = false := by
  rw [List.getD_eq_getElem _ _ hl]
  exact List.not_of_lt_findIdx h

theorem getD_insertIdx_lt {α : Type} {l : List α} {pos i : ℕ} (a dflt : α)
    (hpos : pos ≤ l.length) (hi : i < pos) :
    (l.insertIdx pos a).getD i dflt = l.getD i dflt := by
  have hlen := List.length_insertIdx pos l hpos (a := a)
  rw [List.getD_eq_getElem _ _ (by omega), List.getD_eq_getElem _ _ (by omega)]
  exact List.getElem_insertIdx_of_lt l a pos i hi (by omega)

theorem getD_insertIdx_self {α : Type} {l : List α} {pos : ℕ} (a dflt : α)
    (hpos : pos ≤ l.length) :
    (l.insertIdx pos a).getD pos dflt = a := by
  have hlen := List.length_insertIdx pos l hpos (a := a)
  rw [List.getD_eq_getElem _ _ (by omega)]
  exact List.getElem_insertIdx_self l a pos (by omega)

theorem getD_insertIdx_ge {α : Type} {l : List α} {pos i : ℕ} (a dflt : α)
    (hpos : pos ≤ l.length) (hi : pos < i) (hile : i < l.length + 1) :
    (l.insertIdx pos a).getD i dflt = l.getD (i - 1) dflt := by
  have hlen := List.length_insertIdx pos l hpos (a := a)
  rw [List.getD_eq_getElem _ _ (by omega), List.getD_eq_getElem _ _ (by omega)]
  have := List.getElem_insertIdx_add_succ l a pos (i - pos - 1)
    (by omega : pos + (i - pos - 1) < l.length)
  convert this using 2 <;> omega

/-- Characterisation of the insert position used by insertNode4/insertNode16
on a sorted key array when the byte is not present: everything before the
position is smaller, everything at and after it is larger. -/
theorem findIdx_sorted_spec {keys : List ℕ} {b : ℕ} {p : ℕ → Bool}
    (hsort : keys.Pairwise (· < ·))
    (hp : ∀ x ∈ keys, p x = true ↔ b < x)
    (hfresh : b ∉ keys) :
    keys.findIdx p ≤ keys.length ∧
      (∀ i, i < keys.findIdx p → keys.getD i 0 < b) ∧
      (∀ i, keys.findIdx p ≤ i → i < keys.length → b < keys.getD i 0) := by
  refine ⟨List.findIdx_le_length p, ?_, ?_⟩
  · intro i hi
    have hlt : i < keys.length := by
      have := @List.findIdx_le_length _ p keys
      omega
    have hnp := findIdx_getD_false hi hlt
    have hmem : keys.getD i 0 ∈ keys := getD_mem hlt
    have hnb : ¬ b < keys.getD i 0 := by
      intro hc
      rw [(hp _ hmem).mpr hc] at hnp
      simp at hnp
    have hneq : keys.getD i 0 ≠ b := fun hf => hfresh (hf ▸ hmem)
    omega
  · intro i hge hlt
    have hposlt : keys.findIdx p < keys.length := by omega
    have hpp := findIdx_getD_true hposlt
    have hbpos : b < keys.getD (keys.findIdx p) 0 :=
      (hp _ (getD_mem hposlt)).mp hpp
    rcases Nat.eq_or_lt_of_le hge with h | h
    · rw [← h]
      exact hbpos
    · have := pairwise_getD hsort hposlt hlt h
      omega

/-- Sorted insertion: inserting a byte at a position below which all entries
are smaller and from which all entries are larger keeps the array strictly
sorted. -/
theorem sorted_insertIdx {keys : List ℕ} {b pos : ℕ}
    (hsort : keys.Pairwise (· < ·)) (hpos : pos ≤ keys.length)
    (hbefore : ∀ i, i < pos → keys.getD i 0 < b)
    (hafter : ∀ i, pos ≤ i → i < keys.length → b < keys.getD i 0) :
    (keys.insertIdx pos b).Pairwise (· < ·) := by
  rw [List.pairwise_iff_getElem]
  intro i j hi hj hij
  have hlen := List.length_insertIdx pos keys hpos (a := b)
  rw [hlen] at hi hj
  rw [← List.getD_eq_getElem (List.insertIdx pos b keys) 0 (by rw [hlen]; exact hi),
    ← List.getD_eq_getElem (List.insertIdx pos b keys) 0 (by rw [hlen]; exact hj)]
  rcases Nat.lt_trichotomy i pos with hip | hip | hip
  · rw [getD_insertIdx_lt _ _ hpos hip]
    rcases Nat.lt_trichotomy j pos with hjp | hjp | hjp
    · rw [getD_insertIdx_lt _ _ hpos hjp]
      exact pairwise_getD hsort (by omega) (by omega) hij
    · rw [hjp, getD_insertIdx_self _ _ hpos]
      exact hbefore i hip
    · rw [getD_insertIdx_ge _ _ hpos hjp (by omega)]
      rcases Nat.lt_or_ge (j - 1) pos with hj1 | hj1
      · exact pairwise_getD hsort (by omega) (by omega) (by omega)
      · calc keys.getD i 0 < b := hbefore i hip
          _ < keys.getD (j - 1) 0 := hafter (j - 1) hj1 (by omega)
  · rw [hip, getD_insertIdx_self _ _ hpos,
      getD_insertIdx_ge _ _ hpos (by omega) (by omega)]
    exact hafter (j - 1) (by omega) (by omega)
  · rw [getD_insertIdx_ge _ _ hpos (by omega) (by omega),
      getD_insertIdx_ge _ _ hpos (by omega) (by omega)]
    exact pairwise_getD hsort (by omega) (by omega) (by omega)

theorem getD_set_self {α : Type} {l : List α} {i : ℕ} (a dflt : α) (h : i < l.length) :
    (l.set i a).getD i dflt = a := by
  rw [List.getD_eq_getElem?_getD, List.getElem?_set_self h]
  rfl

theorem getD_set_ne {α : Type} {l : List α} {i j : ℕ} (a dflt : α) (h : i ≠ j) :
    (l.set i a).getD j dflt = l.getD j dflt := by
  rw [List.getD_eq_getElem?_getD, List.getElem?_set_ne h, ← List.getD_eq_getElem?_getD]

/-- Counting elements that satisfy a predicate after the predicate flips from
false to true at exactly one list element. -/
theorem countP_update_add_one {p q : ℕ → Bool} {x : ℕ} :
    ∀ (l : List ℕ), l.Nodup → x ∈ l → (∀ y ∈ l, y ≠ x → p y = q y) →
      p x = false → q x = true → l.countP q = l.countP p + 1 := by
  intro l
  induction l with
  | nil => intro _ hx; simp at hx
  | cons a as ih =>
    intro hnd hx hagree hpx hqx
    rw [List.countP_cons, List.countP_cons]
    rcases List.mem_cons.mp hx with hax | hx2
    · have hnin : a ∉ as := (List.nodup_cons.mp hnd).1
      have hsame : as.countP q = as.countP p :=
        List.countP_congr (fun y hy => by
          rw [hagree y (List.mem_cons_of_mem _ hy)
            (fun hc => hnin (hax ▸ hc ▸ hy))])
      rw [hsame, ← hax, hpx, hqx]
      simp
    · have hane : a ≠ x := fun hc => (List.nodup_cons.mp hnd).1 (hc ▸ hx2)
      rw [ih (List.nodup_cons.mp hnd).2 hx2
        (fun y hy hyx => hagree y (List.mem_cons_of_mem _ hy) hyx) hpx hqx,
        hagree a (List.mem_cons_self a as) hane]
      omega

/-- The same, for filtered lengths over a range. -/
theorem filter_range_length_update {n : ℕ} {p q : ℕ → Bool} {x : ℕ} (hx : x < n)
    (hsame : ∀ y, y < n → y ≠ x → p y = q y) (hpx : p x = false) (hqx : q x = true) :
    ((List.range n).filter q).length = ((List.range n).filter p).length + 1 := by
  rw [← List.countP_eq_length_filter, ← List.countP_eq_length_filter]
  exact countP_update_add_one (List.range n) (List.nodup_range n)
    (List.mem_range.mpr hx)
    (fun y hy => hsame y (List.mem_range.mp hy)) hpx hqx

/-- Filtered lengths over a range agree for pointwise equal predicates. -/
theorem filter_range_length_congr {n : ℕ} {p q : ℕ → Bool}
    (hsame : ∀ y, y < n → p y = q y) :
    ((List.range n).filter q).length = ((List.range n).filter p).length := by
  rw [← List.countP_eq_length_filter, ← List.countP_eq_length_filter]
  exact (List.countP_congr (fun y hy => by
    rw [hsame y (List.mem_range.mp hy)])).symm

/-- A range filter that misses everything below its full length has an
element failing the predicate. -/
theorem filter_range_exists_not {n : ℕ} {p : ℕ → Bool}
    (h : ((List.range n).filter p).length < n) : ∃ j, j < n ∧ p j = false := by
  by_contra hc
  push_neg at hc
  have : ∀ a ∈ List.range n, p a = true := by
    intro a ha
    rcases hb : p a with hf | ht
    · exact absurd hb (by
        have := hc a (List.mem_range.mp ha)
        intro h2
        rw [h2] at this
        exact this rfl)
    · rfl
  have := List.filter_eq_self.mpr this
  rw [this, List.length_range] at h
  omega

/-- getD after the accumulator fold that builds an N48 childIndex from an
enumerated key list, at a byte that is not a key: unchanged. -/
theorem fold_set_enumFrom_getD_not_mem {dflt : ℕ} :
    ∀ (keys : List ℕ) (n : ℕ) (acc : List ℕ) (b : ℕ),
      (∀ k ∈ keys, k < acc.length) → b ∉ keys →
      ((List.enumFrom n keys).foldl (fun a p => a.set p.2 p.1) acc).getD b dflt =
        acc.getD b dflt := by
  intro keys
  induction keys with
  | nil => intro n acc b _ _; rfl
  | cons k ks ih =>
    intro n acc b hlen hb
    rw [List.enumFrom_cons]
    simp only [List.foldl_cons]
    rw [ih (n + 1) (acc.set k n) b
      (by
        intro kk hkk
        rw [List.length_set]
        exact hlen kk (List.mem_cons_of_mem _ hkk))
      (fun hc => hb (List.mem_cons_of_mem _ hc))]
    exact getD_set_ne _ _ (fun hc => hb (hc ▸ List.mem_cons_self k ks))

/-- Length is preserved by the childIndex-building fold. -/
theorem fold_set_enumFrom_length :
    ∀ (keys : List ℕ) (n : ℕ) (acc : List ℕ),
      ((List.enumFrom n keys).foldl (fun a p => a.set p.2 p.1) acc).length =
        acc.length := by
  intro keys
  induction keys with
  | nil => intro n acc; rfl
  | cons k ks ih =>
    intro n acc
    rw [List.enumFrom_cons]
    simp only [List.foldl_cons]
    rw [ih (n + 1) (acc.set k n), List.length_set]

/-- getD after the accumulator fold that builds an N48 childIndex from an
enumerated key list: a key at position i maps to n + i, anything else is
unchanged. -/
theorem fold_set_enumFrom_getD_mem {dflt : ℕ} :
    ∀ (keys : List ℕ) (n : ℕ) (acc : List ℕ) (i : ℕ),
      keys.Nodup → (∀ k ∈ keys, k < acc.length) → i < keys.length →
      ((List.enumFrom n keys).foldl (fun a p => a.set p.2 p.1) acc).getD
          (keys.getD i 0) dflt = n + i := by
  intro keys
  induction keys with
  | nil => intro n acc i _ _ hi; simp at hi
  | cons k ks ih =>
    intro n acc i hnd hlen hi
    rw [List.enumFrom_cons]
    simp only [List.foldl_cons]
    rcases i with _ | j
    · simp only [List.getD_cons_zero]
      have hknotin : k ∉ ks := (List.nodup_cons.mp hnd).1
      rw [fold_set_enumFrom_getD_not_mem ks (n + 1) (acc.set k n) k
        (by
          intro kk hkk
          rw [List.length_set]
          exact hlen kk (List.mem_cons_of_mem _ hkk)) hknotin]
      exact getD_set_self _ _ (hlen k (List.mem_cons_self _ _))
    · simp only [List.getD_cons_succ]
      rw [ih (n + 1) (acc.set k n) j (List.nodup_cons.mp hnd).2
        (by
          intro kk hkk
          rw [List.length_set]
          exact hlen kk (List.mem_cons_of_mem _ hkk)) (by simpa using hi)]
      omega

/-- Membership in the leaves of a child array after a simultaneous sorted
insertion into keys and children. -/
theorem mem_flatMap_insertIdx {w : ℕ} {ch : List NTree} {pos : ℕ} {c : NTree}
    (hpos : pos ≤ ch.length) :
    w ∈ (ch.insertIdx pos c).flatMap tids ↔ w ∈ tids c ∨ w ∈ ch.flatMap tids := by
  rw [List.mem_flatMap, List.mem_flatMap]
  constructor
  · rintro ⟨x, hx, hw⟩
    rcases (List.mem_insertIdx hpos).mp hx with h | h
    · left; rw [← h]; exact hw
    · right; exact ⟨x, h, hw⟩
  · rintro (h | ⟨x, hx, hw⟩)
    · exact ⟨c, (List.mem_insertIdx hpos).mpr (Or.inl rfl), h⟩
    · exact ⟨x, (List.mem_insertIdx hpos).mpr (Or.inr hx), hw⟩

theorem getD_range {n i : ℕ} (h : i < n) : (List.range n).getD i 0 = i := by
  rw [List.getD_eq_getElem?_getD, List.getElem?_range h]
  rfl

theorem getD_range_map {α : Type} {n j : ℕ} {f : ℕ → α} (dflt : α) (h : j < n) :
    ((List.range n).map f).getD j dflt = f j := by
  rw [List.getD_eq_getElem?_getD, List.getElem?_map, List.getElem?_range h]
  rfl

theorem getD_drop {α : Type} {l : List α} {k j : ℕ} (dflt : α) :
    (l.drop k).getD j dflt = l.getD (k + j) dflt := by
  rw [List.getD_eq_getElem?_getD, List.getD_eq_getElem?_getD, List.getElem?_drop]

theorem getD_take {α : Type} {l : List α} {k j : ℕ} (dflt : α) (h : j < k) :
    (l.take k).getD j dflt = l.getD j dflt := by
  rw [List.getD_eq_getElem?_getD, List.getD_eq_getElem?_getD, List.getElem?_take,
    if_pos h]

/-- First-hit characterisation of find? over an initial segment of ℕ. -/
theorem find_range_spec (n : ℕ) (p : ℕ → Bool) :
    ((List.range n).find? p = none ∧ ∀ y, y < n → p y = false) ∨
      ∃ x, (List.range n).find? p = some x ∧ x < n ∧ p x = true ∧
        ∀ y, y < x → p y = false := by
  induction n with
  | zero => left; exact ⟨rfl, by omega⟩
  | succ m ih =>
    rw [List.range_succ, List.find?_append]
    rcases ih with ⟨hnone, hall⟩ | ⟨x, hx, hxn, hpx, hmin⟩
    · rw [hnone]
      rcases hpm : p m with _ | _
      · left
        refine ⟨by simp [List.find?, hpm], ?_⟩
        intro y hy
        rcases Nat.lt_or_ge y m with h | h
        · exact hall y h
        · have hym : y = m := by omega
          rw [hym]
          exact hpm
      · right
        exact ⟨m, by simp [List.find?, hpm], by omega, hpm, hall⟩
    · right
      exact ⟨x, by rw [hx]; rfl, by omega, hpx, hmin⟩

/-- The first index of range 0..n-1 satisfying a predicate, when one exists. -/
theorem findIdx_range_spec {n : ℕ} {p : ℕ → Bool} {j : ℕ} (hj : j < n)
    (hpj : p j = true) :
    (List.range n).findIdx p < n ∧ p ((List.range n).findIdx p) = true ∧
      ∀ i, i < (List.range n).findIdx p → p i = false := by
  have hlt : (List.range n).findIdx p < (List.range n).length :=
    List.findIdx_lt_length_of_exists ⟨j, List.mem_range.mpr hj, hpj⟩
  rw [List.length_range] at hlt
  have h1 := findIdx_getD_true (l := List.range n) (p := p)
    (by rw [List.length_range]; exact hlt)
  rw [getD_range hlt] at h1
  refine ⟨hlt, h1, ?_⟩
  intro i hi
  have h2 := findIdx_getD_false (l := List.range n) (p := p) hi
    (by rw [List.length_range]; omega)
  rwa [getD_range (by omega)] at h2

/-- The common-prefix loop of insert stops exactly at the first position where
the two keys differ (ART.cpp lines 403-405). -/
theorem lcpScan_spec {ek k : ℕ → ℕ} {d j0 : ℕ}
    (hne : ek (d + j0) ≠ k (d + j0)) :
    ∀ fuel j, j ≤ j0 → j0 - j < fuel →
      (∀ i, j ≤ i → i < j0 → ek (d + i) = k (d + i)) →
      lcpScan ek k d j fuel = some j0 := by
  intro fuel
  induction fuel with
  | zero => intro j hj hfj _; omega
  | succ f ih =>
    intro j hj hfj hag
    rcases Nat.eq_or_lt_of_le hj with he | hlt
    · rw [he, lcpScan, if_neg hne]
    · rw [lcpScan, if_pos (hag j le_rfl hlt)]
      exact ih (j + 1) hlt (by omega) (fun i h1 h2 => hag i (by omega) h2)

/-- If the two keys agree at every position from depth on, the common-prefix
loop of insert never stops: the source loop runs off the key buffer. -/
theorem lcpScan_agree_none {ek k : ℕ → ℕ} {d : ℕ}
    (hag : ∀ i, ek (d + i) = k (d + i)) :
    ∀ fuel j, lcpScan ek k d j fuel = none := by
  intro fuel
  induction fuel with
  | zero => intro j; rfl
  | succ f ih =>
    intro j
    rw [lcpScan, if_pos (hag j)]
    exact ih (j + 1)

@[simp] theorem tids_withPref (t : NTree) (pl : ℕ) (pf : List ℕ) :
    tids (withPref t pl pf) = tids t := by
  cases t <;> simp [withPref]

/-- Every leaf of a well-formed node realises the stored prefix bytes. -/
theorem wf_pref_byte {d : ℕ} {t : NTree} (hwf : Wf d t) :
    ∀ w ∈ tids t, ∀ j, j < prefLenOf t → loadKey w (d + j) = (pfOf t).getD j 0 := by
  cases hwf with
  | leaf hd hv =>
    intro w hw j hj
    simp [prefLenOf] at hj
  | n4 hd hpf hlen hcnt hcnt2 hsort hbyte hch hbr hpref =>
    intro w hw j hj
    rw [tids_n4] at hw
    simp only [prefLenOf] at hj
    simp only [pfOf]
    exact hpref w hw j hj
  | n16 hd hpf hlen hcnt hcnt2 hsort hbyte hch hbr hpref =>
    intro w hw j hj
    rw [tids_n16] at hw
    simp only [prefLenOf] at hj
    simp only [pfOf]
    exact hpref w hw j hj
  | n48 hd hpf hcilen hchlen hcival hinj hsl hcnt hscnt hc1 hc2 hch hbr hpref =>
    intro w hw j hj
    rw [tids_n48] at hw
    simp only [prefLenOf] at hj
    simp only [pfOf]
    exact hpref w hw j hj
  | n256 hd hpf hchlen hcnt hc1 hc2 hch hbr hpref =>
    intro w hw j hj
    rw [tids_n256] at hw
    simp only [prefLenOf] at hj
    simp only [pfOf]
    exact hpref w hw j hj

/-- Updating one child slot with a tree whose leaves are the old child's plus
one new identifier updates the node's leaf membership the same way. -/
theorem mem_flatMap_tids_set {ch : List NTree} {i : ℕ} {c2 : NTree} {v : ℕ}
    (hi : i < ch.length)
    (hmem : ∀ x, x ∈ tids c2 ↔ x ∈ tids (ch.getD i (leaf 0)) ∨ x = v) :
    ∀ w, w ∈ (ch.set i c2).flatMap tids ↔ w ∈ ch.flatMap tids ∨ w = v := by
  intro w
  rw [mem_flatMap_tids, mem_flatMap_tids]
  constructor
  · rintro ⟨j, hj, hw⟩
    rw [List.length_set] at hj
    by_cases hij : i = j
    · rw [← hij, getD_set_self _ _ hi] at hw
      rcases (hmem w).mp hw with h | h
      · exact Or.inl ⟨i, hi, h⟩
      · exact Or.inr h
    · rw [getD_set_ne _ _ hij] at hw
      exact Or.inl ⟨j, hj, hw⟩
  · rintro (⟨j, hj, hw⟩ | hv)
    · by_cases hij : i = j
      · subst hij
        exact ⟨i, by rw [List.length_set]; exact hi,
          by rw [getD_set_self _ _ hi]; exact (hmem w).mpr (Or.inl hw)⟩
      · exact ⟨j, by rw [List.length_set]; exact hj,
          by rw [getD_set_ne _ _ hij]; exact hw⟩
    · exact ⟨i, by rw [List.length_set]; exact hi,
        by rw [getD_set_self _ _ hi]; exact (hmem w).mpr (Or.inr hv)⟩

/-- The optional-slot analogue, updating an already populated slot. -/
theorem mem_flatMap_tidsOpt_set {ch : List (Option NTree)} {i : ℕ} {c c2 : NTree}
    {v : ℕ} (hi : i < ch.length) (hc : ch.getD i none = some c)
    (hmem : ∀ x, x ∈ tids c2 ↔ x ∈ tids c ∨ x = v) :
    ∀ w, w ∈ (ch.set i (some c2)).flatMap tidsOpt ↔
      w ∈ ch.flatMap tidsOpt ∨ w = v := by
  intro w
  rw [mem_flatMap_tidsOpt, mem_flatMap_tidsOpt]
  constructor
  · rintro ⟨j, hj, c3, hc3, hw⟩
    rw [List.length_set] at hj
    by_cases hij : i = j
    · rw [← hij, getD_set_self _ _ hi] at hc3
      cases Option.some_inj.mp hc3
      rcases (hmem w).mp hw with h | h
      · exact Or.inl ⟨i, hi, c, hc, h⟩
      · exact Or.inr h
    · rw [getD_set_ne _ _ hij] at hc3
      exact Or.inl ⟨j, hj, c3, hc3, hw⟩
  · rintro (⟨j, hj, c3, hc3, hw⟩ | hv)
    · by_cases hij : i = j
      · subst hij
        rw [hc] at hc3
        cases Option.some_inj.mp hc3
        exact ⟨i, by rw [List.length_set]; exact hi, c2,
          getD_set_self _ _ hi, (hmem w).mpr (Or.inl hw)⟩
      · exact ⟨j, by rw [List.length_set]; exact hj, c3,
          by rw [getD_set_ne _ _ hij]; exact hc3, hw⟩
    · exact ⟨i, by rw [List.length_set]; exact hi, c2, getD_set_self _ _ hi,
        (hmem w).mpr (Or.inr hv)⟩

/-- The optional-slot analogue, populating a previously empty slot. -/
theorem mem_flatMap_tidsOpt_set_none {ch : List (Option NTree)} {i : ℕ} {c2 : NTree}
    (hi : i < ch.length) (hc : ch.getD i none = none) :
    ∀ w, w ∈ (ch.set i (some c2)).flatMap tidsOpt ↔
      w ∈ ch.flatMap tidsOpt ∨ w ∈ tids c2 := by
  intro w
  rw [mem_flatMap_tidsOpt, mem_flatMap_tidsOpt]
  constructor
  · rintro ⟨j, hj, c3, hc3, hw⟩
    rw [List.length_set] at hj
    by_cases hij : i = j
    · rw [← hij, getD_set_self _ _ hi] at hc3
      cases Option.some_inj.mp hc3
      exact Or.inr hw
    · rw [getD_set_ne _ _ hij] at hc3
      exact Or.inl ⟨j, hj, c3, hc3, hw⟩
  · rintro (⟨j, hj, c3, hc3, hw⟩ | hv)
    · have hij : i ≠ j := by
        intro h
        rw [← h, hc] at hc3
        exact Option.noConfusion hc3
      exact ⟨j, by rw [List.length_set]; exact hj, c3,
        by rw [getD_set_ne _ _ hij]; exact hc3, hw⟩
    · exact ⟨i, by rw [List.length_set]; exact hi, c2, getD_set_self _ _ hi, hv⟩

theorem insertNode4_nil (pl : ℕ) (pf : List ℕ) (b1 : ℕ) (c1 : NTree) :
    insertNode4 pl pf [] [] b1 c1 = n4 pl pf [b1] [c1] := rfl

theorem ins4_n4 (pl : ℕ) (pf keys : List ℕ) (ch : List NTree) (b : ℕ) (c : NTree) :
    ins4 (n4 pl pf keys ch) b c = insertNode4 pl pf keys ch b c := rfl

/-- Inserting a second branch byte into a one-child Node4 places the pair in
byte order. -/
theorem insertNode4_single {pl : ℕ} {pf : List ℕ} {b1 b2 : ℕ} {c1 c2 : NTree} :
    insertNode4 pl pf [b1] [c1] b2 c2 =
      if b1 < b2 then n4 pl pf [b1, b2] [c1, c2] else n4 pl pf [b2, b1] [c2, c1] := by
  rcases Nat.lt_or_ge b1 b2 with h | h
  · rw [if_pos h]
    simp only [insertNode4, NODE4_SIZE]
    rw [if_pos (by norm_num)]
    have hfi : List.findIdx (fun x => decide (¬ x < b2)) [b1] = 1 := by
      simp only [List.findIdx_cons, decide_not, decide_eq_true (h : b1 < b2)]
      rfl
    rw [hfi]
    rfl
  · rw [if_neg (by omega)]
    simp only [insertNode4, NODE4_SIZE]
    rw [if_pos (by norm_num)]
    have hfi : List.findIdx (fun x => decide (¬ x < b2)) [b1] = 0 := by
      simp only [List.findIdx_cons, decide_not, decide_eq_false (by omega : ¬ b1 < b2)]
      rfl
    rw [hfi]
    rfl

/-- Header facts packaged from well-formedness. -/
theorem wf_plpf {d : ℕ} {t : NTree} (hwf : Wf d t) :
    (pfOf t).length = prefLenOf t ∧ (prefLenOf t ≠ 0 → d + prefLenOf t ≤ 7) := by
  cases hwf with
  | leaf hd hv => exact ⟨rfl, fun h => absurd rfl h⟩
  | n4 hd hpf _ _ _ _ _ _ _ _ => exact ⟨hpf, fun _ => hd⟩
  | n16 hd hpf _ _ _ _ _ _ _ _ => exact ⟨hpf, fun _ => hd⟩
  | n48 hd hpf _ _ _ _ _ _ _ _ _ _ _ _ => exact ⟨hpf, fun _ => hd⟩
  | n256 hd hpf _ _ _ _ _ _ _ => exact ⟨hpf, fun _ => hd⟩

/-- The split node built around two children with distinct branch bytes is
well formed and carries exactly the two children's leaves. -/
theorem wf_split_pair {d m : ℕ} {pf : List ℕ} {b1 b2 : ℕ} {c1 c2 : NTree}
    (hd : d + m ≤ 7) (hpf : pf.length = m) (hb1 : b1 < 256) (hb2 : b2 < 256)
    (hne : b1 ≠ b2)
    (hc1 : Wf (d + m + 1) c1) (hc2 : Wf (d + m + 1) c2)
    (hbr1 : ∀ w ∈ tids c1, loadKey w (d + m) = b1)
    (hbr2 : ∀ w ∈ tids c2, loadKey w (d + m) = b2)
    (hpr : ∀ w, w ∈ tids c1 ∨ w ∈ tids c2 → ∀ j, j < m →
      loadKey w (d + j) = pf.getD j 0) :
    Wf d (ins4 (insertNode4 m pf [] [] b1 c1) b2 c2) ∧
      ∀ w, w ∈ tids (ins4 (insertNode4 m pf [] [] b1 c1) b2 c2) ↔
        w ∈ tids c1 ∨ w ∈ tids c2 := by
  rw [insertNode4_nil, ins4_n4, insertNode4_single]
  rcases Nat.lt_or_ge b1 b2 with h | h
  · rw [if_pos h]
    constructor
    · refine Wf.n4 hd hpf rfl (by norm_num) (by norm_num) ?_ ?_ ?_ ?_ ?_
      · exact List.pairwise_cons.mpr ⟨by simpa using h, by simp⟩
      · intro b hb
        simp only [List.mem_cons, List.not_mem_nil, or_false] at hb
        rcases hb with hb | hb
        · rw [hb]; exact hb1
        · rw [hb]; exact hb2
      · intro i hi
        match i, hi with
        | 0, _ => exact hc1
        | 1, _ => exact hc2
      · intro i hi w hw
        match i, hi, hw with
        | 0, _, hw => exact hbr1 w hw
        | 1, _, hw => exact hbr2 w hw
      · intro w hw j hj
        simp only [List.flatMap_cons, List.flatMap_nil, List.append_nil,
          List.mem_append] at hw
        exact hpr w hw j hj
    · intro w
      simp only [tids_n4, List.flatMap_cons, List.flatMap_nil, List.append_nil,
        List.mem_append]
  · rw [if_neg (by omega)]
    have hlt : b2 < b1 := by omega
    constructor
    · refine Wf.n4 hd hpf rfl (by norm_num) (by norm_num) ?_ ?_ ?_ ?_ ?_
      · exact List.pairwise_cons.mpr ⟨by simpa using hlt, by simp⟩
      · intro b hb
        simp only [List.mem_cons, List.not_mem_nil, or_false] at hb
        rcases hb with hb | hb
        · rw [hb]; exact hb2
        · rw [hb]; exact hb1
      · intro i hi
        match i, hi with
        | 0, _ => exact hc2
        | 1, _ => exact hc1
      · intro i hi w hw
        match i, hi, hw with
        | 0, _, hw => exact hbr2 w hw
        | 1, _, hw => exact hbr1 w hw
      · intro w hw j hj
        simp only [List.flatMap_cons, List.flatMap_nil, List.append_nil,
          List.mem_append] at hw
        exact hpr w (Or.symm hw) j hj
    · intro w
      simp only [tids_n4, List.flatMap_cons, List.flatMap_nil, List.append_nil,
        List.mem_append]
      exact or_comm

/-- Shortening a node's stored prefix past position m keeps it well formed at
the correspondingly deeper starting position. -/
theorem wf_withPref {d m : ℕ} {t : NTree} (hwf : Wf d t) (hm : m < prefLenOf t) :
    Wf (d + m + 1)
      (withPref t (prefLenOf t - (m + 1)) ((pfOf t).drop (m + 1))) := by
  cases hwf with
  | leaf hd hv => simp [prefLenOf] at hm
  | n4 hd hpf hlen hcnt hcnt2 hsort hbyte hch hbr hpref =>
    rename_i pl pf keys ch
    simp only [prefLenOf, pfOf, withPref] at hm ⊢
    refine Wf.n4 (by omega) ?_ hlen hcnt hcnt2 hsort hbyte ?_ ?_ ?_
    · rw [List.length_drop, hpf]
    · have heq : d + m + 1 + (pl - (m + 1)) = d + pl := by omega
      rw [heq]
      exact hch
    · have heq : d + m + 1 + (pl - (m + 1)) = d + pl := by omega
      rw [heq]
      exact hbr
    · intro w hw j hj
      rw [getD_drop]
      have heq : d + m + 1 + j = d + (m + 1 + j) := by omega
      rw [heq]
      exact hpref w hw (m + 1 + j) (by omega)
  | n16 hd hpf hlen hcnt hcnt2 hsort hbyte hch hbr hpref =>
    rename_i pl pf keys ch
    simp only [prefLenOf, pfOf, withPref] at hm ⊢
    refine Wf.n16 (by omega) ?_ hlen hcnt hcnt2 hsort hbyte ?_ ?_ ?_
    · rw [List.length_drop, hpf]
    · have heq : d + m + 1 + (pl - (m + 1)) = d + pl := by omega
      rw [heq]
      exact hch
    · have heq : d + m + 1 + (pl - (m + 1)) = d + pl := by omega
      rw [heq]
      exact hbr
    · intro w hw j hj
      rw [getD_drop]
      have heq : d + m + 1 + j = d + (m + 1 + j) := by omega
      rw [heq]
      exact hpref w hw (m + 1 + j) (by omega)
  | n48 hd hpf hcilen hchlen hcival hinj hsl hcnt hscnt hc1 hc2 hch hbr hpref =>
    rename_i pl pf ci ch cnt
    simp only [prefLenOf, pfOf, withPref] at hm ⊢
    refine Wf.n48 (by omega) ?_ hcilen hchlen hcival hinj hsl hcnt hscnt hc1 hc2
      ?_ ?_ ?_
    · rw [List.length_drop, hpf]
    · have heq : d + m + 1 + (pl - (m + 1)) = d + pl := by omega
      rw [heq]
      exact hch
    · have heq : d + m + 1 + (pl - (m + 1)) = d + pl := by omega
      rw [heq]
      exact hbr
    · intro w hw j hj
      rw [getD_drop]
      have heq : d + m + 1 + j = d + (m + 1 + j) := by omega
      rw [heq]
      exact hpref w hw (m + 1 + j) (by omega)
  | n256 hd hpf hchlen hcnt hc1 hc2 hch hbr hpref =>
    rename_i pl pf ch cnt
    simp only [prefLenOf, pfOf, withPref] at hm ⊢
    refine Wf.n256 (by omega) ?_ hchlen hcnt hc1 hc2 ?_ ?_ ?_
    · rw [List.length_drop, hpf]
    · have heq : d + m + 1 + (pl - (m + 1)) = d + pl := by omega
      rw [heq]
      exact hch
    · have heq : d + m + 1 + (pl - (m + 1)) = d + pl := by omega
      rw [heq]
      exact hbr
    · intro w hw j hj
      rw [getD_drop]
      have heq : d + m + 1 + j = d + (m + 1 + j) := by omega
      rw [heq]
      exact hpref w hw (m + 1 + j) (by omega)

/-- prefixMismatch on a node whose stored prefix is within the cap: the first
position where the key diverges from the stored bytes, or the full length. -/
theorem prefixMismatch_le {fuel d : ℕ} {t : NTree} {key : ℕ → ℕ}
    (hcap : prefLenOf t ≤ maxPrefLen) :
    (∃ m, prefixMismatch fuel t key d = some m ∧ m < prefLenOf t ∧
        key (d + m) ≠ (pfOf t).getD m 0 ∧
        ∀ j, j < m → key (d + j) = (pfOf t).getD j 0)
    ∨ (prefixMismatch fuel t key d = some (prefLenOf t) ∧
        ∀ j, j < prefLenOf t → key (d + j) = (pfOf t).getD j 0) := by
  have hbody : prefixMismatch fuel t key d =
      match (List.range (prefLenOf t)).find?
          (fun pos => decide (key (d + pos) ≠ (pfOf t).getD pos 0)) with
      | some pos => some pos
      | none => some (prefLenOf t) := by
    simp only [prefixMismatch]
    rw [if_neg (Nat.not_lt.mpr hcap)]
  rcases find_range_spec (prefLenOf t)
      (fun pos => decide (key (d + pos) ≠ (pfOf t).getD pos 0)) with
    ⟨hn, hall⟩ | ⟨x, hx, hxlt, hpx, hmin⟩
  · right
    rw [hn] at hbody
    refine ⟨hbody, ?_⟩
    intro j hj
    have := hall j hj
    simpa using this
  · left
    rw [hx] at hbody
    exact ⟨x, hbody, hxlt, by simpa using hpx, fun j hj => by simpa using hmin j hj⟩

/-- Counting the members of a duplicate-free list inside an enclosing range. -/
theorem filter_range_length_mem :
    ∀ {l : List ℕ} {n : ℕ}, l.Nodup → (∀ x ∈ l, x < n) →
      ((List.range n).filter (fun b => decide (b ∈ l))).length = l.length := by
  intro l
  induction l with
  | nil =>
    intro n _ _
    simp
  | cons a as ih =>
    intro n hnd hlt
    rw [← List.countP_eq_length_filter]
    have h1 : (List.range n).countP (fun b => decide (b ∈ a :: as)) =
        (List.range n).countP (fun b => decide (b ∈ as)) + 1 :=
      countP_update_add_one (List.range n) (List.nodup_range n)
        (List.mem_range.mpr (hlt a (List.mem_cons_self a as)))
        (fun y _ hy => by simp [List.mem_cons, hy])
        (by simp [(List.nodup_cons.mp hnd).1])
        (by simp)
    rw [h1, List.countP_eq_length_filter,
      ih (List.nodup_cons.mp hnd).2
        (fun x hx => hlt x (List.mem_cons_of_mem _ hx)),
      List.length_cons]

/-- Slot access in the child array built when a full Node16 grows to Node48:
the originals, then empty padding. -/
theorem getD_map_some_append {k i : ℕ} {ch : List NTree} :
    (ch.map some ++ List.replicate k none).getD i none =
      if i < ch.length then some (ch.getD i (leaf 0)) else none := by
  rcases Nat.lt_or_ge i ch.length with h | h
  · rw [if_pos h, List.getD_eq_getElem?_getD,
      List.getElem?_append_left (by rw [List.length_map]; exact h),
      List.getElem?_map, List.getD_eq_getElem?_getD]
    rcases hq : ch[i]? with _ | c
    · rw [List.getElem?_eq_none_iff] at hq
      omega
    · rfl
  · rw [if_neg (by omega), List.getD_eq_getElem?_getD,
      List.getElem?_append_right (by rw [List.length_map]; exact h),
      List.getElem?_replicate]
    split <;> rfl

/-- The padded child array of the Node16-to-Node48 conversion stores the same
leaves. -/
theorem flatMap_tidsOpt_map_append {k : ℕ} {ch : List NTree} :
    (ch.map some ++ List.replicate k none).flatMap tidsOpt = ch.flatMap tids := by
  rw [List.flatMap_append, List.flatMap_map]
  have h2 : (List.replicate k none).flatMap tidsOpt = ([] : List ℕ) := by
    induction k with
    | zero => rfl
    | succ m ihm => rw [List.replicate_succ, List.flatMap_cons, ihm]; rfl
  rw [h2, List.append_nil]
  rfl

/-- The fields of an N4/N16 node after simultaneous sorted insertion into the
key and child arrays at the position characterised by findIdx_sorted_spec. -/
theorem insert_sorted_fields {d pl : ℕ} {keys : List ℕ} {ch : List NTree} {b : ℕ}
    {c : NTree} {pos : ℕ}
    (hlen : keys.length = ch.length)
    (hsort : keys.Pairwise (· < ·)) (hbyte : ∀ x ∈ keys, x < 256)
    (hch : ∀ i, i < ch.length → Wf (d + pl + 1) (ch.getD i (leaf 0)))
    (hbr : ∀ i, i < ch.length → ∀ w ∈ tids (ch.getD i (leaf 0)),
      loadKey w (d + pl) = keys.getD i 0)
    (hb : b < 256)
    (hcwf : Wf (d + pl + 1) c) (hcbr : ∀ w ∈ tids c, loadKey w (d + pl) = b)
    (hpos : pos ≤ keys.length)
    (hbefore : ∀ i, i < pos → keys.getD i 0 < b)
    (hafter : ∀ i, pos ≤ i → i < keys.length → b < keys.getD i 0) :
    (keys.insertIdx pos b).length = (ch.insertIdx pos c).length ∧
    (keys.insertIdx pos b).length = keys.length + 1 ∧
    (keys.insertIdx pos b).Pairwise (· < ·) ∧
    (∀ x ∈ keys.insertIdx pos b, x < 256) ∧
    (∀ i, i < (ch.insertIdx pos c).length →
      Wf (d + pl + 1) ((ch.insertIdx pos c).getD i (leaf 0))) ∧
    (∀ i, i < (ch.insertIdx pos c).length →
      ∀ w ∈ tids ((ch.insertIdx pos c).getD i (leaf 0)),
        loadKey w (d + pl) = (keys.insertIdx pos b).getD i 0) := by
  have hposc : pos ≤ ch.length := by omega
  have hlk := List.length_insertIdx pos keys hpos (a := b)
  have hlc := List.length_insertIdx pos ch hposc (a := c)
  refine ⟨by omega, hlk, ?_, ?_, ?_, ?_⟩
  · exact sorted_insertIdx hsort hpos hbefore hafter
  · intro x hx
    rcases (List.mem_insertIdx hpos).mp hx with h | h
    · rw [h]; exact hb
    · exact hbyte x h
  · intro i hi
    rw [hlc] at hi
    rcases Nat.lt_trichotomy i pos with hip | hip | hip
    · rw [getD_insertIdx_lt _ _ hposc hip]
      exact hch i (by omega)
    · rw [hip, getD_insertIdx_self _ _ hposc]
      exact hcwf
    · rw [getD_insertIdx_ge _ _ hposc hip (by omega)]
      exact hch (i - 1) (by omega)
  · intro i hi w hw
    rw [hlc] at hi
    rcases Nat.lt_trichotomy i pos with hip | hip | hip
    · rw [getD_insertIdx_lt _ _ hposc hip] at hw
      rw [getD_insertIdx_lt _ _ hpos hip]
      exact hbr i (by omega) w hw
    · rw [hip, getD_insertIdx_self _ _ hposc] at hw
      rw [hip, getD_insertIdx_self _ _ hpos]
      exact hcbr w hw
    · rw [getD_insertIdx_ge _ _ hposc hip (by omega)] at hw
      rw [getD_insertIdx_ge _ _ hpos hip (by omega)]
      exact hbr (i - 1) (by omega) w hw

/-- insertNode256 on a fresh byte keeps the node well formed: the source
stores unconditionally and the count tracks the populated slots. -/
theorem insertNode256_wf {d pl : ℕ} {pf : List ℕ} {ch : List (Option NTree)}
    {cnt b : ℕ} {c : NTree}
    (hd : d + pl ≤ 7) (hpf : pf.length = pl) (hchlen : ch.length = 256)
    (hcnt : cnt = ((List.range 256).filter (fun b2 => (ch.getD b2 none).isSome)).length)
    (hc1 : 18 ≤ cnt)
    (hch : ∀ b2, b2 < 256 → ∀ c2, ch.getD b2 none = some c2 → Wf (d + pl + 1) c2)
    (hbr : ∀ b2, b2 < 256 → ∀ c2, ch.getD b2 none = some c2 →
      ∀ w ∈ tids c2, loadKey w (d + pl) = b2)
    (hpref : ∀ w ∈ ch.flatMap tidsOpt, ∀ j, j < pl → loadKey w (d + j) = pf.getD j 0)
    (hb : b < 256) (hfresh : ch.getD b none = none)
    (hcwf : Wf (d + pl + 1) c) (hcbr : ∀ w ∈ tids c, loadKey w (d + pl) = b)
    (hcpref : ∀ w ∈ tids c, ∀ j, j < pl → loadKey w (d + j) = pf.getD j 0) :
    Wf d (insertNode256 pl pf ch cnt b c) ∧
      ∀ w, w ∈ tids (insertNode256 pl pf ch cnt b c) ↔
        w ∈ ch.flatMap tidsOpt ∨ w ∈ tids c := by
  have hmem := @mem_flatMap_tidsOpt_set_none _ _ c (by omega) hfresh
  have hcnt2 : ((List.range 256).filter
      (fun b2 => ((ch.set b (some c)).getD b2 none).isSome)).length = cnt + 1 := by
    rw [hcnt]
    exact filter_range_length_update hb
      (fun y _ hy => by rw [getD_set_ne _ _ (fun hc2 => hy hc2.symm)])
      (by rw [hfresh]; rfl) (by rw [getD_set_self _ _ (by omega)]; rfl)
  simp only [insertNode256]
  constructor
  · refine Wf.n256 hd hpf (by rw [List.length_set]; exact hchlen) hcnt2.symm
      (by omega) ?_ ?_ ?_ ?_
    · rw [← hcnt2]
      have := List.length_filter_le
        (fun b2 => ((ch.set b (some c)).getD b2 none).isSome) (List.range 256)
      rw [List.length_range] at this
      exact this
    · intro b2 hb2 c2 hc2
      by_cases hbb : b2 = b
      · rw [hbb, getD_set_self _ _ (by omega)] at hc2
        cases Option.some_inj.mp hc2
        exact hcwf
      · rw [getD_set_ne _ _ (fun hc3 => hbb hc3.symm)] at hc2
        exact hch b2 hb2 c2 hc2
    · intro b2 hb2 c2 hc2 w hw
      by_cases hbb : b2 = b
      · rw [hbb, getD_set_self _ _ (by omega)] at hc2
        cases Option.some_inj.mp hc2
        rw [hbb]
        exact hcbr w hw
      · rw [getD_set_ne _ _ (fun hc3 => hbb hc3.symm)] at hc2
        exact hbr b2 hb2 c2 hc2 w hw
    · intro w hw j hj
      rcases (hmem w).mp hw with h | h
      · exact hpref w h j hj
      · exact hcpref w h j hj
  · intro w
    rw [tids_n256]
    exact hmem w

/-- insertNode48 on a fresh byte keeps the node well formed: below capacity
the child goes into slot count or the first free slot, at capacity the node
grows to a Node256.  Stated over the raw field invariants so that it also
serves the Node16-to-Node48 growth path. -/
theorem insertNode48_wf {d pl : ℕ} {pf ci : List ℕ} {ch : List (Option NTree)}
    {cnt b : ℕ} {c : NTree}
    (hd : d + pl ≤ 7) (hpf : pf.length = pl)
    (hcilen : ci.length = 256) (hchlen : ch.length = 24)
    (hcival : ∀ b2, b2 < 256 → ci.getD b2 emptyMarker = emptyMarker ∨
      (ci.getD b2 emptyMarker < 24 ∧ (ch.getD (ci.getD b2 emptyMarker) none).isSome))
    (hinj : ∀ b1 b2, b1 < 256 → b2 < 256 → ci.getD b1 emptyMarker ≠ emptyMarker →
      ci.getD b1 emptyMarker = ci.getD b2 emptyMarker → b1 = b2)
    (hsl : ∀ j, j < 24 → (ch.getD j none).isSome →
      ∃ b2, b2 < 256 ∧ ci.getD b2 emptyMarker = j)
    (hcnt : cnt = ((List.range 256).filter
      (fun b2 => ci.getD b2 emptyMarker ≠ emptyMarker)).length)
    (hscnt : cnt = ((List.range 24).filter (fun j => (ch.getD j none).isSome)).length)
    (hc1 : 12 ≤ cnt) (hc2 : cnt ≤ 24)
    (hch : ∀ b2, b2 < 256 → ci.getD b2 emptyMarker ≠ emptyMarker →
      ∀ c2, ch.getD (ci.getD b2 emptyMarker) none = some c2 → Wf (d + pl + 1) c2)
    (hbr : ∀ b2, b2 < 256 → ci.getD b2 emptyMarker ≠ emptyMarker →
      ∀ c2, ch.getD (ci.getD b2 emptyMarker) none = some c2 →
        ∀ w ∈ tids c2, loadKey w (d + pl) = b2)
    (hpref : ∀ w ∈ ch.flatMap tidsOpt, ∀ j, j < pl → loadKey w (d + j) = pf.getD j 0)
    (hb : b < 256) (hfresh : ci.getD b emptyMarker = emptyMarker)
    (hcwf : Wf (d + pl + 1) c) (hcbr : ∀ w ∈ tids c, loadKey w (d + pl) = b)
    (hcpref : ∀ w ∈ tids c, ∀ j, j < pl → loadKey w (d + j) = pf.getD j 0) :
    Wf d (insertNode48 pl pf ci ch cnt b c) ∧
      ∀ w, w ∈ tids (insertNode48 pl pf ci ch cnt b c) ↔
        w ∈ ch.flatMap tidsOpt ∨ w ∈ tids c := by
  have hem24 : emptyMarker = 24 := rfl
  rcases Nat.lt_or_ge cnt NODE48_SIZE with hlt | hge
  · -- placement branch
    have hcnt24 : cnt < 24 := hlt
    have hkey : ∀ pos, pos < 24 → ch.getD pos none = none →
        Wf d (n48 pl pf (ci.set b pos) (ch.set pos (some c)) (cnt + 1)) ∧
        ∀ w, w ∈ tids (n48 pl pf (ci.set b pos) (ch.set pos (some c)) (cnt + 1)) ↔
          w ∈ ch.flatMap tidsOpt ∨ w ∈ tids c := by
      intro pos hpos24 hposnone
      have hposch : pos < ch.length := by omega
      have hmem := @mem_flatMap_tidsOpt_set_none _ _ c hposch hposnone
      constructor
      · refine Wf.n48 hd hpf (by rw [List.length_set]; exact hcilen)
          (by rw [List.length_set]; exact hchlen) ?_ ?_ ?_ ?_ ?_ (by omega) (by omega)
          ?_ ?_ ?_
        · -- childIndex values
          intro b2 hb2
          by_cases hbb : b2 = b
          · right
            rw [hbb, getD_set_self _ _ (by omega)]
            refine ⟨hpos24, ?_⟩
            rw [getD_set_self _ _ hposch]
            rfl
          · rw [getD_set_ne _ _ (fun hc3 => hbb hc3.symm)]
            rcases hcival b2 hb2 with h | ⟨h1, h2⟩
            · left; exact h
            · right
              refine ⟨h1, ?_⟩
              have hne : pos ≠ ci.getD b2 emptyMarker := by
                intro he
                rw [← he, hposnone] at h2
                exact Bool.noConfusion h2
              rw [getD_set_ne _ _ hne]
              exact h2
        · -- injectivity
          intro b1 b2 hb1 hb2 hne1 heq
          by_cases h1b : b1 = b
          · by_cases h2b : b2 = b
            · rw [h1b, h2b]
            · exfalso
              rw [h1b, getD_set_self _ _ (by omega),
                getD_set_ne _ _ (fun hc3 => h2b hc3.symm)] at heq
              rcases hcival b2 hb2 with h | ⟨hl2, hs2⟩
              · rw [h, hem24] at heq
                omega
              · rw [← heq, hposnone] at hs2
                exact Bool.noConfusion hs2
          · by_cases h2b : b2 = b
            · exfalso
              rw [h2b, getD_set_self _ _ (by omega),
                getD_set_ne _ _ (fun hc3 => h1b hc3.symm)] at heq
              rcases hcival b1 hb1 with h | ⟨hl2, hs2⟩
              · rw [getD_set_ne _ _ (fun hc3 => h1b hc3.symm), h] at hne1
                exact hne1 rfl
              · rw [heq, hposnone] at hs2
                exact Bool.noConfusion hs2
            · rw [getD_set_ne _ _ (fun hc3 => h1b hc3.symm)] at hne1 heq
              rw [getD_set_ne _ _ (fun hc3 => h2b hc3.symm)] at heq
              exact hinj b1 b2 hb1 hb2 hne1 heq
        · -- slot cover
          intro j hj hocc
          by_cases hjp : j = pos
          · refine ⟨b, hb, ?_⟩
            rw [hjp, getD_set_self _ _ (by omega)]
          · rw [getD_set_ne _ _ (Ne.symm hjp)] at hocc
            rcases hsl j hj hocc with ⟨b2, hb2, hci2⟩
            have hbne : b ≠ b2 := by
              intro he
              rw [← he, hfresh] at hci2
              omega
            refine ⟨b2, hb2, ?_⟩
            rw [getD_set_ne _ _ hbne]
            exact hci2
        · -- byte count
          refine Eq.symm ?_
          rw [hcnt]
          exact filter_range_length_update hb
            (fun y _ hy => by rw [getD_set_ne _ _ (fun hc3 => hy hc3.symm)])
            (by rw [hfresh]; simp)
            (by
              rw [getD_set_self _ _ (by omega)]
              exact decide_eq_true (by omega))
        · -- slot count
          refine Eq.symm ?_
          rw [hscnt]
          exact filter_range_length_update hpos24
            (fun y _ hy => by rw [getD_set_ne _ _ (fun hc3 => hy hc3.symm)])
            (by rw [hposnone]; rfl)
            (by rw [getD_set_self _ _ hposch]; rfl)
        · -- children well formed
          intro b2 hb2 hne2 c2 hc2
          by_cases hbb : b2 = b
          · rw [hbb, getD_set_self _ _ (by omega), getD_set_self _ _ hposch] at hc2
            cases Option.some_inj.mp hc2
            exact hcwf
          · rw [getD_set_ne _ _ (fun hc3 => hbb hc3.symm)] at hne2 hc2
            rcases hcival b2 hb2 with h | ⟨hl2, hs2⟩
            · exact absurd h hne2
            · have hne3 : pos ≠ ci.getD b2 emptyMarker := by
                intro he
                rw [← he, hposnone] at hs2
                exact Bool.noConfusion hs2
              rw [getD_set_ne _ _ hne3] at hc2
              exact hch b2 hb2 hne2 c2 hc2
        · -- branch bytes
          intro b2 hb2 hne2 c2 hc2 w hw
          by_cases hbb : b2 = b
          · rw [hbb, getD_set_self _ _ (by omega), getD_set_self _ _ hposch] at hc2
            cases Option.some_inj.mp hc2
            rw [hbb]
            exact hcbr w hw
          · rw [getD_set_ne _ _ (fun hc3 => hbb hc3.symm)] at hne2 hc2
            rcases hcival b2 hb2 with h | ⟨hl2, hs2⟩
            · exact absurd h hne2
            · have hne3 : pos ≠ ci.getD b2 emptyMarker := by
                intro he
                rw [← he, hposnone] at hs2
                exact Bool.noConfusion hs2
              rw [getD_set_ne _ _ hne3] at hc2
              exact hbr b2 hb2 hne2 c2 hc2 w hw
        · -- shared prefix
          intro w hw j hj
          rcases (hmem w).mp hw with h | h
          · exact hpref w h j hj
          · exact hcpref w h j hj
      · intro w
        rw [tids_n48]
        exact hmem w
    simp only [insertNode48]
    rw [if_pos hlt]
    by_cases hocc : (ch.getD cnt none).isSome
    · rw [if_pos hocc]
      have hfree : ∃ j, j < 24 ∧ ((ch.getD j none).isSome : Bool) = false := by
        apply filter_range_exists_not
        omega
      rcases hfree with ⟨j0, hj0, hj0f⟩
      have hj0n : (ch.getD j0 none).isNone = true := by
        rcases hq : ch.getD j0 none with _ | c2
        · rfl
        · rw [hq] at hj0f
          exact Bool.noConfusion hj0f
      have hspec := findIdx_range_spec (n := NODE48_SIZE)
        (p := fun j => (ch.getD j none).isNone) hj0 hj0n
      refine hkey _ hspec.1 ?_
      rcases hq : ch.getD ((List.range NODE48_SIZE).findIdx
          (fun j => (ch.getD j none).isNone)) none with _ | c2
      · rfl
      · exfalso
        have hthis : (ch.getD ((List.range NODE48_SIZE).findIdx
            (fun j => (ch.getD j none).isNone)) none).isNone = true := hspec.2.1
        rw [hq] at hthis
        exact Bool.noConfusion hthis
    · rw [if_neg hocc]
      refine hkey cnt hcnt24 ?_
      rcases hq : ch.getD cnt none with _ | c2
      · rfl
      · exfalso
        apply hocc
        rw [hq]
        rfl
  · -- growth to Node256
    have hcnt24 : cnt = 24 := by
      have : (24 : ℕ) ≤ cnt := hge
      omega
    simp only [insertNode48]
    rw [if_neg (Nat.not_lt.mpr hge)]
    have hmin : min pl maxPrefLen = pl := by
      unfold maxPrefLen
      omega
    rw [hmin, List.take_of_length_le (le_of_eq hpf)]
    have hgetD : ∀ b2, b2 < 256 →
        ((List.range 256).map (fun i =>
          if ci.getD i emptyMarker ≠ emptyMarker then ch.getD (ci.getD i emptyMarker) none
          else none)).getD b2 none =
        (if ci.getD b2 emptyMarker ≠ emptyMarker then ch.getD (ci.getD b2 emptyMarker) none
          else none) := by
      intro b2 hb2
      exact getD_range_map _ hb2
    have hmemconv : ∀ w, w ∈ ((List.range 256).map (fun i =>
        if ci.getD i emptyMarker ≠ emptyMarker then ch.getD (ci.getD i emptyMarker) none
        else none)).flatMap tidsOpt ↔ w ∈ ch.flatMap tidsOpt := by
      intro w
      rw [mem_flatMap_tidsOpt, mem_flatMap_tidsOpt]
      constructor
      · rintro ⟨i, hi, c2, hc2, hw⟩
        rw [List.length_map, List.length_range] at hi
        rw [hgetD i hi] at hc2
        by_cases hne2 : ci.getD i emptyMarker ≠ emptyMarker
        · rw [if_pos hne2] at hc2
          rcases hcival i hi with h | ⟨hl2, _⟩
          · exact absurd h hne2
          · exact ⟨ci.getD i emptyMarker, by omega, c2, hc2, hw⟩
        · rw [if_neg hne2] at hc2
          exact Option.noConfusion hc2
      · rintro ⟨j, hj, c2, hc2, hw⟩
        have hj24 : j < 24 := by rw [hchlen] at hj; exact hj
        have hocc : (ch.getD j none).isSome := by rw [hc2]; rfl
        rcases hsl j hj24 hocc with ⟨b2, hb2, hci2⟩
        refine ⟨b2, by rw [List.length_map, List.length_range]; exact hb2, c2, ?_, hw⟩
        rw [hgetD b2 hb2, if_pos (by rw [hci2]; omega), hci2]
        exact hc2
    have hres := @insertNode256_wf d pl pf
      ((List.range 256).map (fun i =>
        if ci.getD i emptyMarker ≠ emptyMarker then ch.getD (ci.getD i emptyMarker) none
        else none))
      cnt b c
      hd hpf (by rw [List.length_map, List.length_range])
      (by
        rw [hcnt]
        apply filter_range_length_congr
        intro y hy
        rw [hgetD y hy]
        by_cases hne2 : ci.getD y emptyMarker ≠ emptyMarker
        · rw [if_pos hne2]
          rcases hcival y hy with h | ⟨_, hs2⟩
          · exact absurd h hne2
          · rw [hs2]
            exact (decide_eq_true hne2).symm
        · rw [if_neg hne2]
          push_neg at hne2
          rw [decide_eq_false (fun hc => hc hne2)]
          rfl)
      (by omega)
      (by
        intro b2 hb2 c2 hc2
        rw [hgetD b2 hb2] at hc2
        by_cases hne2 : ci.getD b2 emptyMarker ≠ emptyMarker
        · rw [if_pos hne2] at hc2
          exact hch b2 hb2 hne2 c2 hc2
        · rw [if_neg hne2] at hc2
          exact Option.noConfusion hc2)
      (by
        intro b2 hb2 c2 hc2 w hw
        rw [hgetD b2 hb2] at hc2
        by_cases hne2 : ci.getD b2 emptyMarker ≠ emptyMarker
        · rw [if_pos hne2] at hc2
          exact hbr b2 hb2 hne2 c2 hc2 w hw
        · rw [if_neg hne2] at hc2
          exact Option.noConfusion hc2)
      (by
        intro w hw j hj
        exact hpref w ((hmemconv w).mp hw) j hj)
      hb
      (by
        rw [hgetD b hb, if_neg ?_]
        intro hcon
        exact hcon hfresh)
      hcwf hcbr hcpref
    refine ⟨hres.1, ?_⟩
    intro w
    rw [hres.2 w, hmemconv w]

/-- insertNode16 on a fresh byte keeps the node well formed: below capacity a
sorted insertion, at capacity growth to a Node48 whose childIndex is built by
the enumeration fold.  Stated over the raw field invariants so that it also
serves the Node4-to-Node16 growth path. -/
theorem insertNode16_wf {d pl : ℕ} {pf keys : List ℕ} {ch : List NTree} {b : ℕ}
    {c : NTree}
    (hd : d + pl ≤ 7) (hpf : pf.length = pl)
    (hlen : keys.length = ch.length)
    (hcnt : 3 ≤ keys.length) (hcnt2 : keys.length ≤ 16)
    (hsort : keys.Pairwise (· < ·)) (hbyte : ∀ x ∈ keys, x < 256)
    (hch : ∀ i, i < ch.length → Wf (d + pl + 1) (ch.getD i (leaf 0)))
    (hbr : ∀ i, i < ch.length → ∀ w ∈ tids (ch.getD i (leaf 0)),
      loadKey w (d + pl) = keys.getD i 0)
    (hpref : ∀ w ∈ ch.flatMap tids, ∀ j, j < pl → loadKey w (d + j) = pf.getD j 0)
    (hb : b < 256) (hfresh : b ∉ keys)
    (hcwf : Wf (d + pl + 1) c) (hcbr : ∀ w ∈ tids c, loadKey w (d + pl) = b)
    (hcpref : ∀ w ∈ tids c, ∀ j, j < pl → loadKey w (d + j) = pf.getD j 0) :
    Wf d (insertNode16 pl pf keys ch b c) ∧
      ∀ w, w ∈ tids (insertNode16 pl pf keys ch b c) ↔
        w ∈ ch.flatMap tids ∨ w ∈ tids c := by
  rcases Nat.lt_or_ge keys.length 16 with hlt | hge
  · -- sorted insertion
    simp only [insertNode16]
    rw [if_pos hlt]
    have hp : ∀ x ∈ keys, ((fun x => decide (b < x)) x = true ↔ b < x) := by
      intro x hx
      simp
    have hspec := findIdx_sorted_spec hsort hp hfresh
    have hfields := @insert_sorted_fields d pl _ _ _ c _
      hlen hsort hbyte hch hbr hb hcwf hcbr hspec.1 hspec.2.1 hspec.2.2
    have hposch : keys.findIdx (fun x => decide (b < x)) ≤ ch.length := by
      have := hspec.1
      omega
    constructor
    · exact Wf.n16 hd hpf (by omega) (by omega) (by omega)
        hfields.2.2.1 hfields.2.2.2.1 hfields.2.2.2.2.1 hfields.2.2.2.2.2
        (by
          intro w hw j hj
          rcases (mem_flatMap_insertIdx hposch).mp hw with h | h
          · exact hcpref w h j hj
          · exact hpref w h j hj)
    · intro w
      rw [tids_n16, mem_flatMap_insertIdx hposch]
      exact or_comm
  · -- growth to Node48
    have hk16 : keys.length = 16 := by omega
    have hch16 : ch.length = 16 := by omega
    have hnd : keys.Nodup := hsort.nodup
    simp only [insertNode16]
    rw [if_neg (by omega)]
    have hmin : min pl maxPrefLen = pl := by
      unfold maxPrefLen
      omega
    rw [hmin, List.take_of_length_le (le_of_eq hpf)]
    have hci0len : ((List.range 256).map (fun _ => emptyMarker)).length = 256 := by
      rw [List.length_map, List.length_range]
    have hkeyslt : ∀ k ∈ keys, k < ((List.range 256).map (fun _ => emptyMarker)).length := by
      intro k hk
      rw [hci0len]
      exact hbyte k hk
    have hcimem : ∀ i, i < keys.length →
        (keys.enum.foldl (fun acc p => acc.set p.2 p.1)
          ((List.range 256).map (fun _ => emptyMarker))).getD (keys.getD i 0)
            emptyMarker = i := by
      intro i hi
      rw [List.enum_eq_enumFrom]
      rw [fold_set_enumFrom_getD_mem keys 0 _ i hnd hkeyslt hi]
      omega
    have hcinot : ∀ y, y ∉ keys →
        (keys.enum.foldl (fun acc p => acc.set p.2 p.1)
          ((List.range 256).map (fun _ => emptyMarker))).getD y emptyMarker =
            emptyMarker := by
      intro y hy
      rw [List.enum_eq_enumFrom]
      rw [fold_set_enumFrom_getD_not_mem keys 0 _ y hkeyslt hy]
      rcases Nat.lt_or_ge y 256 with h2 | h2
      · exact getD_range_map _ h2
      · exact List.getD_eq_default _ _ (by rw [hci0len]; exact h2)
    have hchgd : ∀ i, (ch.map some ++ List.replicate (NODE48_SIZE - 16) none).getD i none
        = if i < ch.length then some (ch.getD i (leaf 0)) else none :=
      fun i => getD_map_some_append
    have hch48len : (ch.map some ++ List.replicate (NODE48_SIZE - 16) none).length = 24 := by
      rw [List.length_append, List.length_map, List.length_replicate, hch16]
      rfl
    have hmemof : ∀ b2, b2 ∈ keys → ∃ i, i < keys.length ∧ keys.getD i 0 = b2 := by
      intro b2 hb2
      rcases List.mem_iff_getElem.mp hb2 with ⟨i, hi, hgi⟩
      exact ⟨i, hi, by rw [List.getD_eq_getElem _ _ hi]; exact hgi⟩
    have hres := @insertNode48_wf d pl pf
      (keys.enum.foldl (fun acc p => acc.set p.2 p.1)
        ((List.range 256).map (fun _ => emptyMarker)))
      (ch.map some ++ List.replicate (NODE48_SIZE - 16) none)
      keys.length b c
      hd hpf
      (by rw [List.enum_eq_enumFrom, fold_set_enumFrom_length, hci0len])
      hch48len
      (by
        -- childIndex values
        intro b2 hb2
        by_cases hmem : b2 ∈ keys
        · right
          rcases hmemof b2 hmem with ⟨i, hi, hgi⟩
          rw [← hgi, hcimem i hi, hchgd]
          rw [if_pos (by omega)]
          exact ⟨by omega, rfl⟩
        · left
          exact hcinot b2 hmem)
      (by
        -- injectivity
        intro b1 b2 hb1 hb2 hne1 heq
        by_cases hm1 : b1 ∈ keys
        · by_cases hm2 : b2 ∈ keys
          · rcases hmemof b1 hm1 with ⟨i1, hi1, hg1⟩
            rcases hmemof b2 hm2 with ⟨i2, hi2, hg2⟩
            rw [← hg1, ← hg2, hcimem i1 hi1, hcimem i2 hi2] at heq
            rw [← hg1, ← hg2, heq]
          · rw [hcinot b2 hm2] at heq
            rcases hmemof b1 hm1 with ⟨i1, hi1, hg1⟩
            rw [← hg1, hcimem i1 hi1] at heq
            unfold emptyMarker NODE48_SIZE at heq
            omega
        · exact absurd (hcinot b1 hm1) hne1)
      (by
        -- slot cover
        intro j hj hocc
        rw [hchgd] at hocc
        rcases Nat.lt_or_ge j ch.length with h2 | h2
        · have hjk : j < keys.length := by omega
          refine ⟨keys.getD j 0, hbyte _ (getD_mem hjk), hcimem j hjk⟩
        · rw [if_neg (by omega)] at hocc
          exact Bool.noConfusion hocc)
      (by
        -- byte count
        rw [filter_range_length_congr (p := fun b2 => decide (b2 ∈ keys)) ?_,
          filter_range_length_mem hnd hbyte]
        intro y hy
        show decide (y ∈ keys) = _
        by_cases hmem : y ∈ keys
        · rcases hmemof y hmem with ⟨i, hi, hgi⟩
          rw [decide_eq_true hmem]
          refine (decide_eq_true ?_).symm
          rw [← hgi, hcimem i hi]
          unfold emptyMarker NODE48_SIZE
          omega
        · rw [decide_eq_false hmem, hcinot y hmem]
          refine (decide_eq_false ?_).symm
          exact fun hc => hc rfl)
      (by
        -- slot count
        rw [filter_range_length_congr (p := fun j => decide (j ∈ List.range 16)) ?_,
          filter_range_length_mem (List.nodup_range 16)
            (fun x hx => by have := List.mem_range.mp hx; omega),
          List.length_range, hk16]
        intro y hy
        show decide (y ∈ List.range 16) = _
        rw [hchgd]
        by_cases h2 : y < ch.length
        · rw [if_pos h2, decide_eq_true (List.mem_range.mpr (by omega))]
          rfl
        · rw [if_neg h2, decide_eq_false (fun hc => h2 (by
            have := List.mem_range.mp hc
            omega))]
          rfl)
      (by omega) (by omega)
      (by
        -- children well formed
        intro b2 hb2 hne2 c2 hc2
        by_cases hmem : b2 ∈ keys
        · rcases hmemof b2 hmem with ⟨i, hi, hgi⟩
          rw [← hgi, hcimem i hi, hchgd, if_pos (by omega)] at hc2
          cases Option.some_inj.mp hc2
          exact hch i (by omega)
        · exact absurd (hcinot b2 hmem) hne2)
      (by
        -- branch bytes
        intro b2 hb2 hne2 c2 hc2 w hw
        by_cases hmem : b2 ∈ keys
        · rcases hmemof b2 hmem with ⟨i, hi, hgi⟩
          rw [← hgi, hcimem i hi, hchgd, if_pos (by omega)] at hc2
          cases Option.some_inj.mp hc2
          rw [← hgi]
          exact hbr i (by omega) w hw
        · exact absurd (hcinot b2 hmem) hne2)
      (by
        -- shared prefix
        intro w hw j hj
        rw [flatMap_tidsOpt_map_append] at hw
        exact hpref w hw j hj)
      hb (hcinot b hfresh) hcwf hcbr hcpref
    refine ⟨hres.1, ?_⟩
    intro w
    rw [hres.2 w, flatMap_tidsOpt_map_append]

/-- insertNode4 on a fresh byte keeps the node well formed: below capacity a
sorted insertion, at capacity growth to a Node16 over the same arrays. -/
theorem insertNode4_wf {d pl : ℕ} {pf keys : List ℕ} {ch : List NTree} {b : ℕ}
    {c : NTree}
    (hd : d + pl ≤ 7) (hpf : pf.length = pl)
    (hlen : keys.length = ch.length)
    (hcnt : 1 ≤ keys.length) (hcnt2 : keys.length ≤ 4)
    (hsort : keys.Pairwise (· < ·)) (hbyte : ∀ x ∈ keys, x < 256)
    (hch : ∀ i, i < ch.length → Wf (d + pl + 1) (ch.getD i (leaf 0)))
    (hbr : ∀ i, i < ch.length → ∀ w ∈ tids (ch.getD i (leaf 0)),
      loadKey w (d + pl) = keys.getD i 0)
    (hpref : ∀ w ∈ ch.flatMap tids, ∀ j, j < pl → loadKey w (d + j) = pf.getD j 0)
    (hb : b < 256) (hfresh : b ∉ keys)
    (hcwf : Wf (d + pl + 1) c) (hcbr : ∀ w ∈ tids c, loadKey w (d + pl) = b)
    (hcpref : ∀ w ∈ tids c, ∀ j, j < pl → loadKey w (d + j) = pf.getD j 0) :
    Wf d (insertNode4 pl pf keys ch b c) ∧
      ∀ w, w ∈ tids (insertNode4 pl pf keys ch b c) ↔
        w ∈ ch.flatMap tids ∨ w ∈ tids c := by
  rcases Nat.lt_or_ge keys.length NODE4_SIZE with hlt | hge
  · -- sorted insertion
    have hlt4 : keys.length < 4 := hlt
    simp only [insertNode4]
    rw [if_pos hlt]
    have hp : ∀ x ∈ keys, ((fun x => decide (¬ x < b)) x = true ↔ b < x) := by
      intro x hx
      have hxne : x ≠ b := fun he => hfresh (he ▸ hx)
      simp only [decide_eq_true_eq]
      omega
    have hspec := findIdx_sorted_spec hsort hp hfresh
    have hfields := @insert_sorted_fields d pl _ _ _ c _
      hlen hsort hbyte hch hbr hb hcwf hcbr hspec.1 hspec.2.1 hspec.2.2
    have hposch : keys.findIdx (fun x => decide (¬ x < b)) ≤ ch.length := by
      have := hspec.1
      omega
    constructor
    · exact Wf.n4 hd hpf (by omega) (by omega) (by omega)
        hfields.2.2.1 hfields.2.2.2.1 hfields.2.2.2.2.1 hfields.2.2.2.2.2
        (by
          intro w hw j hj
          rcases (mem_flatMap_insertIdx hposch).mp hw with h | h
          · exact hcpref w h j hj
          · exact hpref w h j hj)
    · intro w
      rw [tids_n4, mem_flatMap_insertIdx hposch]
      exact or_comm
  · -- growth to Node16
    have hk4 : keys.length = 4 := by
      have : (4 : ℕ) ≤ keys.length := hge
      omega
    simp only [insertNode4]
    rw [if_neg (Nat.not_lt.mpr hge)]
    have hmin : min pl maxPrefLen = pl := by
      unfold maxPrefLen
      omega
    rw [hmin, List.take_of_length_le (le_of_eq hpf)]
    exact insertNode16_wf hd hpf hlen (by omega) (by omega) hsort hbyte hch hbr
      hpref hb hfresh hcwf hcbr hcpref

/-- The prefix stage of insert on a well-formed node: either the key matches
the whole stored prefix and the depth advances past it, or the node is split
at the first mismatch into a well-formed two-child Node4 holding the old node
(with its prefix shortened) and the new leaf. -/
theorem insPrefixStage_wf {d : ℕ} {t : NTree} (hwf : Wf d t) {key : ℕ → ℕ} {v : ℕ}
    (hv : v < 2 ^ 64) (hkey : AgreeOn key (loadKey v) d 8) (fuel : ℕ) :
    ((∀ j, j < prefLenOf t → key (d + j) = (pfOf t).getD j 0) ∧
      insPrefixStage fuel t key d v = some (Sum.inr (d + prefLenOf t)))
    ∨ (∃ t2, insPrefixStage fuel t key d v = some (Sum.inl t2) ∧ Wf d t2 ∧
        ∀ w, w ∈ tids t2 ↔ w ∈ tids t ∨ w = v) := by
  have hplpf := wf_plpf hwf
  by_cases hpl0 : prefLenOf t = 0
  · left
    refine ⟨by intro j hj; omega, ?_⟩
    simp only [insPrefixStage]
    rw [if_neg (fun hc => hc hpl0), hpl0]
    rfl
  · have hple7 : d + prefLenOf t ≤ 7 := hplpf.2 hpl0
    have hcap : prefLenOf t ≤ maxPrefLen := by
      unfold maxPrefLen
      omega
    rcases @prefixMismatch_le fuel d _ key hcap with
      ⟨m, hpm, hmlt, hmne, hmag⟩ | ⟨hpm, hmag⟩
    · right
      have hminm : min m maxPrefLen = m := by
        unfold maxPrefLen
        omega
      have hmin2 : min (prefLenOf t - (m + 1)) maxPrefLen = prefLenOf t - (m + 1) := by
        unfold maxPrefLen
        omega
      have hlendrop : ((pfOf t).drop (m + 1)).length ≤ prefLenOf t - (m + 1) := by
        rw [List.length_drop, hplpf.1]
      simp only [insPrefixStage, hpm]
      rw [if_pos hpl0, if_pos (by omega : m ≠ prefLenOf t),
        if_pos (by unfold maxPrefLen; omega : prefLenOf t < maxPrefLen),
        hminm, hmin2, List.take_of_length_le hlendrop]
      rcases List.exists_mem_of_ne_nil _ (wf_tids_ne_nil hwf) with ⟨w0, hw0⟩
      have hsplit := @wf_split_pair d m
        ((pfOf t).take m) ((pfOf t).getD m 0) (key (d + m))
        (withPref t (prefLenOf t - (m + 1)) ((pfOf t).drop (m + 1)))
        (leaf v)
        (by omega)
        (by rw [List.length_take, hplpf.1]; omega)
        (by
          rw [← wf_pref_byte hwf w0 hw0 m hmlt]
          exact loadKey_lt w0 (d + m))
        (by
          rw [hkey (d + m) (by omega) (by omega)]
          exact loadKey_lt v (d + m))
        (fun he => hmne he.symm)
        (wf_withPref hwf hmlt)
        (Wf.leaf (by omega) hv)
        (by
          intro w hw
          rw [tids_withPref] at hw
          exact wf_pref_byte hwf w hw m hmlt)
        (by
          intro w hw
          simp only [tids_leaf, List.mem_singleton] at hw
          rw [hw]
          exact (hkey (d + m) (by omega) (by omega)).symm)
        (by
          intro w hw j hj
          rw [getD_take _ hj]
          rcases hw with hw | hw
          · rw [tids_withPref] at hw
            exact wf_pref_byte hwf w hw j (by omega)
          · simp only [tids_leaf, List.mem_singleton] at hw
            rw [hw, ← hkey (d + j) (by omega) (by omega)]
            exact hmag j (by omega))
      refine ⟨_, rfl, hsplit.1, ?_⟩
      intro w
      rw [hsplit.2 w, tids_withPref]
      simp only [tids_leaf, List.mem_singleton]
    · left
      refine ⟨hmag, ?_⟩
      simp only [insPrefixStage, hpm]
      rw [if_pos hpl0, if_neg (fun hc => hc rfl)]

/-- Point insert (ART.cpp lines 389-460) on a well-formed subtree, with a key
that differs from every stored key somewhere in positions d..7: the insert
succeeds, the result is well formed, and it holds exactly the old tuple
identifiers plus the new one. -/
theorem insertF_wf {d : ℕ} {t : NTree} (hwf : Wf d t) :
    ∀ fuel, 9 - d ≤ fuel → ∀ key : ℕ → ℕ, ∀ v, v < 2 ^ 64 →
      AgreeOn key (loadKey v) d 8 →
      (∀ w ∈ tids t, ¬ AgreeOn (loadKey w) key d 8) →
      ∃ t2, insertF fuel (some t) key d v = some (some t2) ∧ Wf d t2 ∧
        ∀ w, w ∈ tids t2 ↔ w ∈ tids t ∨ w = v := by
  induction hwf with
  | leaf hd hv =>
    rename_i d2 e
    intro fuel hfuel key v hvv hkey hfresh
    rcases fuel with _ | f
    · omega
    have hne : ¬ AgreeOn (loadKey e) key d2 8 := hfresh e (by simp)
    have hd8 : d2 < 8 := by
      rcases Nat.lt_or_ge d2 8 with h | h
      · exact h
      · exact absurd (fun i h1 h2 => absurd h1 (by omega)) hne
    have hPex : ∃ j, (loadKey e (d2 + j) ≠ key (d2 + j)) ∧ j < 8 - d2 := by
      unfold AgreeOn at hne
      push_neg at hne
      rcases hne with ⟨i, hi8, hdle, hneq⟩
      exact ⟨i - d2, by rw [Nat.add_sub_cancel' hdle]; exact hneq, by omega⟩
    have hPex2 : ∃ j, loadKey e (d2 + j) ≠ key (d2 + j) := by
      rcases hPex with ⟨j, hj1, _⟩
      exact ⟨j, hj1⟩
    obtain ⟨j0, hj0spec, hj0min, hj0lt⟩ : ∃ j0, loadKey e (d2 + j0) ≠ key (d2 + j0) ∧
        (∀ i, i < j0 → loadKey e (d2 + i) = key (d2 + i)) ∧ j0 < 8 - d2 := by
      refine ⟨Nat.find hPex2, Nat.find_spec hPex2,
        fun i hi => not_not.mp (Nat.find_min hPex2 hi), ?_⟩
      rcases hPex with ⟨j, hj1, hj2⟩
      have := Nat.find_min' hPex2 hj1
      omega
    have hscan : lcpScan (loadKey e) key d2 0 (8 - d2) = some j0 :=
      lcpScan_spec hj0spec (8 - d2) 0 (by omega) (by omega)
        (fun i h1 h2 => hj0min i h2)
    simp only [insertF, hscan]
    have hminj : min j0 maxPrefLen = j0 := by
      unfold maxPrefLen
      omega
    rw [hminj]
    have hsplit := @wf_split_pair d2 j0
      ((List.range j0).map (fun i => key (d2 + i)))
      (loadKey e (d2 + j0)) (key (d2 + j0))
      (leaf e) (leaf v)
      (by omega) (by rw [List.length_map, List.length_range])
      (loadKey_lt e (d2 + j0))
      (by rw [hkey (d2 + j0) (by omega) (by omega)]; exact loadKey_lt v (d2 + j0))
      hj0spec
      (Wf.leaf (by omega) hv)
      (Wf.leaf (by omega) hvv)
      (by
        intro w hw
        simp only [tids_leaf, List.mem_singleton] at hw
        rw [hw])
      (by
        intro w hw
        simp only [tids_leaf, List.mem_singleton] at hw
        rw [hw]
        exact (hkey (d2 + j0) (by omega) (by omega)).symm)
      (by
        intro w hw j hj
        rw [getD_range_map _ hj]
        rcases hw with hw | hw <;> simp only [tids_leaf, List.mem_singleton] at hw
        · rw [hw]
          exact hj0min j hj
        · rw [hw]
          exact (hkey (d2 + j) (by omega) (by omega)).symm)
    refine ⟨_, rfl, hsplit.1, ?_⟩
    intro w
    rw [hsplit.2 w]
    simp only [tids_leaf, List.mem_singleton]
  | n4 hd hpf hlen hcnt hcnt2 hsort hbyte hch hbr hpref ihch =>
    rename_i d2 pl pf keys ch
    intro fuel hfuel key v hvv hkey hfresh
    rcases fuel with _ | f
    · omega
    have hwf0 : Wf d2 (n4 pl pf keys ch) :=
      Wf.n4 hd hpf hlen hcnt hcnt2 hsort hbyte hch hbr hpref
    rcases insPrefixStage_wf hwf0 hvv hkey f with ⟨hprm, hstage⟩ | ⟨t2, hstage, hwf2, hmem2⟩
    · simp only [prefLenOf, pfOf] at hprm hstage
      rcases hfind : keys.findIdx? (fun x => decide (x = key (d2 + pl))) with _ | i
      · -- no child for the branch byte: variant insert of the new leaf
        have hbfresh : key (d2 + pl) ∉ keys := by
          rw [List.findIdx?_eq_none_iff] at hfind
          intro hmem
          have := hfind _ hmem
          simp at this
        have hins := insertNode4_wf (b := key (d2 + pl)) (c := leaf v)
          hd hpf hlen (by omega) hcnt2 hsort hbyte hch hbr hpref
          (by rw [hkey (d2 + pl) (by omega) (by omega)]; exact loadKey_lt v (d2 + pl))
          hbfresh
          (Wf.leaf (by omega) hvv)
          (by
            intro w hw
            simp only [tids_leaf, List.mem_singleton] at hw
            rw [hw]
            exact (hkey (d2 + pl) (by omega) (by omega)).symm)
          (by
            intro w hw j hj
            simp only [tids_leaf, List.mem_singleton] at hw
            rw [hw, ← hkey (d2 + j) (by omega) (by omega)]
            exact hprm j hj)
        simp only [insertF, hstage, hfind]
        refine ⟨_, rfl, hins.1, ?_⟩
        intro w
        rw [hins.2 w, tids_n4]
        simp only [tids_leaf, List.mem_singleton]
      · -- child found: recurse into it
        rcases List.findIdx?_eq_some_iff_getElem.mp hfind with ⟨hilen, hpi, hfirst⟩
        have hkeyi : keys.getD i 0 = key (d2 + pl) := by
          rw [List.getD_eq_getElem _ _ hilen]
          exact of_decide_eq_true hpi
        have hich : i < ch.length := by omega
        rcases hg : ch.get? i with _ | c
        · rw [List.get?_eq_getElem?, List.getElem?_eq_getElem hich] at hg
          simp at hg
        have hc : ch.getD i (leaf 0) = c := by
          rw [List.get?_eq_getElem?, List.getElem?_eq_getElem hich] at hg
          rw [List.getD_eq_getElem _ _ hich]
          exact Option.some_inj.mp hg
        have hfreshc : ∀ w ∈ tids (ch.getD i (leaf 0)),
            ¬ AgreeOn (loadKey w) key (d2 + pl + 1) 8 := by
          intro w hw hag
          have hwmem : w ∈ ch.flatMap tids := mem_flatMap_tids.mpr ⟨i, hich, hw⟩
          apply hfresh w (by rw [tids_n4]; exact hwmem)
          intro idx hi8 hdle
          rcases Nat.lt_trichotomy idx (d2 + pl) with hlt2 | heq2 | hgt2
          · have h1 := hpref w hwmem (idx - d2) (by omega)
            have h2 := hprm (idx - d2) (by omega)
            have hj2 : d2 + (idx - d2) = idx := by omega
            rw [hj2] at h1 h2
            rw [h1, ← h2]
          · have h1 := hbr i hich w hw
            rw [heq2, h1, hkeyi]
          · exact hag idx hi8 (by omega)
        rcases ihch i hich f (by omega) key v hvv (agreeOn_mono hkey (by omega))
            hfreshc with ⟨c2, hrec, hwfc2, hmemc2⟩
        rw [hc] at hrec hmemc2
        simp only [insertF, hstage, hfind, hg, hrec]
        refine ⟨_, rfl, ?_, ?_⟩
        · refine Wf.n4 hd hpf (by rw [List.length_set]; exact hlen)
            hcnt hcnt2 hsort hbyte ?_ ?_ ?_
          · intro j hj
            rw [List.length_set] at hj
            by_cases hji : i = j
            · rw [← hji, getD_set_self _ _ hich]
              exact hwfc2
            · rw [getD_set_ne _ _ hji]
              exact hch j hj
          · intro j hj w hw
            rw [List.length_set] at hj
            by_cases hji : i = j
            · rw [← hji, getD_set_self _ _ hich] at hw
              rw [← hji]
              rcases (hmemc2 w).mp hw with h | h
              · exact hbr i hich w (by rw [hc]; exact h)
              · rw [h, hkeyi]
                exact (hkey (d2 + pl) (by omega) (by omega)).symm
            · rw [getD_set_ne _ _ hji] at hw
              exact hbr j hj w hw
          · intro w hw j hj
            rcases (mem_flatMap_tids_set hich (by rw [hc]; exact hmemc2) w).mp hw with h | h
            · exact hpref w h j hj
            · rw [h, ← hkey (d2 + j) (by omega) (by omega)]
              exact hprm j hj
        · intro w
          rw [tids_n4, tids_n4]
          exact mem_flatMap_tids_set hich (by rw [hc]; exact hmemc2) w
    · simp only [insertF, hstage]
      exact ⟨t2, rfl, hwf2, hmem2⟩
  | n16 hd hpf hlen hcnt hcnt2 hsort hbyte hch hbr hpref ihch =>
    rename_i d2 pl pf keys ch
    intro fuel hfuel key v hvv hkey hfresh
    rcases fuel with _ | f
    · omega
    have hwf0 : Wf d2 (n16 pl pf keys ch) :=
      Wf.n16 hd hpf hlen hcnt hcnt2 hsort hbyte hch hbr hpref
    rcases insPrefixStage_wf hwf0 hvv hkey f with ⟨hprm, hstage⟩ | ⟨t2, hstage, hwf2, hmem2⟩
    · simp only [prefLenOf, pfOf] at hprm hstage
      rcases hfind : keys.findIdx? (fun x => decide (x = key (d2 + pl))) with _ | i
      · have hbfresh : key (d2 + pl) ∉ keys := by
          rw [List.findIdx?_eq_none_iff] at hfind
          intro hmem
          have := hfind _ hmem
          simp at this
        have hins := insertNode16_wf (b := key (d2 + pl)) (c := leaf v)
          hd hpf hlen (by omega) hcnt2 hsort hbyte hch hbr hpref
          (by rw [hkey (d2 + pl) (by omega) (by omega)]; exact loadKey_lt v (d2 + pl))
          hbfresh
          (Wf.leaf (by omega) hvv)
          (by
            intro w hw
            simp only [tids_leaf, List.mem_singleton] at hw
            rw [hw]
            exact (hkey (d2 + pl) (by omega) (by omega)).symm)
          (by
            intro w hw j hj
            simp only [tids_leaf, List.mem_singleton] at hw
            rw [hw, ← hkey (d2 + j) (by omega) (by omega)]
            exact hprm j hj)
        simp only [insertF, hstage, hfind]
        refine ⟨_, rfl, hins.1, ?_⟩
        intro w
        rw [hins.2 w, tids_n16]
        simp only [tids_leaf, List.mem_singleton]
      · rcases List.findIdx?_eq_some_iff_getElem.mp hfind with ⟨hilen, hpi, hfirst⟩
        have hkeyi : keys.getD i 0 = key (d2 + pl) := by
          rw [List.getD_eq_getElem _ _ hilen]
          exact of_decide_eq_true hpi
        have hich : i < ch.length := by omega
        rcases hg : ch.get? i with _ | c
        · rw [List.get?_eq_getElem?, List.getElem?_eq_getElem hich] at hg
          simp at hg
        have hc : ch.getD i (leaf 0) = c := by
          rw [List.get?_eq_getElem?, List.getElem?_eq_getElem hich] at hg
          rw [List.getD_eq_getElem _ _ hich]
          exact Option.some_inj.mp hg
        have hfreshc : ∀ w ∈ tids (ch.getD i (leaf 0)),
            ¬ AgreeOn (loadKey w) key (d2 + pl + 1) 8 := by
          intro w hw hag
          have hwmem : w ∈ ch.flatMap tids := mem_flatMap_tids.mpr ⟨i, hich, hw⟩
          apply hfresh w (by rw [tids_n16]; exact hwmem)
          intro idx hi8 hdle
          rcases Nat.lt_trichotomy idx (d2 + pl) with hlt2 | heq2 | hgt2
          · have h1 := hpref w hwmem (idx - d2) (by omega)
            have h2 := hprm (idx - d2) (by omega)
            have hj2 : d2 + (idx - d2) = idx := by omega
            rw [hj2] at h1 h2
            rw [h1, ← h2]
          · have h1 := hbr i hich w hw
            rw [heq2, h1, hkeyi]
          · exact hag idx hi8 (by omega)
        rcases ihch i hich f (by omega) key v hvv (agreeOn_mono hkey (by omega))
            hfreshc with ⟨c2, hrec, hwfc2, hmemc2⟩
        rw [hc] at hrec hmemc2
        simp only [insertF, hstage, hfind, hg, hrec]
        refine ⟨_, rfl, ?_, ?_⟩
        · refine Wf.n16 hd hpf (by rw [List.length_set]; exact hlen)
            hcnt hcnt2 hsort hbyte ?_ ?_ ?_
          · intro j hj
            rw [List.length_set] at hj
            by_cases hji : i = j
            · rw [← hji, getD_set_self _ _ hich]
              exact hwfc2
            · rw [getD_set_ne _ _ hji]
              exact hch j hj
          · intro j hj w hw
            rw [List.length_set] at hj
            by_cases hji : i = j
            · rw [← hji, getD_set_self _ _ hich] at hw
              rw [← hji]
              rcases (hmemc2 w).mp hw with h | h
              · exact hbr i hich w (by rw [hc]; exact h)
              · rw [h, hkeyi]
                exact (hkey (d2 + pl) (by omega) (by omega)).symm
            · rw [getD_set_ne _ _ hji] at hw
              exact hbr j hj w hw
          · intro w hw j hj
            rcases (mem_flatMap_tids_set hich (by rw [hc]; exact hmemc2) w).mp hw with h | h
            · exact hpref w h j hj
            · rw [h, ← hkey (d2 + j) (by omega) (by omega)]
              exact hprm j hj
        · intro w
          rw [tids_n16, tids_n16]
          exact mem_flatMap_tids_set hich (by rw [hc]; exact hmemc2) w
    · simp only [insertF, hstage]
      exact ⟨t2, rfl, hwf2, hmem2⟩
  | n48 hd hpf hcilen hchlen hcival hinj hsl hcnt hscnt hc1 hc2 hch hbr hpref ihch =>
    rename_i d2 pl pf ci ch cnt
    intro fuel hfuel key v hvv hkey hfresh
    rcases fuel with _ | f
    · omega
    have hwf0 : Wf d2 (n48 pl pf ci ch cnt) :=
      Wf.n48 hd hpf hcilen hchlen hcival hinj hsl hcnt hscnt hc1 hc2 hch hbr hpref
    rcases insPrefixStage_wf hwf0 hvv hkey f with ⟨hprm, hstage⟩ | ⟨t2, hstage, hwf2, hmem2⟩
    · simp only [prefLenOf, pfOf] at hprm hstage
      have hkb : key (d2 + pl) < 256 := by
        rw [hkey (d2 + pl) (by omega) (by omega)]
        exact loadKey_lt v (d2 + pl)
      by_cases hguard : ci.getD (key (d2 + pl)) emptyMarker ≠ emptyMarker
      · -- occupied childIndex entry: recurse
        rcases hcival _ hkb with hemp | ⟨hidx24, hsome⟩
        · exact absurd hemp hguard
        rcases hgc : ch.getD (ci.getD (key (d2 + pl)) emptyMarker) none with _ | c
        · rw [hgc] at hsome
          exact Bool.noConfusion hsome
        have hfreshc : ∀ w ∈ tids c, ¬ AgreeOn (loadKey w) key (d2 + pl + 1) 8 := by
          intro w hw hag
          have hwmem : w ∈ ch.flatMap tidsOpt :=
            mem_flatMap_tidsOpt.mpr
              ⟨ci.getD (key (d2 + pl)) emptyMarker, by omega, c, hgc, hw⟩
          apply hfresh w (by rw [tids_n48]; exact hwmem)
          intro idx hi8 hdle
          rcases Nat.lt_trichotomy idx (d2 + pl) with hlt2 | heq2 | hgt2
          · have h1 := hpref w hwmem (idx - d2) (by omega)
            have h2 := hprm (idx - d2) (by omega)
            have hj2 : d2 + (idx - d2) = idx := by omega
            rw [hj2] at h1 h2
            rw [h1, ← h2]
          · have h1 := hbr _ hkb hguard c hgc w hw
            rw [heq2, h1]
          · exact hag idx hi8 (by omega)
        rcases ihch _ hkb hguard c hgc f (by omega) key v hvv
            (agreeOn_mono hkey (by omega)) hfreshc with ⟨c2, hrec, hwfc2, hmemc2⟩
        simp only [insertF, hstage]
        rw [if_pos hguard]
        simp only [hgc, hrec]
        refine ⟨_, rfl, ?_, ?_⟩
        · refine Wf.n48 hd hpf hcilen (by rw [List.length_set]; exact hchlen)
            ?_ hinj ?_ hcnt ?_ hc1 hc2 ?_ ?_ ?_
          · -- childIndex values
            intro b2 hb2
            rcases hcival b2 hb2 with h | ⟨hl2, hs2⟩
            · left
              exact h
            · right
              refine ⟨hl2, ?_⟩
              by_cases hii : ci.getD b2 emptyMarker = ci.getD (key (d2 + pl)) emptyMarker
              · rw [hii, getD_set_self _ _ (by omega)]
                rfl
              · rw [getD_set_ne _ _ (fun hc4 => hii hc4.symm)]
                exact hs2
          · -- slot cover
            intro j hj hocc
            apply hsl j hj
            by_cases hji : ci.getD (key (d2 + pl)) emptyMarker = j
            · rw [← hji, hgc]
              rfl
            · rw [getD_set_ne _ _ hji] at hocc
              exact hocc
          · -- slot count
            rw [hscnt]
            refine filter_range_length_congr ?_
            intro y hy
            by_cases hji : ci.getD (key (d2 + pl)) emptyMarker = y
            · rw [← hji, getD_set_self _ _ (by omega), hgc]
              rfl
            · rw [getD_set_ne _ _ hji]
          · -- children well formed
            intro b2 hb2 hne2 c3 hc3
            by_cases hii : ci.getD b2 emptyMarker = ci.getD (key (d2 + pl)) emptyMarker
            · rw [hii, getD_set_self _ _ (by omega)] at hc3
              cases Option.some_inj.mp hc3
              exact hwfc2
            · rw [getD_set_ne _ _ (fun hc4 => hii hc4.symm)] at hc3
              exact hch b2 hb2 hne2 c3 hc3
          · -- branch bytes
            intro b2 hb2 hne2 c3 hc3 w hw
            by_cases hii : ci.getD b2 emptyMarker = ci.getD (key (d2 + pl)) emptyMarker
            · rw [hii, getD_set_self _ _ (by omega)] at hc3
              cases Option.some_inj.mp hc3
              have hb2eq : b2 = key (d2 + pl) := hinj b2 _ hb2 hkb hne2 hii
              rw [hb2eq]
              rcases (hmemc2 w).mp hw with h | h
              · exact hbr _ hkb hguard c hgc w h
              · rw [h, ← hkey (d2 + pl) (by omega) (by omega)]
            · rw [getD_set_ne _ _ (fun hc4 => hii hc4.symm)] at hc3
              exact hbr b2 hb2 hne2 c3 hc3 w hw
          · -- shared prefix
            intro w hw j hj
            rcases (mem_flatMap_tidsOpt_set (by omega) hgc hmemc2 w).mp hw with h | h
            · exact hpref w h j hj
            · rw [h, ← hkey (d2 + j) (by omega) (by omega)]
              exact hprm j hj
        · intro w
          rw [tids_n48, tids_n48]
          exact mem_flatMap_tidsOpt_set (by omega) hgc hmemc2 w
      · -- fresh byte: variant insert of the new leaf
        push_neg at hguard
        have hins := insertNode48_wf (b := key (d2 + pl)) (c := leaf v)
          hd hpf hcilen hchlen hcival hinj hsl hcnt hscnt (by omega) hc2 hch hbr hpref
          hkb hguard
          (Wf.leaf (by omega) hvv)
          (by
            intro w hw
            simp only [tids_leaf, List.mem_singleton] at hw
            rw [hw]
            exact (hkey (d2 + pl) (by omega) (by omega)).symm)
          (by
            intro w hw j hj
            simp only [tids_leaf, List.mem_singleton] at hw
            rw [hw, ← hkey (d2 + j) (by omega) (by omega)]
            exact hprm j hj)
        simp only [insertF, hstage]
        rw [if_neg (fun hc => hc hguard)]
        refine ⟨_, rfl, hins.1, ?_⟩
        intro w
        rw [hins.2 w, tids_n48]
        simp only [tids_leaf, List.mem_singleton]
    · simp only [insertF, hstage]
      exact ⟨t2, rfl, hwf2, hmem2⟩
  | n256 hd hpf hchlen hcnt hc1 hc2 hch hbr hpref ihch =>
    rename_i d2 pl pf ch cnt
    intro fuel hfuel key v hvv hkey hfresh
    rcases fuel with _ | f
    · omega
    have hwf0 : Wf d2 (n256 pl pf ch cnt) :=
      Wf.n256 hd hpf hchlen hcnt hc1 hc2 hch hbr hpref
    rcases insPrefixStage_wf hwf0 hvv hkey f with ⟨hprm, hstage⟩ | ⟨t2, hstage, hwf2, hmem2⟩
    · simp only [prefLenOf, pfOf] at hprm hstage
      have hkb : key (d2 + pl) < 256 := by
        rw [hkey (d2 + pl) (by omega) (by omega)]
        exact loadKey_lt v (d2 + pl)
      rcases hgc : ch.getD (key (d2 + pl)) none with _ | c
      · -- empty slot: variant insert of the new leaf
        have hins := insertNode256_wf (b := key (d2 + pl)) (c := leaf v)
          hd hpf hchlen hcnt (by omega) hch hbr hpref hkb hgc
          (Wf.leaf (by omega) hvv)
          (by
            intro w hw
            simp only [tids_leaf, List.mem_singleton] at hw
            rw [hw]
            exact (hkey (d2 + pl) (by omega) (by omega)).symm)
          (by
            intro w hw j hj
            simp only [tids_leaf, List.mem_singleton] at hw
            rw [hw, ← hkey (d2 + j) (by omega) (by omega)]
            exact hprm j hj)
        simp only [insertF, hstage, hgc]
        refine ⟨_, rfl, hins.1, ?_⟩
        intro w
        rw [hins.2 w, tids_n256]
        simp only [tids_leaf, List.mem_singleton]
      · -- occupied slot: recurse
        have hfreshc : ∀ w ∈ tids c, ¬ AgreeOn (loadKey w) key (d2 + pl + 1) 8 := by
          intro w hw hag
          have hwmem : w ∈ ch.flatMap tidsOpt :=
            mem_flatMap_tidsOpt.mpr ⟨key (d2 + pl), by omega, c, hgc, hw⟩
          apply hfresh w (by rw [tids_n256]; exact hwmem)
          intro idx hi8 hdle
          rcases Nat.lt_trichotomy idx (d2 + pl) with hlt2 | heq2 | hgt2
          · have h1 := hpref w hwmem (idx - d2) (by omega)
            have h2 := hprm (idx - d2) (by omega)
            have hj2 : d2 + (idx - d2) = idx := by omega
            rw [hj2] at h1 h2
            rw [h1, ← h2]
          · have h1 := hbr _ hkb c hgc w hw
            rw [heq2, h1]
          · exact hag idx hi8 (by omega)
        rcases ihch _ hkb c hgc f (by omega) key v hvv
            (agreeOn_mono hkey (by omega)) hfreshc with ⟨c2, hrec, hwfc2, hmemc2⟩
        simp only [insertF, hstage, hgc, hrec]
        refine ⟨_, rfl, ?_, ?_⟩
        · refine Wf.n256 hd hpf (by rw [List.length_set]; exact hchlen)
            ?_ hc1 hc2 ?_ ?_ ?_
          · rw [hcnt]
            refine filter_range_length_congr ?_
            intro y hy
            by_cases hji : key (d2 + pl) = y
            · rw [← hji, getD_set_self _ _ (by omega), hgc]
              rfl
            · rw [getD_set_ne _ _ hji]
          · intro b2 hb2 c3 hc3
            by_cases hii : b2 = key (d2 + pl)
            · rw [hii, getD_set_self _ _ (by omega)] at hc3
              cases Option.some_inj.mp hc3
              exact hwfc2
            · rw [getD_set_ne _ _ (fun hc4 => hii hc4.symm)] at hc3
              exact hch b2 hb2 c3 hc3
          · intro b2 hb2 c3 hc3 w hw
            by_cases hii : b2 = key (d2 + pl)
            · rw [hii, getD_set_self _ _ (by omega)] at hc3
              cases Option.some_inj.mp hc3
              rw [hii]
              rcases (hmemc2 w).mp hw with h | h
              · exact hbr _ hkb c hgc w h
              · rw [h, ← hkey (d2 + pl) (by omega) (by omega)]
            · rw [getD_set_ne _ _ (fun hc4 => hii hc4.symm)] at hc3
              exact hbr b2 hb2 c3 hc3 w hw
          · intro w hw j hj
            rcases (mem_flatMap_tidsOpt_set (by omega) hgc hmemc2 w).mp hw with h | h
            · exact hpref w h j hj
            · rw [h, ← hkey (d2 + j) (by omega) (by omega)]
              exact hprm j hj
        · intro w
          rw [tids_n256, tids_n256]
          exact mem_flatMap_tidsOpt_set (by omega) hgc hmemc2 w
    · simp only [insertF, hstage]
      exact ⟨t2, rfl, hwf2, hmem2⟩

theorem set_getD_self2 {α : Type} {l : List α} {i : ℕ} (dflt : α) (h : i < l.length) :
    l.set i (l.getD i dflt) = l := by
  apply List.ext_getElem?
  intro n
  by_cases hn : n = i
  · subst hn
    rw [List.getElem?_set_self h, List.getD_eq_getElem _ _ h, List.getElem?_eq_getElem h]
  · rw [List.getElem?_set_ne (fun hc => hn hc.symm)]

/-- A true isLeafMatching test exposes a leaf whose key matches. -/
theorem isLeafMatching_true {c : NTree} {key : ℕ → ℕ} {kl dp : ℕ}
    (h : isLeafMatching c key kl dp = true) :
    ∃ e, c = leaf e ∧ leafMatches e key kl dp = true := by
  cases c with
  | leaf e => exact ⟨e, rfl, h⟩
  | n4 pl pf keys ch => exact Bool.noConfusion h
  | n16 pl pf keys ch => exact Bool.noConfusion h
  | n48 pl pf ci ch cnt => exact Bool.noConfusion h
  | n256 pl pf ch cnt => exact Bool.noConfusion h
  | nlin pl pf a b ch => exact Bool.noConfusion h

/-- The prefix stage of erase when the stored prefix mismatches the key. -/
theorem erasePref_mismatch {fuel d : ℕ} {t : NTree} {key : ℕ → ℕ} {m : ℕ}
    (hpm : prefixMismatch fuel t key d = some m) (hne : m ≠ prefLenOf t)
    (h0 : prefLenOf t ≠ 0) :
    erasePref fuel t key d = some none := by
  simp only [erasePref, hpm]
  rw [if_pos h0, if_pos hne]

/-- The prefix stage of erase when the stored prefix fully matches the key. -/
theorem erasePref_full {fuel d : ℕ} {t : NTree} {key : ℕ → ℕ}
    (hpm : prefixMismatch fuel t key d = some (prefLenOf t)) :
    erasePref fuel t key d = some (some (d + prefLenOf t)) := by
  by_cases h0 : prefLenOf t = 0
  · simp only [erasePref]
    rw [if_neg (fun hc => hc h0), h0]
    rfl
  · simp only [erasePref, hpm]
    rw [if_pos h0, if_neg (fun hc => hc rfl)]

/-- Point erase (ART.cpp lines 564-597) of an absent key on a well-formed
subtree is a no-op: the returned slot holds the same unchanged node. -/
theorem eraseF_nomatch {d : ℕ} {t : NTree} (hwf : Wf d t) :
    ∀ fuel, 9 - d ≤ fuel → ∀ key : ℕ → ℕ,
      (∀ w ∈ tids t, ¬ AgreeOn (loadKey w) key d 8) →
      eraseF fuel (some t) key 8 d = some (some t) := by
  induction hwf with
  | leaf hd hv =>
    rename_i d2 e
    intro fuel hfuel key hfresh
    rcases fuel with _ | f
    · omega
    have hne : ¬ AgreeOn (loadKey e) key d2 8 := hfresh e (by simp)
    have hd8 : d2 < 8 := by
      rcases Nat.lt_or_ge d2 8 with h | h
      · exact h
      · exact absurd (fun i h1 h2 => absurd h1 (by omega)) hne
    have hlm : leafMatches e key 8 d2 = false := by
      unfold leafMatches
      rw [if_pos (by omega)]
      exact decide_eq_false hne
    simp only [eraseF, hlm]
    rfl
  | n4 hd hpf hlen hcnt hcnt2 hsort hbyte hch hbr hpref ihch =>
    rename_i d2 pl pf keys ch
    intro fuel hfuel key hfresh
    rcases fuel with _ | f
    · omega
    have hwf0 : Wf d2 (n4 pl pf keys ch) :=
      Wf.n4 hd hpf hlen hcnt hcnt2 hsort hbyte hch hbr hpref
    have hcap : prefLenOf (n4 pl pf keys ch) ≤ maxPrefLen := by
      simp only [prefLenOf]
      unfold maxPrefLen
      omega
    rcases @prefixMismatch_le f d2 _ key hcap with
      ⟨m, hpm, hmlt, hmne, hmag⟩ | ⟨hpm, hmag⟩
    · simp only [prefLenOf] at hmlt
      have hep := erasePref_mismatch hpm (by simp only [prefLenOf]; omega)
        (by simp only [prefLenOf]; omega)
      simp only [eraseF, hep]
    · have hep := erasePref_full hpm
      simp only [prefLenOf, pfOf] at hep hmag
      rcases hfind : keys.findIdx? (fun x => decide (x = key (d2 + pl))) with _ | i
      · simp only [eraseF, hep, hfind]
      · rcases List.findIdx?_eq_some_iff_getElem.mp hfind with ⟨hilen, hpi, hfirst⟩
        have hkeyi : keys.getD i 0 = key (d2 + pl) := by
          rw [List.getD_eq_getElem _ _ hilen]
          exact of_decide_eq_true hpi
        have hich : i < ch.length := by omega
        rcases hg : ch.get? i with _ | c
        · rw [List.get?_eq_getElem?, List.getElem?_eq_getElem hich] at hg
          simp at hg
        have hc : ch.getD i (leaf 0) = c := by
          rw [List.get?_eq_getElem?, List.getElem?_eq_getElem hich] at hg
          rw [List.getD_eq_getElem _ _ hich]
          exact Option.some_inj.mp hg
        have hagfull : ∀ w ∈ tids c, AgreeOn (loadKey w) key (d2 + pl + 1) 8 →
            AgreeOn (loadKey w) key d2 8 := by
          intro w hw hag idx hi8 hdle
          have hwmem : w ∈ ch.flatMap tids := mem_flatMap_tids.mpr
            ⟨i, hich, by rw [hc]; exact hw⟩
          rcases Nat.lt_trichotomy idx (d2 + pl) with hlt2 | heq2 | hgt2
          · have h1 := hpref w hwmem (idx - d2) (by omega)
            have h2 := hmag (idx - d2) (by omega)
            have hj2 : d2 + (idx - d2) = idx := by omega
            rw [hj2] at h1 h2
            rw [h1, ← h2]
          · have h1 := hbr i hich w (by rw [hc]; exact hw)
            rw [heq2, h1, hkeyi]
          · exact hag idx hi8 (by omega)
        have hfreshc : ∀ w ∈ tids (ch.getD i (leaf 0)),
            ¬ AgreeOn (loadKey w) key (d2 + pl + 1) 8 := by
          intro w hw hag
          rw [hc] at hw
          exact hfresh w
            (by rw [tids_n4]; exact mem_flatMap_tids.mpr ⟨i, hich, by rw [hc]; exact hw⟩)
            (hagfull w hw hag)
        have hlm : isLeafMatching c key 8 (d2 + pl) = false := by
          rcases hb2 : isLeafMatching c key 8 (d2 + pl) with _ | _
          · rfl
          rcases isLeafMatching_true hb2 with ⟨e, hce, hem⟩
          unfold leafMatches at hem
          rw [if_pos (by omega)] at hem
          have hag : AgreeOn (loadKey e) key (d2 + pl) 8 := of_decide_eq_true hem
          exfalso
          apply hfresh e (by
            rw [tids_n4]
            exact mem_flatMap_tids.mpr ⟨i, hich, by rw [hc, hce]; simp⟩)
          exact hagfull e (by rw [hce]; simp) (agreeOn_mono hag (by omega))
        have hrec := ihch i hich f (by omega) key hfreshc
        rw [hc] at hrec
        simp only [eraseF, hep, hfind, hg, hlm, Bool.false_eq_true, if_false, hrec]
        rw [← hc, set_getD_self2 _ hich]
  | n16 hd hpf hlen hcnt hcnt2 hsort hbyte hch hbr hpref ihch =>
    rename_i d2 pl pf keys ch
    intro fuel hfuel key hfresh
    rcases fuel with _ | f
    · omega
    have hcap : prefLenOf (n16 pl pf keys ch) ≤ maxPrefLen := by
      simp only [prefLenOf]
      unfold maxPrefLen
      omega
    rcases @prefixMismatch_le f d2 _ key hcap with
      ⟨m, hpm, hmlt, hmne, hmag⟩ | ⟨hpm, hmag⟩
    · simp only [prefLenOf] at hmlt
      have hep := erasePref_mismatch hpm (by simp only [prefLenOf]; omega)
        (by simp only [prefLenOf]; omega)
      simp only [eraseF, hep]
    · have hep := erasePref_full hpm
      simp only [prefLenOf, pfOf] at hep hmag
      rcases hfind : keys.findIdx? (fun x => decide (x = key (d2 + pl))) with _ | i
      · simp only [eraseF, hep, hfind]
      · rcases List.findIdx?_eq_some_iff_getElem.mp hfind with ⟨hilen, hpi, hfirst⟩
        have hkeyi : keys.getD i 0 = key (d2 + pl) := by
          rw [List.getD_eq_getElem _ _ hilen]
          exact of_decide_eq_true hpi
        have hich : i < ch.length := by omega
        rcases hg : ch.get? i with _ | c
        · rw [List.get?_eq_getElem?, List.getElem?_eq_getElem hich] at hg
          simp at hg
        have hc : ch.getD i (leaf 0) = c := by
          rw [List.get?_eq_getElem?, List.getElem?_eq_getElem hich] at hg
          rw [List.getD_eq_getElem _ _ hich]
          exact Option.some_inj.mp hg
        have hagfull : ∀ w ∈ tids c, AgreeOn (loadKey w) key (d2 + pl + 1) 8 →
            AgreeOn (loadKey w) key d2 8 := by
          intro w hw hag idx hi8 hdle
          have hwmem : w ∈ ch.flatMap tids := mem_flatMap_tids.mpr
            ⟨i, hich, by rw [hc]; exact hw⟩
          rcases Nat.lt_trichotomy idx (d2 + pl) with hlt2 | heq2 | hgt2
          · have h1 := hpref w hwmem (idx - d2) (by omega)
            have h2 := hmag (idx - d2) (by omega)
            have hj2 : d2 + (idx - d2) = idx := by omega
            rw [hj2] at h1 h2
            rw [h1, ← h2]
          · have h1 := hbr i hich w (by rw [hc]; exact hw)
            rw [heq2, h1, hkeyi]
          · exact hag idx hi8 (by omega)
        have hfreshc : ∀ w ∈ tids (ch.getD i (leaf 0)),
            ¬ AgreeOn (loadKey w) key (d2 + pl + 1) 8 := by
          intro w hw hag
          rw [hc] at hw
          exact hfresh w
            (by rw [tids_n16]; exact mem_flatMap_tids.mpr ⟨i, hich, by rw [hc]; exact hw⟩)
            (hagfull w hw hag)
        have hlm : isLeafMatching c key 8 (d2 + pl) = false := by
          rcases hb2 : isLeafMatching c key 8 (d2 + pl) with _ | _
          · rfl
          rcases isLeafMatching_true hb2 with ⟨e, hce, hem⟩
          unfold leafMatches at hem
          rw [if_pos (by omega)] at hem
          have hag : AgreeOn (loadKey e) key (d2 + pl) 8 := of_decide_eq_true hem
          exfalso
          apply hfresh e (by
            rw [tids_n16]
            exact mem_flatMap_tids.mpr ⟨i, hich, by rw [hc, hce]; simp⟩)
          exact hagfull e (by rw [hce]; simp) (agreeOn_mono hag (by omega))
        have hrec := ihch i hich f (by omega) key hfreshc
        rw [hc] at hrec
        simp only [eraseF, hep, hfind, hg, hlm, Bool.false_eq_true, if_false, hrec]
        rw [← hc, set_getD_self2 _ hich]
  | n48 hd hpf hcilen hchlen hcival hinj hsl hcnt hscnt hc1 hc2 hch hbr hpref ihch =>
    rename_i d2 pl pf ci ch cnt
    intro fuel hfuel key hfresh
    rcases fuel with _ | f
    · omega
    have hcap : prefLenOf (n48 pl pf ci ch cnt) ≤ maxPrefLen := by
      simp only [prefLenOf]
      unfold maxPrefLen
      omega
    rcases @prefixMismatch_le f d2 _ key hcap with
      ⟨m, hpm, hmlt, hmne, hmag⟩ | ⟨hpm, hmag⟩
    · simp only [prefLenOf] at hmlt
      have hep := erasePref_mismatch hpm (by simp only [prefLenOf]; omega)
        (by simp only [prefLenOf]; omega)
      simp only [eraseF, hep]
    · have hep := erasePref_full hpm
      simp only [prefLenOf, pfOf] at hep hmag
      by_cases hguard : ci.getD (key (d2 + pl)) emptyMarker ≠ emptyMarker
      · have hkb : key (d2 + pl) < 256 := by
          by_contra hge
          push_neg at hge
          exact hguard (List.getD_eq_default _ _ (by omega))
        rcases hcival _ hkb with hemp | ⟨hidx24, hsome⟩
        · exact absurd hemp hguard
        rcases hgc : ch.getD (ci.getD (key (d2 + pl)) emptyMarker) none with _ | c
        · rw [hgc] at hsome
          exact Bool.noConfusion hsome
        have hagfull : ∀ w ∈ tids c, AgreeOn (loadKey w) key (d2 + pl + 1) 8 →
            AgreeOn (loadKey w) key d2 8 := by
          intro w hw hag idx hi8 hdle
          have hwmem : w ∈ ch.flatMap tidsOpt := mem_flatMap_tidsOpt.mpr
            ⟨ci.getD (key (d2 + pl)) emptyMarker, by omega, c, hgc, hw⟩
          rcases Nat.lt_trichotomy idx (d2 + pl) with hlt2 | heq2 | hgt2
          · have h1 := hpref w hwmem (idx - d2) (by omega)
            have h2 := hmag (idx - d2) (by omega)
            have hj2 : d2 + (idx - d2) = idx := by omega
            rw [hj2] at h1 h2
            rw [h1, ← h2]
          · have h1 := hbr _ hkb hguard c hgc w hw
            rw [heq2, h1]
          · exact hag idx hi8 (by omega)
        have hfreshc : ∀ w ∈ tids c, ¬ AgreeOn (loadKey w) key (d2 + pl + 1) 8 := by
          intro w hw hag
          exact hfresh w
            (by
              rw [tids_n48]
              exact mem_flatMap_tidsOpt.mpr
                ⟨ci.getD (key (d2 + pl)) emptyMarker, by omega, c, hgc, hw⟩)
            (hagfull w hw hag)
        have hlm : isLeafMatching c key 8 (d2 + pl) = false := by
          rcases hb2 : isLeafMatching c key 8 (d2 + pl) with _ | _
          · rfl
          rcases isLeafMatching_true hb2 with ⟨e, hce, hem⟩
          unfold leafMatches at hem
          rw [if_pos (by omega)] at hem
          have hag : AgreeOn (loadKey e) key (d2 + pl) 8 := of_decide_eq_true hem
          exfalso
          apply hfresh e (by
            rw [tids_n48]
            exact mem_flatMap_tidsOpt.mpr
              ⟨ci.getD (key (d2 + pl)) emptyMarker, by omega, c, hgc, by rw [hce]; simp⟩)
          exact hagfull e (by rw [hce]; simp) (agreeOn_mono hag (by omega))
        have hrec := ihch _ hkb hguard c hgc f (by omega) key hfreshc
        simp only [eraseF, hep]
        rw [if_pos hguard]
        simp only [hgc, hlm, Bool.false_eq_true, if_false, hrec]
        rw [← hgc, set_getD_self2 _ (by omega)]
      · simp only [eraseF, hep]
        rw [if_neg hguard]
  | n256 hd hpf hchlen hcnt hc1 hc2 hch hbr hpref ihch =>
    rename_i d2 pl pf ch cnt
    intro fuel hfuel key hfresh
    rcases fuel with _ | f
    · omega
    have hcap : prefLenOf (n256 pl pf ch cnt) ≤ maxPrefLen := by
      simp only [prefLenOf]
      unfold maxPrefLen
      omega
    rcases @prefixMismatch_le f d2 _ key hcap with
      ⟨m, hpm, hmlt, hmne, hmag⟩ | ⟨hpm, hmag⟩
    · simp only [prefLenOf] at hmlt
      have hep := erasePref_mismatch hpm (by simp only [prefLenOf]; omega)
        (by simp only [prefLenOf]; omega)
      simp only [eraseF, hep]
    · have hep := erasePref_full hpm
      simp only [prefLenOf, pfOf] at hep hmag
      rcases hgc : ch.getD (key (d2 + pl)) none with _ | c
      · simp only [eraseF, hep, hgc]
      · have hkb : key (d2 + pl) < 256 := by
          by_contra hge
          push_neg at hge
          rw [List.getD_eq_default _ _ (by omega)] at hgc
          exact Option.noConfusion hgc
        have hagfull : ∀ w ∈ tids c, AgreeOn (loadKey w) key (d2 + pl + 1) 8 →
            AgreeOn (loadKey w) key d2 8 := by
          intro w hw hag idx hi8 hdle
          have hwmem : w ∈ ch.flatMap tidsOpt := mem_flatMap_tidsOpt.mpr
            ⟨key (d2 + pl), by omega, c, hgc, hw⟩
          rcases Nat.lt_trichotomy idx (d2 + pl) with hlt2 | heq2 | hgt2
          · have h1 := hpref w hwmem (idx - d2) (by omega)
            have h2 := hmag (idx - d2) (by omega)
            have hj2 : d2 + (idx - d2) = idx := by omega
            rw [hj2] at h1 h2
            rw [h1, ← h2]
          · have h1 := hbr _ hkb c hgc w hw
            rw [heq2, h1]
          · exact hag idx hi8 (by omega)
        have hfreshc : ∀ w ∈ tids c, ¬ AgreeOn (loadKey w) key (d2 + pl + 1) 8 := by
          intro w hw hag
          exact hfresh w
            (by
              rw [tids_n256]
              exact mem_flatMap_tidsOpt.mpr ⟨key (d2 + pl), by omega, c, hgc, hw⟩)
            (hagfull w hw hag)
        have hlm : isLeafMatching c key 8 (d2 + pl) = false := by
          rcases hb2 : isLeafMatching c key 8 (d2 + pl) with _ | _
          · rfl
          rcases isLeafMatching_true hb2 with ⟨e, hce, hem⟩
          unfold leafMatches at hem
          rw [if_pos (by omega)] at hem
          have hag : AgreeOn (loadKey e) key (d2 + pl) 8 := of_decide_eq_true hem
          exfalso
          apply hfresh e (by
            rw [tids_n256]
            exact mem_flatMap_tidsOpt.mpr ⟨key (d2 + pl), by omega, c, hgc, by rw [hce]; simp⟩)
          exact hagfull e (by rw [hce]; simp) (agreeOn_mono hag (by omega))
        have hrec := ihch _ hkb c hgc f (by omega) key hfreshc
        simp only [eraseF, hep, hgc, hlm, Bool.false_eq_true, if_false, hrec]
        rw [← hgc, set_getD_self2 _ (by omega)]

theorem getD_eraseIdx_lt {α : Type} {l : List α} {pos i : ℕ} (dflt : α) (h : i < pos) :
    (l.eraseIdx pos).getD i dflt = l.getD i dflt := by
  rw [List.getD_eq_getElem?_getD, List.getD_eq_getElem?_getD, List.getElem?_eraseIdx,
    if_pos h]

theorem getD_eraseIdx_ge {α : Type} {l : List α} {pos i : ℕ} (dflt : α) (h : pos ≤ i) :
    (l.eraseIdx pos).getD i dflt = l.getD (i + 1) dflt := by
  rw [List.getD_eq_getElem?_getD, List.getD_eq_getElem?_getD, List.getElem?_eraseIdx,
    if_neg (by omega)]

theorem getD_append_lt {α : Type} {l1 l2 : List α} {j : ℕ} (dflt : α)
    (h : j < l1.length) : (l1 ++ l2).getD j dflt = l1.getD j dflt := by
  rw [List.getD_eq_getElem?_getD, List.getD_eq_getElem?_getD, List.getElem?_append_left h]

theorem getD_append_ge {α : Type} {l1 l2 : List α} {j : ℕ} (dflt : α)
    (h : l1.length ≤ j) : (l1 ++ l2).getD j dflt = l2.getD (j - l1.length) dflt := by
  rw [List.getD_eq_getElem?_getD, List.getD_eq_getElem?_getD, List.getElem?_append_right h]

theorem wf_leaf_inv {d e : ℕ} (h : Wf d (leaf e)) : d ≤ 8 ∧ e < 2 ^ 64 := by
  cases h with
  | leaf hd hv => exact ⟨hd, hv⟩

/-- Membership in the leaves after removing one child slot. -/
theorem mem_flatMap_tids_eraseIdx {ch : List NTree} {pos : ℕ} (hpos : pos < ch.length) :
    ∀ w, w ∈ (ch.eraseIdx pos).flatMap tids ↔
      ∃ j, j < ch.length ∧ j ≠ pos ∧ w ∈ tids (ch.getD j (leaf 0)) := by
  intro w
  rw [mem_flatMap_tids]
  have hlen : (ch.eraseIdx pos).length = ch.length - 1 := by
    rw [List.length_eraseIdx, if_pos hpos]
  constructor
  · rintro ⟨i, hi, hw⟩
    rw [hlen] at hi
    rcases Nat.lt_or_ge i pos with h2 | h2
    · rw [getD_eraseIdx_lt _ h2] at hw
      exact ⟨i, by omega, by omega, hw⟩
    · rw [getD_eraseIdx_ge _ h2] at hw
      exact ⟨i + 1, by omega, by omega, hw⟩
  · rintro ⟨j, hj, hjp, hw⟩
    rcases Nat.lt_or_ge j pos with h2 | h2
    · refine ⟨j, by omega, ?_⟩
      rw [getD_eraseIdx_lt _ h2]
      exact hw
    · refine ⟨j - 1, by omega, ?_⟩
      rw [getD_eraseIdx_ge _ (by omega)]
      have hj1 : j - 1 + 1 = j := by omega
      rw [hj1]
      exact hw

/-- Membership in the leaves after emptying one optional child slot. -/
theorem mem_flatMap_tidsOpt_clear {ch : List (Option NTree)} {i : ℕ}
    (hi : i < ch.length) :
    ∀ w, w ∈ (ch.set i none).flatMap tidsOpt ↔
      ∃ j, j < ch.length ∧ j ≠ i ∧ ∃ c, ch.getD j none = some c ∧ w ∈ tids c := by
  intro w
  rw [mem_flatMap_tidsOpt]
  constructor
  · rintro ⟨j, hj, c, hc, hw⟩
    rw [List.length_set] at hj
    by_cases hji : i = j
    · rw [← hji, getD_set_self _ _ hi] at hc
      exact Option.noConfusion hc
    · rw [getD_set_ne _ _ hji] at hc
      exact ⟨j, hj, fun hc2 => hji hc2.symm, c, hc, hw⟩
  · rintro ⟨j, hj, hji, c, hc, hw⟩
    refine ⟨j, by rw [List.length_set]; exact hj, c, ?_, hw⟩
    rw [getD_set_ne _ _ (fun hc2 => hji hc2.symm)]
    exact hc

/-- Updating one child slot with a tree holding the old child's leaves minus
one identifier that occurs in no other slot. -/
theorem mem_flatMap_tids_set_del {ch : List NTree} {i : ℕ} {c2 : NTree} {v : ℕ}
    (hi : i < ch.length)
    (hmem : ∀ x, x ∈ tids c2 ↔ x ∈ tids (ch.getD i (leaf 0)) ∧ x ≠ v)
    (hvonly : ∀ j, j < ch.length → v ∈ tids (ch.getD j (leaf 0)) → j = i) :
    ∀ w, w ∈ (ch.set i c2).flatMap tids ↔ w ∈ ch.flatMap tids ∧ w ≠ v := by
  intro w
  rw [mem_flatMap_tids, mem_flatMap_tids]
  constructor
  · rintro ⟨j, hj, hw⟩
    rw [List.length_set] at hj
    by_cases hji : i = j
    · rw [← hji, getD_set_self _ _ hi] at hw
      rcases (hmem w).mp hw with ⟨h1, h2⟩
      exact ⟨⟨i, hi, h1⟩, h2⟩
    · rw [getD_set_ne _ _ hji] at hw
      refine ⟨⟨j, hj, hw⟩, ?_⟩
      intro hv
      rw [hv] at hw
      exact hji ((hvonly j hj hw).symm)
  · rintro ⟨⟨j, hj, hw⟩, hwv⟩
    by_cases hji : i = j
    · refine ⟨i, by rw [List.length_set]; exact hi, ?_⟩
      rw [getD_set_self _ _ hi]
      exact (hmem w).mpr ⟨by rw [hji]; exact hw, hwv⟩
    · refine ⟨j, by rw [List.length_set]; exact hj, ?_⟩
      rw [getD_set_ne _ _ hji]
      exact hw

/-- The optional-slot analogue of the deletion update. -/
theorem mem_flatMap_tidsOpt_set_del {ch : List (Option NTree)} {i : ℕ} {c c2 : NTree}
    {v : ℕ} (hi : i < ch.length) (hc : ch.getD i none = some c)
    (hmem : ∀ x, x ∈ tids c2 ↔ x ∈ tids c ∧ x ≠ v)
    (hvonly : ∀ j, j < ch.length → ∀ c3, ch.getD j none = some c3 →
      v ∈ tids c3 → j = i) :
    ∀ w, w ∈ (ch.set i (some c2)).flatMap tidsOpt ↔
      w ∈ ch.flatMap tidsOpt ∧ w ≠ v := by
  intro w
  rw [mem_flatMap_tidsOpt, mem_flatMap_tidsOpt]
  constructor
  · rintro ⟨j, hj, c3, hc3, hw⟩
    rw [List.length_set] at hj
    by_cases hji : i = j
    · rw [← hji, getD_set_self _ _ hi] at hc3
      cases Option.some_inj.mp hc3
      rcases (hmem w).mp hw with ⟨h1, h2⟩
      exact ⟨⟨i, hi, c, hc, h1⟩, h2⟩
    · rw [getD_set_ne _ _ hji] at hc3
      refine ⟨⟨j, hj, c3, hc3, hw⟩, ?_⟩
      intro hv
      rw [hv] at hw
      exact hji ((hvonly j hj c3 hc3 hw).symm)
  · rintro ⟨⟨j, hj, c3, hc3, hw⟩, hwv⟩
    by_cases hji : i = j
    · rw [← hji, hc] at hc3
      cases Option.some_inj.mp hc3
      refine ⟨i, by rw [List.length_set]; exact hi, c2, getD_set_self _ _ hi, ?_⟩
      exact (hmem w).mpr ⟨hw, hwv⟩
    · exact ⟨j, by rw [List.length_set]; exact hj, c3,
        by rw [getD_set_ne _ _ hji]; exact hc3, hw⟩

/-- Concatenating a parent prefix, a branch byte and the node's own prefix
onto an inner node keeps it well formed at the shallower starting position:
the collapse step of eraseNode4 (ART.cpp lines 609-625). -/
theorem wf_extendPref {d pl : ℕ} {c : NTree} (hc : Wf (d + pl + 1) c)
    {pf : List ℕ} (hpflen : pf.length = pl) {kb : ℕ}
    (hkb : ∀ w ∈ tids c, loadKey w (d + pl) = kb)
    (hpr : ∀ w ∈ tids c, ∀ j, j < pl → loadKey w (d + j) = pf.getD j 0)
    (hinner : isLeafT c = false) :
    Wf d (withPref c (prefLenOf c + pl + 1) (pf ++ [kb] ++ pfOf c)) := by
  have hbyte : ∀ w ∈ tids c, ∀ j, j < prefLenOf c + pl + 1 →
      loadKey w (d + j) = (pf ++ [kb] ++ pfOf c).getD j 0 := by
    intro w hw j hj
    rcases Nat.lt_trichotomy j pl with h2 | h2 | h2
    · rw [getD_append_lt _ (by rw [List.length_append, List.length_singleton]; omega),
        getD_append_lt _ (by omega)]
      exact hpr w hw j h2
    · rw [getD_append_lt _ (by rw [List.length_append, List.length_singleton]; omega),
        getD_append_ge _ (by omega), h2, hpflen]
      have h3 : pl - pl = 0 := by omega
      rw [h3]
      exact hkb w hw
    · rw [getD_append_ge _ (by rw [List.length_append, List.length_singleton]; omega)]
      rw [List.length_append, List.length_singleton, hpflen]
      have h4 := wf_pref_byte hc w hw (j - (pl + 1)) (by omega)
      have h5 : d + pl + 1 + (j - (pl + 1)) = d + j := by omega
      rw [h5] at h4
      exact h4
  cases hc with
  | leaf hd hv => exact Bool.noConfusion hinner
  | n4 hd hpf hlen hcnt hcnt2 hsort hbyte2 hch hbr hpref =>
    rename_i pl2 pf2 keys ch
    simp only [prefLenOf, pfOf, withPref] at hbyte ⊢
    refine Wf.n4 (by omega) ?_ hlen hcnt hcnt2 hsort hbyte2 ?_ ?_ ?_
    · rw [List.length_append, List.length_append, List.length_singleton, hpflen, hpf]
      omega
    · have heq : d + (pl2 + pl + 1) = d + pl + 1 + pl2 := by omega
      rw [heq]
      exact hch
    · have heq : d + (pl2 + pl + 1) = d + pl + 1 + pl2 := by omega
      rw [heq]
      exact hbr
    · intro w hw j hj
      exact hbyte w (by rw [tids_n4]; exact hw) j hj
  | n16 hd hpf hlen hcnt hcnt2 hsort hbyte2 hch hbr hpref =>
    rename_i pl2 pf2 keys ch
    simp only [prefLenOf, pfOf, withPref] at hbyte ⊢
    refine Wf.n16 (by omega) ?_ hlen hcnt hcnt2 hsort hbyte2 ?_ ?_ ?_
    · rw [List.length_append, List.length_append, List.length_singleton, hpflen, hpf]
      omega
    · have heq : d + (pl2 + pl + 1) = d + pl + 1 + pl2 := by omega
      rw [heq]
      exact hch
    · have heq : d + (pl2 + pl + 1) = d + pl + 1 + pl2 := by omega
      rw [heq]
      exact hbr
    · intro w hw j hj
      exact hbyte w (by rw [tids_n16]; exact hw) j hj
  | n48 hd hpf hcilen hchlen hcival hinj hsl hcnt hscnt hc1 hc2 hch hbr hpref =>
    rename_i pl2 pf2 ci ch cnt
    simp only [prefLenOf, pfOf, withPref] at hbyte ⊢
    refine Wf.n48 (by omega) ?_ hcilen hchlen hcival hinj hsl hcnt hscnt hc1 hc2
      ?_ ?_ ?_
    · rw [List.length_append, List.length_append, List.length_singleton, hpflen, hpf]
      omega
    · have heq : d + (pl2 + pl + 1) = d + pl + 1 + pl2 := by omega
      rw [heq]
      exact hch
    · have heq : d + (pl2 + pl + 1) = d + pl + 1 + pl2 := by omega
      rw [heq]
      exact hbr
    · intro w hw j hj
      exact hbyte w (by rw [tids_n48]; exact hw) j hj
  | n256 hd hpf hchlen hcnt hc1 hc2 hch hbr hpref =>
    rename_i pl2 pf2 ch cnt
    simp only [prefLenOf, pfOf, withPref] at hbyte ⊢
    refine Wf.n256 (by omega) ?_ hchlen hcnt hc1 hc2 ?_ ?_ ?_
    · rw [List.length_append, List.length_append, List.length_singleton, hpflen, hpf]
      omega
    · have heq : d + (pl2 + pl + 1) = d + pl + 1 + pl2 := by omega
      rw [heq]
      exact hch
    · have heq : d + (pl2 + pl + 1) = d + pl + 1 + pl2 := by omega
      rw [heq]
      exact hbr
    · intro w hw j hj
      exact hbyte w (by rw [tids_n256]; exact hw) j hj

theorem isLeafT_true {c : NTree} (h : isLeafT c = true) : ∃ e, c = leaf e := by
  cases c with
  | leaf e => exact ⟨e, rfl⟩
  | n4 pl pf keys ch => exact Bool.noConfusion h
  | n16 pl pf keys ch => exact Bool.noConfusion h
  | n48 pl pf ci ch cnt => exact Bool.noConfusion h
  | n256 pl pf ch cnt => exact Bool.noConfusion h
  | nlin pl pf a b ch => exact Bool.noConfusion h

/-- The fields of an N4/N16 node after removing position pos from the key and
child arrays. -/
theorem erase_sorted_fields {d pl : ℕ} {keys : List ℕ} {ch : List NTree} {pos : ℕ}
    (hlen : keys.length = ch.length)
    (hsort : keys.Pairwise (· < ·)) (hbyte : ∀ x ∈ keys, x < 256)
    (hch : ∀ i, i < ch.length → Wf (d + pl + 1) (ch.getD i (leaf 0)))
    (hbr : ∀ i, i < ch.length → ∀ w ∈ tids (ch.getD i (leaf 0)),
      loadKey w (d + pl) = keys.getD i 0)
    (hpos : pos < keys.length) :
    (keys.eraseIdx pos).length = (ch.eraseIdx pos).length ∧
    (keys.eraseIdx pos).length = keys.length - 1 ∧
    (keys.eraseIdx pos).Pairwise (· < ·) ∧
    (∀ x ∈ keys.eraseIdx pos, x < 256) ∧
    (∀ i, i < (ch.eraseIdx pos).length →
      Wf (d + pl + 1) ((ch.eraseIdx pos).getD i (leaf 0))) ∧
    (∀ i, i < (ch.eraseIdx pos).length →
      ∀ w ∈ tids ((ch.eraseIdx pos).getD i (leaf 0)),
        loadKey w (d + pl) = (keys.eraseIdx pos).getD i 0) := by
  have hposc : pos < ch.length := by omega
  have hlk : (keys.eraseIdx pos).length = keys.length - 1 := by
    rw [List.length_eraseIdx, if_pos hpos]
  have hlc : (ch.eraseIdx pos).length = ch.length - 1 := by
    rw [List.length_eraseIdx, if_pos hposc]
  refine ⟨by omega, hlk, ?_, ?_, ?_, ?_⟩
  · exact List.Pairwise.sublist (List.eraseIdx_sublist keys pos) hsort
  · intro x hx
    exact hbyte x ((List.eraseIdx_sublist keys pos).subset hx)
  · intro i hi
    rw [hlc] at hi
    rcases Nat.lt_or_ge i pos with h2 | h2
    · rw [getD_eraseIdx_lt _ h2]
      exact hch i (by omega)
    · rw [getD_eraseIdx_ge _ h2]
      exact hch (i + 1) (by omega)
  · intro i hi w hw
    rw [hlc] at hi
    rcases Nat.lt_or_ge i pos with h2 | h2
    · rw [getD_eraseIdx_lt (leaf 0) h2] at hw
      rw [getD_eraseIdx_lt _ h2]
      exact hbr i (by omega) w hw
    · rw [getD_eraseIdx_ge (leaf 0) h2] at hw
      rw [getD_eraseIdx_ge _ h2]
      exact hbr (i + 1) (by omega) w hw

/-- eraseNode4 (ART.cpp lines 599-628) keeps the tree well formed when the
removed slot holds a leaf, and removes exactly that leaf: either a plain
removal, or the collapse of the node into its surviving child with the
prefixes concatenated. -/
theorem eraseNode4_wf {d pl : ℕ} {pf keys : List ℕ} {ch : List NTree} {pos v : ℕ}
    (hwf : Wf d (n4 pl pf keys ch)) (hpos : pos < keys.length)
    (hleaf : ch.getD pos (leaf 0) = leaf v) :
    Wf d (eraseNode4 pl pf keys ch pos) ∧
      ∀ w, w ∈ tids (eraseNode4 pl pf keys ch pos) ↔
        w ∈ tids (n4 pl pf keys ch) ∧ w ≠ v := by
  cases hwf with
  | n4 hd hpf hlen hcnt hcnt2 hsort hbyte hch hbr hpref =>
  have hposc : pos < ch.length := by omega
  have hvmem : v ∈ tids (ch.getD pos (leaf 0)) := by rw [hleaf]; simp
  have hvonly : ∀ j, j < ch.length → v ∈ tids (ch.getD j (leaf 0)) → j = pos := by
    intro j hj hv
    have h1 := hbr j hj v hv
    have h2 := hbr pos hposc v hvmem
    exact sorted_getD_inj hsort (by omega) (by omega) (by rw [← h1, ← h2])
  have hfields := erase_sorted_fields hlen hsort hbyte hch hbr hpos
  have hmemiff : ∀ w, w ∈ (ch.eraseIdx pos).flatMap tids ↔
      w ∈ ch.flatMap tids ∧ w ≠ v := by
    intro w
    rw [mem_flatMap_tids_eraseIdx hposc w]
    constructor
    · rintro ⟨j, hj, hjp, hw⟩
      refine ⟨mem_flatMap_tids.mpr ⟨j, hj, hw⟩, ?_⟩
      intro hv
      rw [hv] at hw
      exact hjp (hvonly j hj hw)
    · rintro ⟨hw, hwv⟩
      rcases mem_flatMap_tids.mp hw with ⟨j, hj, hw2⟩
      refine ⟨j, hj, ?_, hw2⟩
      intro hjp
      rw [hjp, hleaf] at hw2
      simp at hw2
      exact hwv hw2
  by_cases hone : (keys.eraseIdx pos).length = 1
  · -- collapse into the surviving child
    have hlen2 : keys.length = 2 := by
      have := hfields.2.1
      omega
    have hch2 : ch.length = 2 := by omega
    obtain ⟨js, hjs2, hjsp, hsurv, hsurvk⟩ : ∃ js, js < ch.length ∧ js ≠ pos ∧
        (ch.eraseIdx pos).getD 0 (leaf 0) = ch.getD js (leaf 0) ∧
        (keys.eraseIdx pos).getD 0 0 = keys.getD js 0 := by
      rcases Nat.eq_zero_or_pos pos with h2 | h2
      · refine ⟨1, by omega, by omega, ?_, ?_⟩
        · rw [h2, getD_eraseIdx_ge _ (by omega)]
        · rw [h2, getD_eraseIdx_ge _ (by omega)]
      · refine ⟨0, by omega, by omega, ?_, ?_⟩
        · rw [getD_eraseIdx_lt _ h2]
        · rw [getD_eraseIdx_lt _ h2]
    have hwfsurv : Wf (d + pl + 1) ((ch.eraseIdx pos).getD 0 (leaf 0)) := by
      rw [hsurv]
      exact hch js hjs2
    have hsurvmem : ∀ w, w ∈ tids ((ch.eraseIdx pos).getD 0 (leaf 0)) ↔
        w ∈ tids (n4 pl pf keys ch) ∧ w ≠ v := by
      intro w
      rw [tids_n4, ← hmemiff w, mem_flatMap_tids]
      constructor
      · intro hw
        refine ⟨0, ?_, hw⟩
        have := hfields.1
        omega
      · rintro ⟨i, hi, hw⟩
        have hi0 : i = 0 := by
          have := hfields.1
          omega
        rw [hi0] at hw
        exact hw
    simp only [eraseNode4]
    rw [if_pos hone]
    rcases hlt : isLeafT ((ch.eraseIdx pos).getD 0 (leaf 0)) with _ | _
    · -- inner survivor: concatenate the prefixes
      rw [if_neg (by simp [hlt])]
      have hpl9 : pl < maxPrefLen := by
        unfold maxPrefLen
        omega
      have hpl19 : pl + 1 < maxPrefLen := by
        unfold maxPrefLen
        omega
      have hplpfs := wf_plpf hwfsurv
      have hplcle : d + pl + 1 + prefLenOf ((ch.eraseIdx pos).getD 0 (leaf 0)) ≤ 8 := by
        rcases Nat.eq_zero_or_pos (prefLenOf ((ch.eraseIdx pos).getD 0 (leaf 0)))
          with h2 | h2
        · omega
        · have := hplpfs.2 (by omega)
          omega
      simp only [if_pos hpl9, if_pos hpl19]
      have hminl2 : min (prefLenOf ((ch.eraseIdx pos).getD 0 (leaf 0)))
          (maxPrefLen - (pl + 1)) =
          prefLenOf ((ch.eraseIdx pos).getD 0 (leaf 0)) := by
        unfold maxPrefLen
        omega
      rw [hminl2]
      have htk1 : pf.take pl = pf := List.take_of_length_le (le_of_eq hpf)
      rw [htk1]
      have htk2 : (pfOf ((ch.eraseIdx pos).getD 0 (leaf 0))).take
          (prefLenOf ((ch.eraseIdx pos).getD 0 (leaf 0))) =
          pfOf ((ch.eraseIdx pos).getD 0 (leaf 0)) :=
        List.take_of_length_le (le_of_eq hplpfs.1)
      rw [htk2]
      have hmincp : min (pl + 1 + prefLenOf ((ch.eraseIdx pos).getD 0 (leaf 0)))
          maxPrefLen = pl + 1 + prefLenOf ((ch.eraseIdx pos).getD 0 (leaf 0)) := by
        unfold maxPrefLen
        omega
      rw [hmincp]
      have hlb2 : ((pf ++ [(keys.eraseIdx pos).getD 0 0]) ++
          pfOf ((ch.eraseIdx pos).getD 0 (leaf 0))).length =
          pl + 1 + prefLenOf ((ch.eraseIdx pos).getD 0 (leaf 0)) := by
        rw [List.length_append, List.length_append, List.length_singleton, hpf,
          hplpfs.1]
      rw [List.take_of_length_le (le_of_eq hlb2),
        List.drop_eq_nil_of_le (by rw [hplpfs.1]; omega), List.append_nil]
      constructor
      · refine wf_extendPref hwfsurv hpf ?_ ?_ hlt
        · intro w hw
          rw [hsurv] at hw
          rw [hsurvk]
          exact hbr js hjs2 w hw
        · intro w hw j hj
          rw [hsurv] at hw
          exact hpref w (mem_flatMap_tids.mpr ⟨js, hjs2, hw⟩) j hj
      · intro w
        rw [tids_withPref]
        exact hsurvmem w
    · -- leaf survivor: the node is replaced by the leaf
      rw [if_pos rfl]
      rcases isLeafT_true hlt with ⟨e, he⟩
      constructor
      · rw [he]
        rw [he] at hwfsurv
        have := wf_leaf_inv hwfsurv
        exact Wf.leaf (by omega) this.2
      · exact hsurvmem
  · -- plain removal
    simp only [eraseNode4]
    rw [if_neg hone]
    constructor
    · refine Wf.n4 hd hpf hfields.1 ?_ ?_ hfields.2.2.1 hfields.2.2.2.1
        hfields.2.2.2.2.1 hfields.2.2.2.2.2 ?_
      · have := hfields.2.1
        omega
      · have := hfields.2.1
        omega
      · intro w hw j hj
        exact hpref w ((hmemiff w).mp hw).1 j hj
    · intro w
      rw [tids_n4, tids_n4]
      exact hmemiff w

/-- eraseNode16 (ART.cpp lines 630-648) keeps the tree well formed when the
removed slot holds a leaf, demoting to a Node4 at 3 children. -/
theorem eraseNode16_wf {d pl : ℕ} {pf keys : List ℕ} {ch : List NTree} {pos v : ℕ}
    (hwf : Wf d (n16 pl pf keys ch)) (hpos : pos < keys.length)
    (hleaf : ch.getD pos (leaf 0) = leaf v) :
    Wf d (eraseNode16 pl pf keys ch pos) ∧
      ∀ w, w ∈ tids (eraseNode16 pl pf keys ch pos) ↔
        w ∈ tids (n16 pl pf keys ch) ∧ w ≠ v := by
  cases hwf with
  | n16 hd hpf hlen hcnt hcnt2 hsort hbyte hch hbr hpref =>
  have hposc : pos < ch.length := by omega
  have hvmem : v ∈ tids (ch.getD pos (leaf 0)) := by rw [hleaf]; simp
  have hvonly : ∀ j, j < ch.length → v ∈ tids (ch.getD j (leaf 0)) → j = pos := by
    intro j hj hv
    have h1 := hbr j hj v hv
    have h2 := hbr pos hposc v hvmem
    exact sorted_getD_inj hsort (by omega) (by omega) (by rw [← h1, ← h2])
  have hfields := erase_sorted_fields hlen hsort hbyte hch hbr hpos
  have hmemiff : ∀ w, w ∈ (ch.eraseIdx pos).flatMap tids ↔
      w ∈ ch.flatMap tids ∧ w ≠ v := by
    intro w
    rw [mem_flatMap_tids_eraseIdx hposc w]
    constructor
    · rintro ⟨j, hj, hjp, hw⟩
      refine ⟨mem_flatMap_tids.mpr ⟨j, hj, hw⟩, ?_⟩
      intro hv
      rw [hv] at hw
      exact hjp (hvonly j hj hw)
    · rintro ⟨hw, hwv⟩
      rcases mem_flatMap_tids.mp hw with ⟨j, hj, hw2⟩
      refine ⟨j, hj, ?_, hw2⟩
      intro hjp
      rw [hjp, hleaf] at hw2
      simp at hw2
      exact hwv hw2
  have hpref2 : ∀ w ∈ (ch.eraseIdx pos).flatMap tids, ∀ j, j < pl →
      loadKey w (d + j) = pf.getD j 0 :=
    fun w hw j hj => hpref w ((hmemiff w).mp hw).1 j hj
  simp only [eraseNode16]
  by_cases hdem : (keys.eraseIdx pos).length = NODE4_SIZE - 1
  · rw [if_pos hdem]
    have hd3 : (keys.eraseIdx pos).length = 3 := hdem
    have hmin : min pl maxPrefLen = pl := by
      unfold maxPrefLen
      omega
    rw [hmin, List.take_of_length_le (le_of_eq hpf)]
    refine ⟨Wf.n4 hd hpf hfields.1 (by omega) (by omega) hfields.2.2.1
      hfields.2.2.2.1 hfields.2.2.2.2.1 hfields.2.2.2.2.2 hpref2, ?_⟩
    intro w
    rw [tids_n4, tids_n16]
    exact hmemiff w
  · rw [if_neg hdem]
    have hd3 : (keys.eraseIdx pos).length ≠ 3 := hdem
    refine ⟨Wf.n16 hd hpf hfields.1 ?_ ?_ hfields.2.2.1
      hfields.2.2.2.1 hfields.2.2.2.2.1 hfields.2.2.2.2.2 hpref2, ?_⟩
    · have := hfields.2.1
      omega
    · have := hfields.2.1
      omega
    · intro w
      rw [tids_n16, tids_n16]
      exact hmemiff w

theorem getD_mem_generic {α : Type} {l : List α} {i : ℕ} (dflt : α)
    (h : i < l.length) : l.getD i dflt ∈ l := by
  rw [List.getD_eq_getElem _ _ h]
  exact List.getElem_mem h

theorem getD_map_fst {α : Type} {l : List (ℕ × α)} {i : ℕ} (dp : ℕ × α)
    (h : i < l.length) : (l.map Prod.fst).getD i 0 = (l.getD i dp).1 := by
  rw [List.getD_eq_getElem?_getD, List.getElem?_map, List.getElem?_eq_getElem h,
    List.getD_eq_getElem _ _ h]
  rfl

theorem getD_map_snd {α : Type} {l : List (ℕ × α)} {i : ℕ} (dp : ℕ × α) (da : α)
    (h : i < l.length) : (l.map Prod.snd).getD i da = (l.getD i dp).2 := by
  rw [List.getD_eq_getElem?_getD, List.getElem?_map, List.getElem?_eq_getElem h,
    List.getD_eq_getElem _ _ h]
  rfl

/-- The byte components of the pair list built by the N48/N256 demotions: a
filterMap whose survivors carry their source byte equals the filter. -/
theorem map_fst_filterMap {α : Type} {f : ℕ → Option (ℕ × α)}
    (hf : ∀ b p, f b = some p → p.1 = b) :
    ∀ l : List ℕ, (l.filterMap f).map Prod.fst = l.filter (fun b => (f b).isSome) := by
  intro l
  induction l with
  | nil => rfl
  | cons a as ih =>
    rw [List.filterMap_cons, List.filter_cons]
    rcases hfa : f a with _ | p
    · simp only [hfa, Option.isSome_none, Bool.false_eq_true, if_false]
      exact ih
    · simp only [hfa, Option.isSome_some, if_true, List.map_cons]
      rw [ih, hf a p hfa]

theorem length_filterMap_pairs {α : Type} {f : ℕ → Option (ℕ × α)}
    (hf : ∀ b p, f b = some p → p.1 = b) (l : List ℕ) :
    (l.filterMap f).length = (l.filter (fun b => (f b).isSome)).length := by
  rw [← List.length_map (l.filterMap f) Prod.fst, map_fst_filterMap hf l]

theorem pairwise_filter_range {n : ℕ} {p : ℕ → Bool} :
    ((List.range n).filter p).Pairwise (· < ·) :=
  List.Pairwise.sublist (List.filter_sublist _) (List.pairwise_lt_range n)

theorem getD_map_some_pair_append {α : Type} {k i : ℕ} {l : List (ℕ × α)} (da : α) :
    (l.map (fun p => some (Prod.snd p)) ++ List.replicate k none).getD i none =
      if i < l.length then some ((l.getD i (0, da)).2) else none := by
  rcases Nat.lt_or_ge i l.length with h | h
  · rw [if_pos h, List.getD_eq_getElem?_getD,
      List.getElem?_append_left (by rw [List.length_map]; exact h),
      List.getElem?_map, List.getElem?_eq_getElem h, List.getD_eq_getElem _ _ h]
    rfl
  · rw [if_neg (by omega), List.getD_eq_getElem?_getD,
      List.getElem?_append_right (by rw [List.length_map]; exact h),
      List.getElem?_replicate]
    split <;> rfl

/-- eraseNode48 (ART.cpp lines 650-670) keeps the tree well formed when the
slot of the byte holds a leaf, demoting to a Node16 at 12 children by a byte
scan in ascending order. -/
theorem eraseNode48_wf {d pl : ℕ} {pf ci : List ℕ} {ch : List (Option NTree)}
    {cnt b v : ℕ}
    (hwf : Wf d (n48 pl pf ci ch cnt)) (hb : b < 256)
    (hcib : ci.getD b emptyMarker ≠ emptyMarker)
    (hleaf : ch.getD (ci.getD b emptyMarker) none = some (leaf v)) :
    Wf d (eraseNode48 pl pf ci ch cnt b) ∧
      ∀ w, w ∈ tids (eraseNode48 pl pf ci ch cnt b) ↔
        w ∈ tids (n48 pl pf ci ch cnt) ∧ w ≠ v := by
  cases hwf with
  | n48 hd hpf hcilen hchlen hcival hinj hsl hcnt hscnt hc1 hc2 hch hbr hpref =>
  rcases hcival b hb with h | ⟨hidx24, hocc⟩
  · exact absurd h hcib
  have hbrv : loadKey v (d + pl) = b := hbr b hb hcib (leaf v) hleaf v (by simp)
  have hvonly : ∀ b2, b2 < 256 → ci.getD b2 emptyMarker ≠ emptyMarker →
      ∀ c, ch.getD (ci.getD b2 emptyMarker) none = some c → v ∈ tids c → b2 = b := by
    intro b2 hb2 hne2 c hc hv
    have h1 := hbr b2 hb2 hne2 c hc v hv
    rw [← hbrv, h1]
  have hothernei : ∀ b2, b2 < 256 → b2 ≠ b → ci.getD b2 emptyMarker ≠ emptyMarker →
      ci.getD b2 emptyMarker ≠ ci.getD b emptyMarker := by
    intro b2 hb2 hne2 hne3 heq
    exact hne2 (hinj b2 b hb2 hb hne3 heq)
  have hcerase : ((List.range 256).filter
      (fun b2 => decide ((ci.set b emptyMarker).getD b2 emptyMarker ≠ emptyMarker))).length
      = cnt - 1 := by
    have hsame : ∀ y, y < 256 → y ≠ b →
        decide ((ci.set b emptyMarker).getD y emptyMarker ≠ emptyMarker) =
        decide (ci.getD y emptyMarker ≠ emptyMarker) := by
      intro y _ hy
      rw [getD_set_ne _ _ (fun hc3 => hy hc3.symm)]
    have hpx : decide ((ci.set b emptyMarker).getD b emptyMarker ≠ emptyMarker)
        = false := by
      rw [getD_set_self _ _ (by omega)]
      exact decide_eq_false (fun hc3 => hc3 rfl)
    have h := filter_range_length_update (n := 256) (x := b) hb hsame hpx
      (decide_eq_true hcib)
    rw [hcnt]
    omega
  have hserase : ((List.range 24).filter
      (fun j => ((ch.set (ci.getD b emptyMarker) none).getD j none).isSome)).length
      = cnt - 1 := by
    have hsame : ∀ y, y < 24 → y ≠ ci.getD b emptyMarker →
        ((ch.set (ci.getD b emptyMarker) none).getD y none).isSome =
        (ch.getD y none).isSome := by
      intro y _ hy
      rw [getD_set_ne _ _ (fun hc3 => hy hc3.symm)]
    have hpx : ((ch.set (ci.getD b emptyMarker) none).getD
        (ci.getD b emptyMarker) none).isSome = false := by
      rw [getD_set_self _ _ (by omega)]
      rfl
    have hqx : (ch.getD (ci.getD b emptyMarker) none).isSome = true := by
      rw [hleaf]
      rfl
    have h := filter_range_length_update (n := 24) hidx24 hsame hpx hqx
    rw [hscnt]
    omega
  have hmem48 : ∀ w, w ∈ (ch.set (ci.getD b emptyMarker) none).flatMap tidsOpt ↔
      w ∈ ch.flatMap tidsOpt ∧ w ≠ v := by
    intro w
    rw [mem_flatMap_tidsOpt_clear (by omega) w]
    constructor
    · rintro ⟨j, hj, hji, c, hc, hw⟩
      refine ⟨mem_flatMap_tidsOpt.mpr ⟨j, hj, c, hc, hw⟩, ?_⟩
      intro hv
      rw [hv] at hw
      have hocc2 : (ch.getD j none).isSome := by rw [hc]; rfl
      rcases hsl j (by omega) hocc2 with ⟨b2, hb2, hcib2⟩
      have hne2 : ci.getD b2 emptyMarker ≠ emptyMarker := by
        rw [hcib2]
        unfold emptyMarker NODE48_SIZE
        omega
      have := hvonly b2 hb2 hne2 c (by rw [hcib2]; exact hc) hw
      rw [this] at hcib2
      exact hji hcib2.symm
    · rintro ⟨hw, hwv⟩
      rcases mem_flatMap_tidsOpt.mp hw with ⟨j, hj, c, hc, hw2⟩
      refine ⟨j, hj, ?_, c, hc, hw2⟩
      intro hji
      rw [hji, hleaf] at hc
      cases Option.some_inj.mp hc
      simp at hw2
      exact hwv hw2
  simp only [eraseNode48]
  by_cases hdem : cnt - 1 = 12
  · -- demotion to Node16
    rw [if_pos hdem]
    have hmin : min pl maxPrefLen = pl := by
      unfold maxPrefLen
      omega
    rw [hmin, List.take_of_length_le (le_of_eq hpf)]
    have hf : ∀ b2 (p : ℕ × NTree),
        (if (ci.set b emptyMarker).getD b2 emptyMarker ≠ emptyMarker then
          ((ch.set (ci.getD b emptyMarker) none).getD
            ((ci.set b emptyMarker).getD b2 emptyMarker) none).map (fun c => (b2, c))
        else none) = some p → p.1 = b2 := by
      intro b2 p hp
      by_cases hne2 : (ci.set b emptyMarker).getD b2 emptyMarker ≠ emptyMarker
      · rw [if_pos hne2] at hp
        rcases Option.map_eq_some'.mp hp with ⟨c, _, hpc⟩
        rw [← hpc]
      · rw [if_neg hne2] at hp
        exact Option.noConfusion hp
    have hpairval : ∀ b2, b2 < 256 → b2 ≠ b → ci.getD b2 emptyMarker ≠ emptyMarker →
        ∀ c, ch.getD (ci.getD b2 emptyMarker) none = some c →
        (if (ci.set b emptyMarker).getD b2 emptyMarker ≠ emptyMarker then
          ((ch.set (ci.getD b emptyMarker) none).getD
            ((ci.set b emptyMarker).getD b2 emptyMarker) none).map (fun c => (b2, c))
        else none) = some (b2, c) := by
      intro b2 hb2 hne2 hne3 c hc
      rw [getD_set_ne _ _ (fun hc3 => hne2 hc3.symm), if_pos hne3,
        getD_set_ne _ _ (Ne.symm (hothernei b2 hb2 hne2 hne3)), hc]
      rfl
    have hpairmem : ∀ p : ℕ × NTree,
        p ∈ (List.range 256).filterMap (fun b2 =>
          if (ci.set b emptyMarker).getD b2 emptyMarker ≠ emptyMarker then
            ((ch.set (ci.getD b emptyMarker) none).getD
              ((ci.set b emptyMarker).getD b2 emptyMarker) none).map (fun c => (b2, c))
          else none) →
        p.1 < 256 ∧ p.1 ≠ b ∧ ci.getD p.1 emptyMarker ≠ emptyMarker ∧
          ch.getD (ci.getD p.1 emptyMarker) none = some p.2 := by
      intro p hp
      rcases List.mem_filterMap.mp hp with ⟨b2, hb2r, hfb2⟩
      have hb2 : b2 < 256 := List.mem_range.mp hb2r
      have hp1 : p.1 = b2 := hf b2 p hfb2
      by_cases hne2 : (ci.set b emptyMarker).getD b2 emptyMarker ≠ emptyMarker
      · rw [if_pos hne2] at hfb2
        have hb2ne : b2 ≠ b := by
          intro he
          rw [he, getD_set_self _ _ (by omega)] at hne2
          exact hne2 rfl
        rw [getD_set_ne _ _ (fun hc3 => hb2ne hc3.symm)] at hne2 hfb2
        rcases Option.map_eq_some'.mp hfb2 with ⟨c, hcc, hpc⟩
        rw [getD_set_ne _ _ (Ne.symm (hothernei b2 hb2 hb2ne hne2))] at hcc
        rw [hp1]
        refine ⟨hb2, hb2ne, hne2, ?_⟩
        rw [hcc, ← hpc]
      · rw [if_neg hne2] at hfb2
        exact Option.noConfusion hfb2
    have hkeysfil := map_fst_filterMap hf (List.range 256)
    have hlenpairs : ((List.range 256).filterMap (fun b2 =>
        if (ci.set b emptyMarker).getD b2 emptyMarker ≠ emptyMarker then
          ((ch.set (ci.getD b emptyMarker) none).getD
            ((ci.set b emptyMarker).getD b2 emptyMarker) none).map (fun c => (b2, c))
        else none)).length = 12 := by
      rw [length_filterMap_pairs hf]
      rw [filter_range_length_congr (p := fun b2 =>
        decide ((ci.set b emptyMarker).getD b2 emptyMarker ≠ emptyMarker)) ?_, hcerase,
        hdem]
      intro y hy
      show decide ((ci.set b emptyMarker).getD y emptyMarker ≠ emptyMarker) = _
      by_cases hne2 : (ci.set b emptyMarker).getD y emptyMarker ≠ emptyMarker
      · rw [decide_eq_true hne2, if_pos hne2]
        have hyne : y ≠ b := by
          intro he
          rw [he, getD_set_self _ _ (by omega)] at hne2
          exact hne2 rfl
        rw [getD_set_ne _ _ (fun hc3 => hyne hc3.symm)] at hne2 ⊢
        rcases hcival y hy with h3 | ⟨h3, h4⟩
        · exact absurd h3 hne2
        · rw [getD_set_ne _ _ (Ne.symm (hothernei y hy hyne hne2))]
          rcases hq : ch.getD (ci.getD y emptyMarker) none with _ | c
          · rw [hq] at h4
            exact Bool.noConfusion h4
          · rfl
      · rw [decide_eq_false hne2, if_neg hne2]
        rfl
    have hvinslot : ∀ w, (∃ p : ℕ × NTree, p ∈ (List.range 256).filterMap (fun b2 =>
        if (ci.set b emptyMarker).getD b2 emptyMarker ≠ emptyMarker then
          ((ch.set (ci.getD b emptyMarker) none).getD
            ((ci.set b emptyMarker).getD b2 emptyMarker) none).map (fun c => (b2, c))
        else none) ∧ w ∈ tids p.2) ↔
        w ∈ ch.flatMap tidsOpt ∧ w ≠ v := by
      intro w
      constructor
      · rintro ⟨p, hp, hw⟩
        rcases hpairmem p hp with ⟨h1, h2, h3, h4⟩
        refine ⟨mem_flatMap_tidsOpt.mpr ⟨ci.getD p.1 emptyMarker, ?_, p.2, h4, hw⟩, ?_⟩
        · rcases hcival p.1 h1 with h5 | ⟨h5, _⟩
          · exact absurd h5 h3
          · omega
        · intro hv
          rw [hv] at hw
          exact h2 (hvonly p.1 h1 h3 p.2 h4 hw)
      · rintro ⟨hw, hwv⟩
        rcases mem_flatMap_tidsOpt.mp hw with ⟨j, hj, c, hc, hw2⟩
        have hocc2 : (ch.getD j none).isSome := by rw [hc]; rfl
        rcases hsl j (by omega) hocc2 with ⟨b2, hb2, hcib2⟩
        have hne2 : ci.getD b2 emptyMarker ≠ emptyMarker := by
          rw [hcib2]
          unfold emptyMarker NODE48_SIZE
          omega
        have hb2ne : b2 ≠ b := by
          intro he
          rw [he] at hcib2
          rw [← hcib2, hleaf] at hc
          cases Option.some_inj.mp hc
          simp at hw2
          exact hwv hw2
        refine ⟨(b2, c), List.mem_filterMap.mpr ⟨b2, List.mem_range.mpr hb2, ?_⟩, hw2⟩
        exact hpairval b2 hb2 hb2ne hne2 c (by rw [hcib2]; exact hc)
    constructor
    · refine Wf.n16 hd hpf (by rw [List.length_map, List.length_map]) ?_ ?_ ?_ ?_ ?_ ?_ ?_
      · rw [List.length_map, hlenpairs]
        norm_num
      · rw [List.length_map, hlenpairs]
        norm_num
      · rw [hkeysfil]
        exact pairwise_filter_range
      · intro x hx
        rw [hkeysfil] at hx
        have := (List.filter_sublist (List.range 256)).subset hx
        exact List.mem_range.mp this
      · intro i hi
        rw [List.length_map] at hi
        rw [getD_map_snd (0, leaf 0) _ hi]
        have hp := hpairmem _ (getD_mem_generic (0, leaf 0) hi)
        exact hch _ hp.1 hp.2.2.1 _ hp.2.2.2
      · intro i hi w hw
        rw [List.length_map] at hi
        rw [getD_map_snd (0, leaf 0) _ hi] at hw
        rw [getD_map_fst (0, leaf 0) hi]
        have hp := hpairmem _ (getD_mem_generic (0, leaf 0) hi)
        exact hbr _ hp.1 hp.2.2.1 _ hp.2.2.2 w hw
      · intro w hw j hj
        rcases List.mem_flatMap.mp hw with ⟨c, hcm, hw2⟩
        rcases List.mem_map.mp hcm with ⟨p, hpm, hpc⟩
        have hin : w ∈ ch.flatMap tidsOpt ∧ w ≠ v :=
          (hvinslot w).mp ⟨p, hpm, by rw [hpc]; exact hw2⟩
        exact hpref w hin.1 j hj
    · intro w
      rw [tids_n16, tids_n48]
      rw [← hvinslot w]
      constructor
      · intro hw
        rcases List.mem_flatMap.mp hw with ⟨c, hcm, hw2⟩
        rcases List.mem_map.mp hcm with ⟨p, hpm, hpc⟩
        exact ⟨p, hpm, by rw [hpc]; exact hw2⟩
      · rintro ⟨p, hpm, hw2⟩
        exact List.mem_flatMap.mpr ⟨p.2, List.mem_map.mpr ⟨p, hpm, rfl⟩, hw2⟩
  · -- keep the Node48
    rw [if_neg hdem]
    constructor
    · refine Wf.n48 hd hpf (by rw [List.length_set]; exact hcilen)
        (by rw [List.length_set]; exact hchlen) ?_ ?_ ?_ hcerase.symm hserase.symm
        (by omega) (by omega) ?_ ?_ ?_
      · intro b2 hb2
        by_cases hbb : b2 = b
        · left
          rw [hbb, getD_set_self _ _ (by omega)]
        · rw [getD_set_ne _ _ (fun hc3 => hbb hc3.symm)]
          rcases hcival b2 hb2 with h3 | ⟨h3, h4⟩
          · left; exact h3
          · right
            refine ⟨h3, ?_⟩
            have hne3 : ci.getD b2 emptyMarker ≠ emptyMarker := by
              unfold emptyMarker NODE48_SIZE at *
              omega
            rw [getD_set_ne _ _ (Ne.symm (hothernei b2 hb2 hbb hne3))]
            exact h4
      · intro b1 b2 hb1 hb2 hne1 heq
        by_cases h1b : b1 = b
        · rw [h1b, getD_set_self _ _ (by omega)] at hne1
          exact absurd rfl hne1
        · rw [getD_set_ne _ _ (fun hc3 => h1b hc3.symm)] at hne1 heq
          by_cases h2b : b2 = b
          · rw [h2b, getD_set_self _ _ (by omega)] at heq
            exact absurd heq hne1
          · rw [getD_set_ne _ _ (fun hc3 => h2b hc3.symm)] at heq
            exact hinj b1 b2 hb1 hb2 hne1 heq
      · intro j hj hocc2
        by_cases hji : ci.getD b emptyMarker = j
        · rw [← hji, getD_set_self _ _ (by omega)] at hocc2
          exact Bool.noConfusion hocc2
        · rw [getD_set_ne _ _ hji] at hocc2
          rcases hsl j hj hocc2 with ⟨b2, hb2, hcib2⟩
          have hb2ne : b2 ≠ b := by
            intro he
            rw [he] at hcib2
            exact hji hcib2
          refine ⟨b2, hb2, ?_⟩
          rw [getD_set_ne _ _ (fun hc3 => hb2ne hc3.symm)]
          exact hcib2
      · intro b2 hb2 hne2 c hc
        by_cases hbb : b2 = b
        · rw [hbb, getD_set_self _ _ (by omega)] at hne2
          exact absurd rfl hne2
        · rw [getD_set_ne _ _ (fun hc3 => hbb hc3.symm)] at hne2 hc
          rw [getD_set_ne _ _ (Ne.symm (hothernei b2 hb2 hbb hne2))] at hc
          exact hch b2 hb2 hne2 c hc
      · intro b2 hb2 hne2 c hc w hw
        by_cases hbb : b2 = b
        · rw [hbb, getD_set_self _ _ (by omega)] at hne2
          exact absurd rfl hne2
        · rw [getD_set_ne _ _ (fun hc3 => hbb hc3.symm)] at hne2 hc
          rw [getD_set_ne _ _ (Ne.symm (hothernei b2 hb2 hbb hne2))] at hc
          exact hbr b2 hb2 hne2 c hc w hw
      · intro w hw j hj
        exact hpref w ((hmem48 w).mp hw).1 j hj
    · intro w
      rw [tids_n48, tids_n48]
      exact hmem48 w

theorem foldl_enum_set_fst {α : Type} :
    ∀ (occ : List (ℕ × α)) (n : ℕ) (acc : List ℕ),
      (List.enumFrom n occ).foldl (fun a p => a.set p.2.1 p.1) acc =
      (List.enumFrom n (occ.map Prod.fst)).foldl (fun a p => a.set p.2 p.1) acc := by
  intro occ
  induction occ with
  | nil => intro n acc; rfl
  | cons q qs ih =>
    intro n acc
    rw [List.map_cons, List.enumFrom_cons, List.enumFrom_cons]
    simp only [List.foldl_cons]
    exact ih (n + 1) _

theorem flatMap_tidsOpt_map_snd_append {k : ℕ} {l : List (ℕ × NTree)} :
    (l.map (fun p => some (Prod.snd p)) ++ List.replicate k none).flatMap tidsOpt =
      (l.map Prod.snd).flatMap tids := by
  rw [List.flatMap_append, List.flatMap_map, List.flatMap_map]
  have h2 : (List.replicate k (none : Option NTree)).flatMap tidsOpt = ([] : List ℕ) := by
    induction k with
    | zero => rfl
    | succ m ihm => rw [List.replicate_succ, List.flatMap_cons, ihm]; rfl
  rw [h2, List.append_nil]
  rfl

/-- eraseNode256 (ART.cpp lines 672-709) keeps the tree well formed when the
slot of the byte holds a leaf: the count drops by one, and at
NODE48_SIZE*3/4 = 18 remaining children the node is demoted to a Node48 built
by a byte scan in ascending order. -/
theorem eraseNode256_wf {d pl : ℕ} {pf : List ℕ} {ch : List (Option NTree)}
    {cnt b v : ℕ}
    (hwf : Wf d (n256 pl pf ch cnt)) (hb : b < 256)
    (hleaf : ch.getD b none = some (leaf v)) :
    Wf d (eraseNode256 pl pf ch cnt b) ∧
      ∀ w, w ∈ tids (eraseNode256 pl pf ch cnt b) ↔
        w ∈ tids (n256 pl pf ch cnt) ∧ w ≠ v := by
  cases hwf with
  | n256 hd hpf hchlen hcnt hc1 hc2 hch hbr hpref =>
  have hbrv : loadKey v (d + pl) = b := hbr b hb (leaf v) hleaf v (by simp)
  have hvonly : ∀ b2, b2 < 256 → ∀ c, ch.getD b2 none = some c → v ∈ tids c →
      b2 = b := by
    intro b2 hb2 c hc hv
    have h1 := hbr b2 hb2 c hc v hv
    rw [← hbrv, h1]
  have hcerase : ((List.range 256).filter
      (fun b2 => ((ch.set b none).getD b2 none).isSome)).length = cnt - 1 := by
    have hsame : ∀ y, y < 256 → y ≠ b →
        ((ch.set b none).getD y none).isSome = (ch.getD y none).isSome := by
      intro y _ hy
      rw [getD_set_ne _ _ (fun hc3 => hy hc3.symm)]
    have hpx : ((ch.set b none).getD b none).isSome = false := by
      rw [getD_set_self _ _ (by omega)]
      rfl
    have hqx : (ch.getD b none).isSome = true := by
      rw [hleaf]
      rfl
    have h := filter_range_length_update (n := 256) hb hsame hpx hqx
    rw [hcnt]
    omega
  have hmem256 : ∀ w, w ∈ (ch.set b none).flatMap tidsOpt ↔
      w ∈ ch.flatMap tidsOpt ∧ w ≠ v := by
    intro w
    rw [mem_flatMap_tidsOpt_clear (by omega) w]
    constructor
    · rintro ⟨j, hj, hji, c, hc, hw⟩
      refine ⟨mem_flatMap_tidsOpt.mpr ⟨j, hj, c, hc, hw⟩, ?_⟩
      intro hv
      rw [hv] at hw
      exact hji ((hvonly j (by omega) c hc hw).symm ▸ rfl)
    · rintro ⟨hw, hwv⟩
      rcases mem_flatMap_tidsOpt.mp hw with ⟨j, hj, c, hc, hw2⟩
      refine ⟨j, hj, ?_, c, hc, hw2⟩
      intro hji
      rw [hji, hleaf] at hc
      cases Option.some_inj.mp hc
      simp at hw2
      exact hwv hw2
  have hkey : ∀ occ : List (ℕ × NTree),
      occ.map Prod.fst =
        (List.range 256).filter (fun b2 => ((ch.set b none).getD b2 none).isSome) →
      (∀ p : ℕ × NTree, p ∈ occ → p.1 < 256 ∧ p.1 ≠ b ∧
        ch.getD p.1 none = some p.2) →
      (∀ b2, b2 < 256 → b2 ≠ b → ∀ c, ch.getD b2 none = some c → (b2, c) ∈ occ) →
      occ.length = 18 →
      Wf d (n48 pl pf
        (occ.enum.foldl (fun acc p => acc.set p.2.1 p.1)
          ((List.range 256).map (fun _ => emptyMarker)))
        (occ.map (fun p => some (Prod.snd p)) ++
          List.replicate (NODE48_SIZE - occ.length) none)
        occ.length) ∧
      ∀ w, w ∈ tids (n48 pl pf
        (occ.enum.foldl (fun acc p => acc.set p.2.1 p.1)
          ((List.range 256).map (fun _ => emptyMarker)))
        (occ.map (fun p => some (Prod.snd p)) ++
          List.replicate (NODE48_SIZE - occ.length) none)
        occ.length) ↔ w ∈ ch.flatMap tidsOpt ∧ w ≠ v := by
    intro occ h1 h2 h3 h4
    have hbl : (occ.map Prod.fst).length = occ.length := List.length_map _ _
    have hsortbl : (occ.map Prod.fst).Pairwise (· < ·) := by
      rw [h1]
      exact pairwise_filter_range
    have hndbl : (occ.map Prod.fst).Nodup := hsortbl.nodup
    have hbytebl : ∀ x ∈ occ.map Prod.fst, x < 256 := by
      intro x hx
      rw [h1] at hx
      exact List.mem_range.mp ((List.filter_sublist (List.range 256)).subset hx)
    have hci0len : ((List.range 256).map (fun _ => emptyMarker)).length = 256 := by
      rw [List.length_map, List.length_range]
    have hkeyslt : ∀ k ∈ occ.map Prod.fst,
        k < ((List.range 256).map (fun _ => emptyMarker)).length := by
      intro k hk
      rw [hci0len]
      exact hbytebl k hk
    have hfold : occ.enum.foldl (fun acc p => acc.set p.2.1 p.1)
        ((List.range 256).map (fun _ => emptyMarker)) =
        (List.enumFrom 0 (occ.map Prod.fst)).foldl (fun a p => a.set p.2 p.1)
          ((List.range 256).map (fun _ => emptyMarker)) := by
      rw [List.enum_eq_enumFrom]
      exact foldl_enum_set_fst occ 0 _
    have hcimem : ∀ i, i < occ.length →
        (occ.enum.foldl (fun acc p => acc.set p.2.1 p.1)
          ((List.range 256).map (fun _ => emptyMarker))).getD
            ((occ.map Prod.fst).getD i 0) emptyMarker = i := by
      intro i hi
      rw [hfold, fold_set_enumFrom_getD_mem (occ.map Prod.fst) 0 _ i hndbl hkeyslt
        (by omega)]
      omega
    have hcinot : ∀ y, y ∉ occ.map Prod.fst →
        (occ.enum.foldl (fun acc p => acc.set p.2.1 p.1)
          ((List.range 256).map (fun _ => emptyMarker))).getD y emptyMarker =
          emptyMarker := by
      intro y hy
      rw [hfold, fold_set_enumFrom_getD_not_mem (occ.map Prod.fst) 0 _ y hkeyslt hy]
      rcases Nat.lt_or_ge y 256 with h5 | h5
      · exact getD_range_map _ h5
      · exact List.getD_eq_default _ _ (by rw [hci0len]; exact h5)
    have hchgd : ∀ i, (occ.map (fun p => some (Prod.snd p)) ++
        List.replicate (NODE48_SIZE - occ.length) none).getD i none =
        if i < occ.length then some ((occ.getD i (0, leaf 0)).2) else none := by
      intro i
      exact getD_map_some_pair_append (leaf 0)
    have hch48len : (occ.map (fun p => some (Prod.snd p)) ++
        List.replicate (NODE48_SIZE - occ.length) none).length = 24 := by
      rw [List.length_append, List.length_map, List.length_replicate, h4]
      rfl
    have hmemof : ∀ b2, b2 ∈ occ.map Prod.fst →
        ∃ i, i < occ.length ∧ (occ.map Prod.fst).getD i 0 = b2 := by
      intro b2 hb2
      rcases List.mem_iff_getElem.mp hb2 with ⟨i, hi, hgi⟩
      rw [List.length_map] at hi
      refine ⟨i, hi, ?_⟩
      rw [List.getD_eq_getElem _ _ (by rw [List.length_map]; exact hi)]
      exact hgi
    have hmemsum : ∀ w, w ∈ (occ.map (fun p => some (Prod.snd p)) ++
        List.replicate (NODE48_SIZE - occ.length) none).flatMap tidsOpt ↔
        w ∈ ch.flatMap tidsOpt ∧ w ≠ v := by
      intro w
      rw [flatMap_tidsOpt_map_snd_append]
      constructor
      · intro hw
        rcases List.mem_flatMap.mp hw with ⟨c, hcm, hw2⟩
        rcases List.mem_map.mp hcm with ⟨p, hpm, hpc⟩
        rcases h2 p hpm with ⟨hp1, hp2, hp3⟩
        refine ⟨mem_flatMap_tidsOpt.mpr ⟨p.1, by omega, p.2, hp3, by rw [hpc]; exact hw2⟩, ?_⟩
        intro hv
        rw [← hpc, hv] at hw2
        exact hp2 (hvonly p.1 hp1 p.2 hp3 hw2)
      · rintro ⟨hw, hwv⟩
        rcases mem_flatMap_tidsOpt.mp hw with ⟨j, hj, c, hc, hw2⟩
        have hjb : j ≠ b := by
          intro he
          rw [he, hleaf] at hc
          cases Option.some_inj.mp hc
          simp at hw2
          exact hwv hw2
        have hpm := h3 j (by omega) hjb c hc
        exact List.mem_flatMap.mpr ⟨c, List.mem_map.mpr ⟨(j, c), hpm, rfl⟩, hw2⟩
    constructor
    · refine Wf.n48 hd hpf ?_ hch48len ?_ ?_ ?_ ?_ ?_ (by omega) (by omega) ?_ ?_ ?_
      · rw [hfold, fold_set_enumFrom_length, hci0len]
      · -- childIndex values
        intro b2 hb2
        by_cases hmem : b2 ∈ occ.map Prod.fst
        · right
          rcases hmemof b2 hmem with ⟨i, hi, hgi⟩
          rw [← hgi, hcimem i hi, hchgd]
          rw [if_pos hi]
          exact ⟨by omega, rfl⟩
        · left
          exact hcinot b2 hmem
      · -- injectivity
        intro b1 b2 hb1 hb2 hne1 heq
        by_cases hm1 : b1 ∈ occ.map Prod.fst
        · by_cases hm2 : b2 ∈ occ.map Prod.fst
          · rcases hmemof b1 hm1 with ⟨i1, hi1, hg1⟩
            rcases hmemof b2 hm2 with ⟨i2, hi2, hg2⟩
            rw [← hg1, ← hg2, hcimem i1 hi1, hcimem i2 hi2] at heq
            rw [← hg1, ← hg2, heq]
          · rw [hcinot b2 hm2] at heq
            rcases hmemof b1 hm1 with ⟨i1, hi1, hg1⟩
            rw [← hg1, hcimem i1 hi1] at heq
            unfold emptyMarker NODE48_SIZE at heq
            omega
        · exact absurd (hcinot b1 hm1) hne1
      · -- slot cover
        intro j hj hocc2
        rw [hchgd] at hocc2
        rcases Nat.lt_or_ge j occ.length with h5 | h5
        · refine ⟨(occ.map Prod.fst).getD j 0,
            hbytebl _ (getD_mem_generic 0 (by omega)), hcimem j h5⟩
        · rw [if_neg (by omega)] at hocc2
          exact Bool.noConfusion hocc2
      · -- byte count
        rw [filter_range_length_congr (p := fun b2 => decide (b2 ∈ occ.map Prod.fst)) ?_,
          filter_range_length_mem hndbl hbytebl, hbl]
        intro y hy
        show decide (y ∈ occ.map Prod.fst) = _
        by_cases hmem : y ∈ occ.map Prod.fst
        · rcases hmemof y hmem with ⟨i, hi, hgi⟩
          rw [decide_eq_true hmem]
          refine (decide_eq_true ?_).symm
          rw [← hgi, hcimem i hi]
          unfold emptyMarker NODE48_SIZE
          omega
        · rw [decide_eq_false hmem, hcinot y hmem]
          refine (decide_eq_false ?_).symm
          exact fun hc3 => hc3 rfl
      · -- slot count
        rw [filter_range_length_congr (p := fun j => decide (j ∈ List.range occ.length)) ?_,
          filter_range_length_mem (List.nodup_range _)
            (fun x hx => by have := List.mem_range.mp hx; omega),
          List.length_range]
        intro y hy
        show decide (y ∈ List.range occ.length) = _
        rw [hchgd]
        rcases Nat.lt_or_ge y occ.length with h5 | h5
        · rw [if_pos h5, decide_eq_true (List.mem_range.mpr h5)]
          rfl
        · rw [if_neg (by omega), decide_eq_false (fun hc3 => by
            have := List.mem_range.mp hc3
            omega)]
          rfl
      · -- children well formed
        intro b2 hb2 hne2 c2 hc2
        by_cases hmem : b2 ∈ occ.map Prod.fst
        · rcases hmemof b2 hmem with ⟨i, hi, hgi⟩
          rw [← hgi, hcimem i hi, hchgd, if_pos hi] at hc2
          cases Option.some_inj.mp hc2
          have hp := h2 _ (getD_mem_generic (0, leaf 0) hi)
          exact hch _ hp.1 _ hp.2.2
        · exact absurd (hcinot b2 hmem) hne2
      · -- branch bytes
        intro b2 hb2 hne2 c2 hc2 w hw
        by_cases hmem : b2 ∈ occ.map Prod.fst
        · rcases hmemof b2 hmem with ⟨i, hi, hgi⟩
          rw [← hgi, hcimem i hi, hchgd, if_pos hi] at hc2
          cases Option.some_inj.mp hc2
          have hp := h2 _ (getD_mem_generic (0, leaf 0) hi)
          rw [← hgi, getD_map_fst (0, leaf 0) hi]
          exact hbr _ hp.1 _ hp.2.2 w hw
        · exact absurd (hcinot b2 hmem) hne2
      · -- shared prefix
        intro w hw j hj
        exact hpref w ((hmemsum w).mp hw).1 j hj
    · intro w
      rw [tids_n48]
      exact hmemsum w
  simp only [eraseNode256]
  by_cases hdem : cnt - 1 = NODE48_SIZE * 3 / 4
  · rw [if_pos hdem]
    have hd18 : cnt - 1 = 18 := hdem
    have hmin : min pl maxPrefLen = pl := by
      unfold maxPrefLen
      omega
    rw [hmin, List.take_of_length_le (le_of_eq hpf)]
    have hf2 : ∀ b2 (p : ℕ × NTree),
        ((ch.set b none).getD b2 none).map (fun c => (b2, c)) = some p → p.1 = b2 := by
      intro b2 p hp
      rcases Option.map_eq_some'.mp hp with ⟨c, _, hpc⟩
      rw [← hpc]
    have h1 : ((List.range 256).filterMap (fun b2 =>
        ((ch.set b none).getD b2 none).map (fun c => (b2, c)))).map Prod.fst =
        (List.range 256).filter (fun b2 => ((ch.set b none).getD b2 none).isSome) := by
      rw [map_fst_filterMap hf2]
      refine List.filter_congr ?_
      intro y hy
      show (((ch.set b none).getD y none).map (fun c => (y, c))).isSome = _
      rcases (ch.set b none).getD y none with _ | c <;> rfl
    have h2 : ∀ p : ℕ × NTree, p ∈ (List.range 256).filterMap (fun b2 =>
        ((ch.set b none).getD b2 none).map (fun c => (b2, c))) →
        p.1 < 256 ∧ p.1 ≠ b ∧ ch.getD p.1 none = some p.2 := by
      intro p hp
      rcases List.mem_filterMap.mp hp with ⟨b2, hb2r, hfb2⟩
      have hb2 : b2 < 256 := List.mem_range.mp hb2r
      rcases Option.map_eq_some'.mp hfb2 with ⟨c, hcc, hpc⟩
      have hb2ne : b2 ≠ b := by
        intro he
        rw [he, getD_set_self _ _ (by omega)] at hcc
        exact Option.noConfusion hcc
      rw [getD_set_ne _ _ (fun hc3 => hb2ne hc3.symm)] at hcc
      rw [← hpc]
      exact ⟨hb2, hb2ne, hcc⟩
    have h3 : ∀ b2, b2 < 256 → b2 ≠ b → ∀ c, ch.getD b2 none = some c →
        (b2, c) ∈ (List.range 256).filterMap (fun b2 =>
          ((ch.set b none).getD b2 none).map (fun c => (b2, c))) := by
      intro b2 hb2 hbne c hc
      refine List.mem_filterMap.mpr ⟨b2, List.mem_range.mpr hb2, ?_⟩
      rw [getD_set_ne _ _ (fun hc3 => hbne hc3.symm), hc]
      rfl
    have h4 : ((List.range 256).filterMap (fun b2 =>
        ((ch.set b none).getD b2 none).map (fun c => (b2, c)))).length = 18 := by
      rw [length_filterMap_pairs hf2]
      rw [filter_range_length_congr
        (p := fun b2 => ((ch.set b none).getD b2 none).isSome) ?_, hcerase, hd18]
      intro y hy
      show ((ch.set b none).getD y none).isSome =
        (((ch.set b none).getD y none).map (fun c => (y, c))).isSome
      rcases (ch.set b none).getD y none with _ | c <;> rfl
    have hres := hkey _ h1 h2 h3 h4
    refine ⟨hres.1, ?_⟩
    intro w
    rw [tids_n256]
    exact hres.2 w
  · rw [if_neg hdem]
    have hd18 : cnt - 1 ≠ 18 := hdem
    constructor
    · refine Wf.n256 hd hpf (by rw [List.length_set]; exact hchlen) hcerase.symm
        (by omega) (by omega) ?_ ?_ ?_
      · intro b2 hb2 c hc
        by_cases hbb : b2 = b
        · rw [hbb, getD_set_self _ _ (by omega)] at hc
          exact Option.noConfusion hc
        · rw [getD_set_ne _ _ (fun hc3 => hbb hc3.symm)] at hc
          exact hch b2 hb2 c hc
      · intro b2 hb2 c hc w hw
        by_cases hbb : b2 = b
        · rw [hbb, getD_set_self _ _ (by omega)] at hc
          exact Option.noConfusion hc
        · rw [getD_set_ne _ _ (fun hc3 => hbb hc3.symm)] at hc
          exact hbr b2 hb2 c hc w hw
      · intro w hw j hj
        exact hpref w ((hmem256 w).mp hw).1 j hj
    · intro w
      rw [tids_n256, tids_n256]
      exact hmem256 w

theorem isLeafMatching_inner {c : NTree} {key : ℕ → ℕ} {kl dp : ℕ}
    (h : isLeafT c = false) : isLeafMatching c key kl dp = false := by
  cases c with
  | leaf e => exact Bool.noConfusion h
  | n4 pl pf keys ch => rfl
  | n16 pl pf keys ch => rfl
  | n48 pl pf ci ch cnt => rfl
  | n256 pl pf ch cnt => rfl
  | nlin pl pf a b ch => rfl

/-- Point erase (ART.cpp lines 564-597) of a stored key on a well-formed
subtree: a matching root leaf empties the slot, otherwise the variant-specific
removal keeps the subtree well formed and removes exactly the matched leaf. -/
theorem eraseF_wf {d : ℕ} {t : NTree} (hwf : Wf d t) :
    ∀ fuel, 9 - d ≤ fuel → ∀ key : ℕ → ℕ, ∀ v, AgreeOn key (loadKey v) d 8 →
      v ∈ tids t →
      (∃ e, t = leaf e ∧ eraseF fuel (some t) key 8 d = some none)
      ∨ (∃ t2, eraseF fuel (some t) key 8 d = some (some t2) ∧ Wf d t2 ∧
          ∀ w, w ∈ tids t2 ↔ w ∈ tids t ∧ w ≠ v) := by
  induction hwf with
  | leaf hd hv =>
    rename_i d2 e
    intro fuel hfuel key v hkey hvmem
    rcases fuel with _ | f
    · omega
    simp only [tids_leaf, List.mem_singleton] at hvmem
    left
    refine ⟨e, rfl, ?_⟩
    have hlm : leafMatches e key 8 d2 = true := by
      unfold leafMatches
      by_cases h8 : d2 = 8
      · rw [if_neg (fun hc3 => hc3 h8)]
      · rw [if_pos h8]
        refine decide_eq_true ?_
        rw [← hvmem]
        exact agreeOn_symm hkey
    simp only [eraseF]
    rw [if_pos hlm]
  | n4 hd hpf hlen hcnt hcnt2 hsort hbyte hch hbr hpref ihch =>
    rename_i d2 pl pf keys ch
    intro fuel hfuel key v hkey hvmem
    rcases fuel with _ | f
    · omega
    have hwf0 : Wf d2 (n4 pl pf keys ch) :=
      Wf.n4 hd hpf hlen hcnt hcnt2 hsort hbyte hch hbr hpref
    rw [tids_n4] at hvmem
    rcases mem_flatMap_tids.mp hvmem with ⟨i, hich, hvc⟩
    have hprm : ∀ j, j < pl → key (d2 + j) = pf.getD j 0 := by
      intro j hj
      rw [hkey (d2 + j) (by omega) (by omega)]
      exact hpref v hvmem j hj
    have hpm : prefixMismatch f (n4 pl pf keys ch) key d2 =
        some (prefLenOf (n4 pl pf keys ch)) := by
      rcases @prefixMismatch_le f d2 (n4 pl pf keys ch) key
          (by simp only [prefLenOf]; unfold maxPrefLen; omega) with
        ⟨m, hpm2, hmlt, hmne, _⟩ | ⟨hpm2, _⟩
      · exfalso
        simp only [prefLenOf, pfOf] at hmlt hmne
        exact hmne (hprm m hmlt)
      · exact hpm2
    have hep := erasePref_full hpm
    simp only [prefLenOf, pfOf] at hep
    have hbv : keys.getD i 0 = key (d2 + pl) := by
      rw [← hbr i hich v hvc]
      exact (hkey (d2 + pl) (by omega) (by omega)).symm
    rcases hfind : keys.findIdx? (fun x => decide (x = key (d2 + pl))) with _ | i2
    · exfalso
      rw [List.findIdx?_eq_none_iff] at hfind
      have h5 := hfind _ (getD_mem (l := keys) (i := i) (by omega))
      rw [hbv] at h5
      simp at h5
    rcases List.findIdx?_eq_some_iff_getElem.mp hfind with ⟨hi2len, hpi2, _⟩
    have hkeyi2 : keys.getD i2 0 = key (d2 + pl) := by
      rw [List.getD_eq_getElem _ _ hi2len]
      exact of_decide_eq_true hpi2
    have hi2i : i2 = i :=
      sorted_getD_inj hsort (by omega) (by omega) (by rw [hkeyi2, hbv])
    subst hi2i
    rcases hg : ch.get? i2 with _ | c
    · rw [List.get?_eq_getElem?, List.getElem?_eq_getElem (by omega)] at hg
      simp at hg
    have hc : ch.getD i2 (leaf 0) = c := by
      rw [List.get?_eq_getElem?, List.getElem?_eq_getElem (by omega)] at hg
      rw [List.getD_eq_getElem _ _ (by omega)]
      exact Option.some_inj.mp hg
    have hvonly : ∀ j, j < ch.length → v ∈ tids (ch.getD j (leaf 0)) → j = i2 := by
      intro j hj hv2
      have h1 := hbr j hj v hv2
      have h2 := hbr i2 hich v hvc
      exact sorted_getD_inj hsort (by omega) (by omega) (by rw [← h1, ← h2])
    rcases hlt : isLeafT c with _ | _
    · -- inner child: recurse
      have hlm := @isLeafMatching_inner _ key 8 (d2 + pl) hlt
      rcases ihch i2 hich f (by omega) key v (agreeOn_mono hkey (by omega)) hvc with
        ⟨e, hce, _⟩ | ⟨c2, hrec, hwfc2, hmemc2⟩
      · rw [hc] at hce
        rw [hce] at hlt
        exact Bool.noConfusion hlt
      · rw [hc] at hrec
        right
        simp only [eraseF, hep, hfind, hg]
        rw [if_neg (fun hcon => by rw [hlm] at hcon; exact Bool.noConfusion hcon)]
        simp only [hrec]
        refine ⟨_, rfl, ?_, ?_⟩
        · refine Wf.n4 hd hpf (by rw [List.length_set]; exact hlen)
            hcnt hcnt2 hsort hbyte ?_ ?_ ?_
          · intro j hj
            rw [List.length_set] at hj
            by_cases hji : i2 = j
            · rw [← hji, getD_set_self _ _ hich]
              exact hwfc2
            · rw [getD_set_ne _ _ hji]
              exact hch j hj
          · intro j hj w hw
            rw [List.length_set] at hj
            by_cases hji : i2 = j
            · rw [← hji, getD_set_self _ _ hich] at hw
              rw [← hji]
              exact hbr i2 hich w ((hmemc2 w).mp hw).1
            · rw [getD_set_ne _ _ hji] at hw
              exact hbr j hj w hw
          · intro w hw j hj
            exact hpref w
              ((mem_flatMap_tids_set_del hich hmemc2 hvonly w).mp hw).1 j hj
        · intro w
          rw [tids_n4, tids_n4]
          exact mem_flatMap_tids_set_del hich hmemc2 hvonly w
    · -- leaf child: remove it through eraseNode4
      rcases isLeafT_true hlt with ⟨e, hce⟩
      have hev : e = v := by
        rw [hce] at hc
        rw [hc] at hvc
        simp at hvc
        exact hvc.symm
      have hlm : isLeafMatching c key 8 (d2 + pl) = true := by
        rw [hce, hev]
        show leafMatches v key 8 (d2 + pl) = true
        unfold leafMatches
        rw [if_pos (by omega : d2 + pl ≠ 8)]
        exact decide_eq_true (agreeOn_mono (agreeOn_symm hkey) (by omega))
      right
      simp only [eraseF, hep, hfind, hg]
      rw [if_pos hlm]
      have hres := eraseNode4_wf hwf0 (by omega : i2 < keys.length)
        (by rw [hc, hce, hev])
      exact ⟨_, rfl, hres.1, hres.2⟩
  | n16 hd hpf hlen hcnt hcnt2 hsort hbyte hch hbr hpref ihch =>
    rename_i d2 pl pf keys ch
    intro fuel hfuel key v hkey hvmem
    rcases fuel with _ | f
    · omega
    have hwf0 : Wf d2 (n16 pl pf keys ch) :=
      Wf.n16 hd hpf hlen hcnt hcnt2 hsort hbyte hch hbr hpref
    rw [tids_n16] at hvmem
    rcases mem_flatMap_tids.mp hvmem with ⟨i, hich, hvc⟩
    have hprm : ∀ j, j < pl → key (d2 + j) = pf.getD j 0 := by
      intro j hj
      rw [hkey (d2 + j) (by omega) (by omega)]
      exact hpref v hvmem j hj
    have hpm : prefixMismatch f (n16 pl pf keys ch) key d2 =
        some (prefLenOf (n16 pl pf keys ch)) := by
      rcases @prefixMismatch_le f d2 (n16 pl pf keys ch) key
          (by simp only [prefLenOf]; unfold maxPrefLen; omega) with
        ⟨m, hpm2, hmlt, hmne, _⟩ | ⟨hpm2, _⟩
      · exfalso
        simp only [prefLenOf, pfOf] at hmlt hmne
        exact hmne (hprm m hmlt)
      · exact hpm2
    have hep := erasePref_full hpm
    simp only [prefLenOf, pfOf] at hep
    have hbv : keys.getD i 0 = key (d2 + pl) := by
      rw [← hbr i hich v hvc]
      exact (hkey (d2 + pl) (by omega) (by omega)).symm
    rcases hfind : keys.findIdx? (fun x => decide (x = key (d2 + pl))) with _ | i2
    · exfalso
      rw [List.findIdx?_eq_none_iff] at hfind
      have h5 := hfind _ (getD_mem (l := keys) (i := i) (by omega))
      rw [hbv] at h5
      simp at h5
    rcases List.findIdx?_eq_some_iff_getElem.mp hfind with ⟨hi2len, hpi2, _⟩
    have hkeyi2 : keys.getD i2 0 = key (d2 + pl) := by
      rw [List.getD_eq_getElem _ _ hi2len]
      exact of_decide_eq_true hpi2
    have hi2i : i2 = i :=
      sorted_getD_inj hsort (by omega) (by omega) (by rw [hkeyi2, hbv])
    subst hi2i
    rcases hg : ch.get? i2 with _ | c
    · rw [List.get?_eq_getElem?, List.getElem?_eq_getElem (by omega)] at hg
      simp at hg
    have hc : ch.getD i2 (leaf 0) = c := by
      rw [List.get?_eq_getElem?, List.getElem?_eq_getElem (by omega)] at hg
      rw [List.getD_eq_getElem _ _ (by omega)]
      exact Option.some_inj.mp hg
    have hvonly : ∀ j, j < ch.length → v ∈ tids (ch.getD j (leaf 0)) → j = i2 := by
      intro j hj hv2
      have h1 := hbr j hj v hv2
      have h2 := hbr i2 hich v hvc
      exact sorted_getD_inj hsort (by omega) (by omega) (by rw [← h1, ← h2])
    rcases hlt : isLeafT c with _ | _
    · have hlm := @isLeafMatching_inner _ key 8 (d2 + pl) hlt
      rcases ihch i2 hich f (by omega) key v (agreeOn_mono hkey (by omega)) hvc with
        ⟨e, hce, _⟩ | ⟨c2, hrec, hwfc2, hmemc2⟩
      · rw [hc] at hce
        rw [hce] at hlt
        exact Bool.noConfusion hlt
      · rw [hc] at hrec
        right
        simp only [eraseF, hep, hfind, hg]
        rw [if_neg (fun hcon => by rw [hlm] at hcon; exact Bool.noConfusion hcon)]
        simp only [hrec]
        refine ⟨_, rfl, ?_, ?_⟩
        · refine Wf.n16 hd hpf (by rw [List.length_set]; exact hlen)
            hcnt hcnt2 hsort hbyte ?_ ?_ ?_
          · intro j hj
            rw [List.length_set] at hj
            by_cases hji : i2 = j
            · rw [← hji, getD_set_self _ _ hich]
              exact hwfc2
            · rw [getD_set_ne _ _ hji]
              exact hch j hj
          · intro j hj w hw
            rw [List.length_set] at hj
            by_cases hji : i2 = j
            · rw [← hji, getD_set_self _ _ hich] at hw
              rw [← hji]
              exact hbr i2 hich w ((hmemc2 w).mp hw).1
            · rw [getD_set_ne _ _ hji] at hw
              exact hbr j hj w hw
          · intro w hw j hj
            exact hpref w
              ((mem_flatMap_tids_set_del hich hmemc2 hvonly w).mp hw).1 j hj
        · intro w
          rw [tids_n16, tids_n16]
          exact mem_flatMap_tids_set_del hich hmemc2 hvonly w
    · rcases isLeafT_true hlt with ⟨e, hce⟩
      have hev : e = v := by
        rw [hce] at hc
        rw [hc] at hvc
        simp at hvc
        exact hvc.symm
      have hlm : isLeafMatching c key 8 (d2 + pl) = true := by
        rw [hce, hev]
        show leafMatches v key 8 (d2 + pl) = true
        unfold leafMatches
        rw [if_pos (by omega : d2 + pl ≠ 8)]
        exact decide_eq_true (agreeOn_mono (agreeOn_symm hkey) (by omega))
      right
      simp only [eraseF, hep, hfind, hg]
      rw [if_pos hlm]
      have hres := eraseNode16_wf hwf0 (by omega : i2 < keys.length)
        (by rw [hc, hce, hev])
      exact ⟨_, rfl, hres.1, hres.2⟩
  | n48 hd hpf hcilen hchlen hcival hinj hsl hcnt hscnt hc1 hc2 hch hbr hpref ihch =>
    rename_i d2 pl pf ci ch cnt
    intro fuel hfuel key v hkey hvmem
    rcases fuel with _ | f
    · omega
    have hwf0 : Wf d2 (n48 pl pf ci ch cnt) :=
      Wf.n48 hd hpf hcilen hchlen hcival hinj hsl hcnt hscnt hc1 hc2 hch hbr hpref
    rw [tids_n48] at hvmem
    rcases mem_flatMap_tidsOpt.mp hvmem with ⟨j, hj, c, hcslot, hvc⟩
    have hocc : (ch.getD j none).isSome := by rw [hcslot]; rfl
    rcases hsl j (by omega) hocc with ⟨bx, hbx, hcibx⟩
    have hnebx : ci.getD bx emptyMarker ≠ emptyMarker := by
      rw [hcibx]
      unfold emptyMarker NODE48_SIZE
      omega
    have hbxv : bx = key (d2 + pl) := by
      rw [← hbr bx hbx hnebx c (by rw [hcibx]; exact hcslot) v hvc]
      exact (hkey (d2 + pl) (by omega) (by omega)).symm
    have hprm : ∀ j2, j2 < pl → key (d2 + j2) = pf.getD j2 0 := by
      intro j2 hj2
      rw [hkey (d2 + j2) (by omega) (by omega)]
      exact hpref v hvmem j2 hj2
    have hpm : prefixMismatch f (n48 pl pf ci ch cnt) key d2 =
        some (prefLenOf (n48 pl pf ci ch cnt)) := by
      rcases @prefixMismatch_le f d2 (n48 pl pf ci ch cnt) key
          (by simp only [prefLenOf]; unfold maxPrefLen; omega) with
        ⟨m, hpm2, hmlt, hmne, _⟩ | ⟨hpm2, _⟩
      · exfalso
        simp only [prefLenOf, pfOf] at hmlt hmne
        exact hmne (hprm m hmlt)
      · exact hpm2
    have hep := erasePref_full hpm
    simp only [prefLenOf, pfOf] at hep
    have hkb : key (d2 + pl) < 256 := by
      rw [hkey (d2 + pl) (by omega) (by omega)]
      exact loadKey_lt v (d2 + pl)
    have hguard : ci.getD (key (d2 + pl)) emptyMarker ≠ emptyMarker := by
      rw [← hbxv]
      exact hnebx
    have hslot : ch.getD (ci.getD (key (d2 + pl)) emptyMarker) none = some c := by
      rw [← hbxv, hcibx]
      exact hcslot
    have hidx24 : ci.getD (key (d2 + pl)) emptyMarker < 24 := by
      rcases hcival _ hkb with hemp | ⟨h24, _⟩
      · exact absurd hemp hguard
      · exact h24
    have hvonly : ∀ j2, j2 < ch.length → ∀ c3, ch.getD j2 none = some c3 →
        v ∈ tids c3 → j2 = ci.getD (key (d2 + pl)) emptyMarker := by
      intro j2 hj2 c3 hc3 hv3
      have hocc3 : (ch.getD j2 none).isSome := by rw [hc3]; rfl
      rcases hsl j2 (by omega) hocc3 with ⟨b3, hb3, hcib3⟩
      have hne3 : ci.getD b3 emptyMarker ≠ emptyMarker := by
        rw [hcib3]
        unfold emptyMarker NODE48_SIZE
        omega
      have hb3v : b3 = key (d2 + pl) := by
        rw [← hbr b3 hb3 hne3 c3 (by rw [hcib3]; exact hc3) v hv3]
        exact (hkey (d2 + pl) (by omega) (by omega)).symm
      rw [← hb3v, hcib3]
    rcases hlt : isLeafT c with _ | _
    · -- inner child: recurse
      have hlm := @isLeafMatching_inner _ key 8 (d2 + pl) hlt
      rcases ihch _ hkb hguard c hslot f (by omega) key v
          (agreeOn_mono hkey (by omega)) hvc with
        ⟨e, hce, _⟩ | ⟨c2, hrec, hwfc2, hmemc2⟩
      · rw [hce] at hlt
        exact Bool.noConfusion hlt
      · right
        simp only [eraseF, hep]
        rw [if_pos hguard]
        simp only [hslot]
        rw [if_neg (fun hcon => by rw [hlm] at hcon; exact Bool.noConfusion hcon)]
        simp only [hrec]
        refine ⟨_, rfl, ?_, ?_⟩
        · refine Wf.n48 hd hpf hcilen (by rw [List.length_set]; exact hchlen)
            ?_ hinj ?_ hcnt ?_ hc1 hc2 ?_ ?_ ?_
          · intro b2 hb2
            rcases hcival b2 hb2 with h3 | ⟨h3, h4⟩
            · left; exact h3
            · right
              refine ⟨h3, ?_⟩
              by_cases hii : ci.getD b2 emptyMarker =
                  ci.getD (key (d2 + pl)) emptyMarker
              · rw [hii, getD_set_self _ _ (by omega)]
                rfl
              · rw [getD_set_ne _ _ (fun hc4 => hii hc4.symm)]
                exact h4
          · intro j2 hj2 hocc2
            apply hsl j2 hj2
            by_cases hji : ci.getD (key (d2 + pl)) emptyMarker = j2
            · rw [← hji, hslot]
              rfl
            · rw [getD_set_ne _ _ hji] at hocc2
              exact hocc2
          · rw [hscnt]
            refine filter_range_length_congr ?_
            intro y hy
            by_cases hji : ci.getD (key (d2 + pl)) emptyMarker = y
            · rw [← hji, getD_set_self _ _ (by omega), hslot]
              rfl
            · rw [getD_set_ne _ _ hji]
          · intro b2 hb2 hne2 c3 hc3
            by_cases hii : ci.getD b2 emptyMarker = ci.getD (key (d2 + pl)) emptyMarker
            · rw [hii, getD_set_self _ _ (by omega)] at hc3
              cases Option.some_inj.mp hc3
              exact hwfc2
            · rw [getD_set_ne _ _ (fun hc4 => hii hc4.symm)] at hc3
              exact hch b2 hb2 hne2 c3 hc3
          · intro b2 hb2 hne2 c3 hc3 w hw
            by_cases hii : ci.getD b2 emptyMarker = ci.getD (key (d2 + pl)) emptyMarker
            · rw [hii, getD_set_self _ _ (by omega)] at hc3
              cases Option.some_inj.mp hc3
              have hb2eq : b2 = key (d2 + pl) := hinj b2 _ hb2 hkb hne2 hii
              rw [hb2eq]
              have h5 := ((hmemc2 w).mp hw).1
              exact hbr _ hkb hguard c hslot w h5
            · rw [getD_set_ne _ _ (fun hc4 => hii hc4.symm)] at hc3
              exact hbr b2 hb2 hne2 c3 hc3 w hw
          · intro w hw j2 hj2
            exact hpref w
              ((mem_flatMap_tidsOpt_set_del (by omega) hslot hmemc2 hvonly w).mp hw).1
              j2 hj2
        · intro w
          rw [tids_n48, tids_n48]
          exact mem_flatMap_tidsOpt_set_del (by omega) hslot hmemc2 hvonly w
    · -- leaf child: remove it through eraseNode48
      rcases isLeafT_true hlt with ⟨e, hce⟩
      have hev : e = v := by
        rw [hce] at hvc
        simp at hvc
        exact hvc.symm
      have hlm : isLeafMatching c key 8 (d2 + pl) = true := by
        rw [hce, hev]
        show leafMatches v key 8 (d2 + pl) = true
        unfold leafMatches
        rw [if_pos (by omega : d2 + pl ≠ 8)]
        exact decide_eq_true (agreeOn_mono (agreeOn_symm hkey) (by omega))
      right
      simp only [eraseF, hep]
      rw [if_pos hguard]
      simp only [hslot]
      rw [if_pos hlm]
      have hres := eraseNode48_wf hwf0 hkb hguard
        (by rw [hslot, hce, hev])
      exact ⟨_, rfl, hres.1, hres.2⟩
  | n256 hd hpf hchlen hcnt hc1 hc2 hch hbr hpref ihch =>
    rename_i d2 pl pf ch cnt
    intro fuel hfuel key v hkey hvmem
    rcases fuel with _ | f
    · omega
    have hwf0 : Wf d2 (n256 pl pf ch cnt) :=
      Wf.n256 hd hpf hchlen hcnt hc1 hc2 hch hbr hpref
    rw [tids_n256] at hvmem
    rcases mem_flatMap_tidsOpt.mp hvmem with ⟨j, hj, c, hcslot, hvc⟩
    have hbxv : j = key (d2 + pl) := by
      rw [← hbr j (by omega) c hcslot v hvc]
      exact (hkey (d2 + pl) (by omega) (by omega)).symm
    have hprm : ∀ j2, j2 < pl → key (d2 + j2) = pf.getD j2 0 := by
      intro j2 hj2
      rw [hkey (d2 + j2) (by omega) (by omega)]
      exact hpref v hvmem j2 hj2
    have hpm : prefixMismatch f (n256 pl pf ch cnt) key d2 =
        some (prefLenOf (n256 pl pf ch cnt)) := by
      rcases @prefixMismatch_le f d2 (n256 pl pf ch cnt) key
          (by simp only [prefLenOf]; unfold maxPrefLen; omega) with
        ⟨m, hpm2, hmlt, hmne, _⟩ | ⟨hpm2, _⟩
      · exfalso
        simp only [prefLenOf, pfOf] at hmlt hmne
        exact hmne (hprm m hmlt)
      · exact hpm2
    have hep := erasePref_full hpm
    simp only [prefLenOf, pfOf] at hep
    have hkb : key (d2 + pl) < 256 := by
      rw [hkey (d2 + pl) (by omega) (by omega)]
      exact loadKey_lt v (d2 + pl)
    have hslot : ch.getD (key (d2 + pl)) none = some c := by
      rw [← hbxv]
      exact hcslot
    have hvonly : ∀ j2, j2 < ch.length → ∀ c3, ch.getD j2 none = some c3 →
        v ∈ tids c3 → j2 = key (d2 + pl) := by
      intro j2 hj2 c3 hc3 hv3
      rw [← hbr j2 (by omega) c3 hc3 v hv3]
      exact (hkey (d2 + pl) (by omega) (by omega)).symm
    rcases hlt : isLeafT c with _ | _
    · have hlm := @isLeafMatching_inner _ key 8 (d2 + pl) hlt
      rcases ihch _ hkb c hslot f (by omega) key v
          (agreeOn_mono hkey (by omega)) hvc with
        ⟨e, hce, _⟩ | ⟨c2, hrec, hwfc2, hmemc2⟩
      · rw [hce] at hlt
        exact Bool.noConfusion hlt
      · right
        simp only [eraseF, hep, hslot]
        rw [if_neg (fun hcon => by rw [hlm] at hcon; exact Bool.noConfusion hcon)]
        simp only [hrec]
        refine ⟨_, rfl, ?_, ?_⟩
        · refine Wf.n256 hd hpf (by rw [List.length_set]; exact hchlen)
            ?_ hc1 hc2 ?_ ?_ ?_
          · rw [hcnt]
            refine filter_range_length_congr ?_
            intro y hy
            by_cases hji : key (d2 + pl) = y
            · rw [← hji, getD_set_self _ _ (by omega), hslot]
              rfl
            · rw [getD_set_ne _ _ hji]
          · intro b2 hb2 c3 hc3
            by_cases hii : b2 = key (d2 + pl)
            · rw [hii, getD_set_self _ _ (by omega)] at hc3
              cases Option.some_inj.mp hc3
              exact hwfc2
            · rw [getD_set_ne _ _ (fun hc4 => hii hc4.symm)] at hc3
              exact hch b2 hb2 c3 hc3
          · intro b2 hb2 c3 hc3 w hw
            by_cases hii : b2 = key (d2 + pl)
            · rw [hii, getD_set_self _ _ (by omega)] at hc3
              cases Option.some_inj.mp hc3
              rw [hii]
              exact hbr _ hkb c hslot w ((hmemc2 w).mp hw).1
            · rw [getD_set_ne _ _ (fun hc4 => hii hc4.symm)] at hc3
              exact hbr b2 hb2 c3 hc3 w hw
          · intro w hw j2 hj2
            exact hpref w
              ((mem_flatMap_tidsOpt_set_del (by omega) hslot hmemc2 hvonly w).mp hw).1
              j2 hj2
        · intro w
          rw [tids_n256, tids_n256]
          exact mem_flatMap_tidsOpt_set_del (by omega) hslot hmemc2 hvonly w
    · rcases isLeafT_true hlt with ⟨e, hce⟩
      have hev : e = v := by
        rw [hce] at hvc
        simp at hvc
        exact hvc.symm
      have hlm : isLeafMatching c key 8 (d2 + pl) = true := by
        rw [hce, hev]
        show leafMatches v key 8 (d2 + pl) = true
        unfold leafMatches
        rw [if_pos (by omega : d2 + pl ≠ 8)]
        exact decide_eq_true (agreeOn_mono (agreeOn_symm hkey) (by omega))
      right
      simp only [eraseF, hep, hslot]
      rw [if_pos hlm]
      have hres := eraseNode256_wf hwf0 hkb (by rw [hslot, hce, hev])
      exact ⟨_, rfl, hres.1, hres.2⟩

/-- Lexicographic comparison from a later position lifts over an agreeing
stretch of earlier positions. -/
theorem lexLeFrom_lift {d j : ℕ} {f g : ℕ → ℕ} (hd : d ≤ j)
    (hag : ∀ i, d ≤ i → i < j → f i = g i) (h : LexLeFrom j f g) :
    LexLeFrom d f g := by
  rcases h with h | ⟨p, hp1, hp2, hp3, hp4⟩
  · by_cases hj8 : j ≤ 8
    · left
      intro i hi hdi
      rcases Nat.lt_or_ge i j with h2 | h2
      · exact hag i hdi h2
      · exact h i hi h2
    · left
      intro i hi hdi
      exact hag i hdi (by omega)
  · right
    refine ⟨p, by omega, hp2, hp3, ?_⟩
    intro i hi hdi
    rcases Nat.lt_or_ge i j with h2 | h2
    · exact hag i hdi h2
    · exact hp4 i hi h2

/-- Comparing two leaves of a node: equal branch bytes let the deeper
comparison lift over the shared prefix and branch byte, a smaller branch byte
decides immediately. -/
theorem lex_node_step {d pl : ℕ} {u w : ℕ} {bu bw : ℕ} {pfl : List ℕ}
    (hd : d + pl ≤ 7)
    (hu : ∀ j, j < pl → loadKey u (d + j) = pfl.getD j 0)
    (hw : ∀ j, j < pl → loadKey w (d + j) = pfl.getD j 0)
    (hbu : loadKey u (d + pl) = bu) (hbw : loadKey w (d + pl) = bw) :
    (bu = bw → LexLeFrom (d + pl + 1) (loadKey u) (loadKey w) →
      LexLeFrom d (loadKey u) (loadKey w)) ∧
    (bu < bw → LexLeFrom d (loadKey u) (loadKey w)) := by
  have hagpre : ∀ i, d ≤ i → i < d + pl → loadKey u i = loadKey w i := by
    intro i hdi hi
    have h3 : d + (i - d) = i := by omega
    have h4 := hu (i - d) (by omega)
    have h5 := hw (i - d) (by omega)
    rw [h3] at h4 h5
    rw [h4, h5]
  constructor
  · intro hbe hlex
    refine lexLeFrom_lift (by omega) ?_ hlex
    intro i hdi hi
    rcases Nat.lt_or_ge i (d + pl) with h2 | h2
    · exact hagpre i hdi h2
    · have h6 : i = d + pl := by omega
      rw [h6, hbu, hbw, hbe]
  · intro hlt
    right
    refine ⟨d + pl, by omega, by omega, by rw [hbu, hbw]; exact hlt, ?_⟩
    intro i hi hdi
    exact hagpre i hdi hi

/-- minimum (ART.cpp lines 109-142) on a well-formed subtree returns the leaf
whose key is lexicographically smallest from the node starting position:
N4/N16 descend into slot 0, N48 into the child of the first occupied
childIndex byte, N256 into the first populated slot. -/
theorem minimumF_wf {d : ℕ} {t : NTree} (hwf : Wf d t) :
    ∀ fuel, 9 - d ≤ fuel →
      ∃ v, v ∈ tids t ∧ minimumF fuel t = some (some v) ∧
        ∀ w ∈ tids t, LexLeFrom d (loadKey v) (loadKey w) := by
  induction hwf with
  | leaf hd hv =>
    rename_i d2 e
    intro fuel hfuel
    rcases fuel with _ | f
    · omega
    refine ⟨e, by simp, rfl, ?_⟩
    intro w hw
    simp only [tids_leaf, List.mem_singleton] at hw
    rw [hw]
    left
    intro i _ _
    rfl
  | n4 hd hpf hlen hcnt hcnt2 hsort hbyte hch hbr hpref ihch =>
    rename_i d2 pl pf keys ch
    intro fuel hfuel
    rcases fuel with _ | f
    · omega
    have hch0 : 0 < ch.length := by omega
    rcases hg : ch.get? 0 with _ | c
    · rw [List.get?_eq_getElem?, List.getElem?_eq_getElem hch0] at hg
      simp at hg
    have hc : ch.getD 0 (leaf 0) = c := by
      rw [List.get?_eq_getElem?, List.getElem?_eq_getElem hch0] at hg
      rw [List.getD_eq_getElem _ _ hch0]
      exact Option.some_inj.mp hg
    rcases ihch 0 hch0 f (by omega) with ⟨v, hvm, hvmin, hvle⟩
    rw [hc] at hvm hvmin hvle
    have hvmem : v ∈ ch.flatMap tids :=
      mem_flatMap_tids.mpr ⟨0, hch0, by rw [hc]; exact hvm⟩
    refine ⟨v, by rw [tids_n4]; exact hvmem, ?_, ?_⟩
    · simp only [minimumF, hg]
      exact hvmin
    · intro w hwm
      rw [tids_n4] at hwm
      rcases mem_flatMap_tids.mp hwm with ⟨j, hj, hwj⟩
      have hu0 : ∀ j2, j2 < pl → loadKey v (d2 + j2) = pf.getD j2 0 :=
        fun j2 hj2 => hpref v hvmem j2 hj2
      have hw0 : ∀ j2, j2 < pl → loadKey w (d2 + j2) = pf.getD j2 0 :=
        fun j2 hj2 => hpref w hwm j2 hj2
      have hbv2 : loadKey v (d2 + pl) = keys.getD 0 0 :=
        hbr 0 hch0 v (by rw [hc]; exact hvm)
      have hbw2 := hbr j hj w hwj
      rcases Nat.eq_zero_or_pos j with hj0 | hj0
      · have hwc : w ∈ tids c := by rw [hj0] at hwj; rw [← hc]; exact hwj
        rw [hj0] at hbw2
        exact (lex_node_step hd hu0 hw0 hbv2 hbw2).1 rfl (hvle w hwc)
      · refine (lex_node_step hd hu0 hw0 hbv2 hbw2).2 ?_
        exact pairwise_getD hsort (by omega) (by omega) hj0
  | n16 hd hpf hlen hcnt hcnt2 hsort hbyte hch hbr hpref ihch =>
    rename_i d2 pl pf keys ch
    intro fuel hfuel
    rcases fuel with _ | f
    · omega
    have hch0 : 0 < ch.length := by omega
    rcases hg : ch.get? 0 with _ | c
    · rw [List.get?_eq_getElem?, List.getElem?_eq_getElem hch0] at hg
      simp at hg
    have hc : ch.getD 0 (leaf 0) = c := by
      rw [List.get?_eq_getElem?, List.getElem?_eq_getElem hch0] at hg
      rw [List.getD_eq_getElem _ _ hch0]
      exact Option.some_inj.mp hg
    rcases ihch 0 hch0 f (by omega) with ⟨v, hvm, hvmin, hvle⟩
    rw [hc] at hvm hvmin hvle
    have hvmem : v ∈ ch.flatMap tids :=
      mem_flatMap_tids.mpr ⟨0, hch0, by rw [hc]; exact hvm⟩
    refine ⟨v, by rw [tids_n16]; exact hvmem, ?_, ?_⟩
    · simp only [minimumF, hg]
      exact hvmin
    · intro w hwm
      rw [tids_n16] at hwm
      rcases mem_flatMap_tids.mp hwm with ⟨j, hj, hwj⟩
      have hu0 : ∀ j2, j2 < pl → loadKey v (d2 + j2) = pf.getD j2 0 :=
        fun j2 hj2 => hpref v hvmem j2 hj2
      have hw0 : ∀ j2, j2 < pl → loadKey w (d2 + j2) = pf.getD j2 0 :=
        fun j2 hj2 => hpref w hwm j2 hj2
      have hbv2 : loadKey v (d2 + pl) = keys.getD 0 0 :=
        hbr 0 hch0 v (by rw [hc]; exact hvm)
      have hbw2 := hbr j hj w hwj
      rcases Nat.eq_zero_or_pos j with hj0 | hj0
      · have hwc : w ∈ tids c := by rw [hj0] at hwj; rw [← hc]; exact hwj
        rw [hj0] at hbw2
        exact (lex_node_step hd hu0 hw0 hbv2 hbw2).1 rfl (hvle w hwc)
      · refine (lex_node_step hd hu0 hw0 hbv2 hbw2).2 ?_
        exact pairwise_getD hsort (by omega) (by omega) hj0
  | n48 hd hpf hcilen hchlen hcival hinj hsl hcnt hscnt hc1 hc2 hch hbr hpref ihch =>
    rename_i d2 pl pf ci ch cnt
    intro fuel hfuel
    rcases fuel with _ | f
    · omega
    have hfilne : (List.range 256).filter
        (fun b => decide (ci.getD b emptyMarker ≠ emptyMarker)) ≠ [] := by
      intro hf
      rw [hf] at hcnt
      simp at hcnt
      omega
    rcases List.exists_mem_of_ne_nil _ hfilne with ⟨bx, hbmem⟩
    rcases find_range_spec 256 (fun b => decide (ci.getD b emptyMarker ≠ emptyMarker))
      with ⟨hn, hall⟩ | ⟨b0, hfind, hb0lt, hb0p, hb0min⟩
    · exfalso
      have h1 := List.mem_filter.mp hbmem
      have h2 := hall bx (List.mem_range.mp h1.1)
      rw [h1.2] at h2
      exact Bool.noConfusion h2
    have hb0ne : ci.getD b0 emptyMarker ≠ emptyMarker := of_decide_eq_true hb0p
    rcases hcival b0 hb0lt with h | ⟨hidx24, hocc⟩
    · exact absurd h hb0ne
    rcases hgc : ch.getD (ci.getD b0 emptyMarker) none with _ | c
    · rw [hgc] at hocc
      exact Bool.noConfusion hocc
    rcases ihch b0 hb0lt hb0ne c hgc f (by omega) with ⟨v, hvm, hvmin, hvle⟩
    have hvmem : v ∈ ch.flatMap tidsOpt :=
      mem_flatMap_tidsOpt.mpr ⟨ci.getD b0 emptyMarker, by omega, c, hgc, hvm⟩
    refine ⟨v, by rw [tids_n48]; exact hvmem, ?_, ?_⟩
    · simp only [minimumF, hfind, hgc]
      exact hvmin
    · intro w hwm
      rw [tids_n48] at hwm
      rcases mem_flatMap_tidsOpt.mp hwm with ⟨j, hj, c2, hc2, hwj⟩
      have hocc2 : (ch.getD j none).isSome := by rw [hc2]; rfl
      rcases hsl j (by omega) hocc2 with ⟨b2, hb2, hcib2⟩
      have hne2 : ci.getD b2 emptyMarker ≠ emptyMarker := by
        rw [hcib2]
        unfold emptyMarker NODE48_SIZE
        omega
      have hbw2 := hbr b2 hb2 hne2 c2 (by rw [hcib2]; exact hc2) w hwj
      have hbv2 := hbr b0 hb0lt hb0ne c hgc v hvm
      have hu0 : ∀ j2, j2 < pl → loadKey v (d2 + j2) = pf.getD j2 0 :=
        fun j2 hj2 => hpref v hvmem j2 hj2
      have hw0 : ∀ j2, j2 < pl → loadKey w (d2 + j2) = pf.getD j2 0 :=
        fun j2 hj2 => hpref w hwm j2 hj2
      by_cases hbb : b2 = b0
      · have hjj : j = ci.getD b0 emptyMarker := by rw [← hcib2, hbb]
        rw [hjj, hgc] at hc2
        cases Option.some_inj.mp hc2
        exact (lex_node_step hd hu0 hw0 hbv2 hbw2).1 hbb.symm (hvle w hwj)
      · have hb2p : decide (ci.getD b2 emptyMarker ≠ emptyMarker) = true :=
          decide_eq_true hne2
        have hgt : b0 < b2 := by
          rcases Nat.lt_trichotomy b2 b0 with h5 | h5 | h5
          · have h6 := hb0min b2 h5
            rw [hb2p] at h6
            exact Bool.noConfusion h6
          · exact absurd h5 hbb
          · exact h5
        exact (lex_node_step hd hu0 hw0 hbv2 hbw2).2 hgt
  | n256 hd hpf hchlen hcnt hc1 hc2 hch hbr hpref ihch =>
    rename_i d2 pl pf ch cnt
    intro fuel hfuel
    rcases fuel with _ | f
    · omega
    have hfilne : (List.range 256).filter
        (fun b => (ch.getD b none).isSome) ≠ [] := by
      intro hf
      rw [hf] at hcnt
      simp at hcnt
      omega
    rcases List.exists_mem_of_ne_nil _ hfilne with ⟨bx, hbmem⟩
    rcases find_range_spec 256 (fun b => (ch.getD b none).isSome)
      with ⟨hn, hall⟩ | ⟨b0, hfind, hb0lt, hb0p, hb0min⟩
    · exfalso
      have h1 := List.mem_filter.mp hbmem
      have h2 := hall bx (List.mem_range.mp h1.1)
      rw [h1.2] at h2
      exact Bool.noConfusion h2
    rcases hgc : ch.getD b0 none with _ | c
    · rw [hgc] at hb0p
      exact Bool.noConfusion hb0p
    rcases ihch b0 hb0lt c hgc f (by omega) with ⟨v, hvm, hvmin, hvle⟩
    have hvmem : v ∈ ch.flatMap tidsOpt :=
      mem_flatMap_tidsOpt.mpr ⟨b0, by omega, c, hgc, hvm⟩
    refine ⟨v, by rw [tids_n256]; exact hvmem, ?_, ?_⟩
    · simp only [minimumF, hfind, hgc]
      exact hvmin
    · intro w hwm
      rw [tids_n256] at hwm
      rcases mem_flatMap_tidsOpt.mp hwm with ⟨j, hj, c2, hc2, hwj⟩
      have hbw2 := hbr j (by omega) c2 hc2 w hwj
      have hbv2 := hbr b0 hb0lt c hgc v hvm
      have hu0 : ∀ j2, j2 < pl → loadKey v (d2 + j2) = pf.getD j2 0 :=
        fun j2 hj2 => hpref v hvmem j2 hj2
      have hw0 : ∀ j2, j2 < pl → loadKey w (d2 + j2) = pf.getD j2 0 :=
        fun j2 hj2 => hpref w hwm j2 hj2
      by_cases hbb : j = b0
      · rw [hbb, hgc] at hc2
        cases Option.some_inj.mp hc2
        exact (lex_node_step hd hu0 hw0 hbv2 hbw2).1 hbb.symm (hvle w hwj)
      · have hb2p : (ch.getD j none).isSome = true := by rw [hc2]; rfl
        have hgt : b0 < j := by
          rcases Nat.lt_trichotomy j b0 with h5 | h5 | h5
          · have h6 := hb0min j h5
            rw [hb2p] at h6
            exact Bool.noConfusion h6
          · exact absurd h5 hbb
          · exact h5
        exact (lex_node_step hd hu0 hw0 hbv2 hbw2).2 hgt

/-- Root slots reachable from the empty tree through the point operations of
ART.cpp at the 8-byte key length: insert of a fresh identifier below 2^64
through its own loaded key at depth 0, and erase of an arbitrary searched
key.  The fuel of at least 9 covers the at most 8 key bytes consumed by any
descent, so it never runs out on these trees. -/
inductive Reach : Option NTree → Prop where
  | base : Reach none
  | ins {s s2 : Option NTree} {v fuel : ℕ} (hr : Reach s) (hv : v < 2 ^ 64)
      (hfresh : ∀ w ∈ tidsOpt s, w ≠ v) (hfuel : 9 ≤ fuel)
      (hstep : insertF fuel s (loadKey v) 0 v = some s2) : Reach s2
  | del {s s2 : Option NTree} {fuel : ℕ} {key : ℕ → ℕ} (hr : Reach s)
      (hfuel : 9 ≤ fuel) (hstep : eraseF fuel s key 8 0 = some s2) : Reach s2

/-- Every reachable root slot is well-formed. -/
theorem reach_wf {s : Option NTree} (hr : Reach s) : WfOpt 0 s := by
  induction hr with
  | base => trivial
  | ins hr hv hfresh hfuel hstep ih =>
    rename_i s s2 v fuel
    rcases s with _ | t
    · rcases fuel with _ | f
      · omega
      simp only [insertF] at hstep
      rw [← Option.some_inj.mp hstep]
      exact Wf.leaf (by omega) hv
    · have hwf : Wf 0 t := ih
      have hfr : ∀ w ∈ tids t, ¬ AgreeOn (loadKey w) (loadKey v) 0 8 := by
        intro w hw hag
        have hwlt := wf_tids_lt hwf w hw
        exact hfresh w hw (loadKey_inj hwlt hv (fun i hi => hag i hi (by omega)))
      rcases insertF_wf hwf fuel (by omega) (loadKey v) v hv
          (fun i h1 h2 => rfl) hfr with ⟨t2, heq, hwf2, _⟩
      rw [heq] at hstep
      rw [← Option.some_inj.mp hstep]
      exact hwf2
  | del hr hfuel hstep ih =>
    rename_i s s2 fuel key
    rcases s with _ | t
    · rcases fuel with _ | f
      · omega
      simp only [eraseF] at hstep
      rw [← Option.some_inj.mp hstep]
      trivial
    · have hwf : Wf 0 t := ih
      by_cases hm : ∃ v ∈ tids t, AgreeOn key (loadKey v) 0 8
      · rcases hm with ⟨v, hvm, hag⟩
        rcases eraseF_wf hwf fuel (by omega) key v hag hvm with
          ⟨e, hte, hres⟩ | ⟨t2, hres, hwf2, _⟩
        · rw [hres] at hstep
          rw [← Option.some_inj.mp hstep]
          trivial
        · rw [hres] at hstep
          rw [← Option.some_inj.mp hstep]
          exact hwf2
      · push_neg at hm
        have hfr : ∀ w ∈ tids t, ¬ AgreeOn (loadKey w) key 0 8 := by
          intro w hw hag
          exact hm w hw (agreeOn_symm hag)
        have hres := eraseF_nomatch hwf fuel (by omega) key hfr
        rw [hres] at hstep
        rw [← Option.some_inj.mp hstep]
        exact hwf

/-- On a well-formed root holding identifier v, the optimistic lookup of v
through its own loaded key finds v. -/
theorem lookup_found {t : NTree} (hwf : Wf 0 t) {v : ℕ} (hvm : v ∈ tids t)
    {fuel : ℕ} (hfuel : 9 ≤ fuel) :
    lookup fuel (some t) (loadKey v) 8 0 = some (some v) := by
  rcases lookupF_wf hwf fuel (by omega) (loadKey v) with
    ⟨v2, hv2m, hag, hres⟩ | ⟨hno, hres⟩
  · have hv2 : v2 = v := wf_agree_eq hwf v2 hv2m v hvm hag
    rw [hv2] at hres
    simpa [lookup] using hres
  · exact absurd (fun i h1 h2 => rfl) (hno v hvm)

/-- C1: lookup after insert.  On every reachable root slot, after a point
insert of a fresh identifier v through its own 8-byte loaded key at depth 0,
the optimistic lookup of that key returns the leaf holding v. -/
theorem C1_lookup_after_insert {s : Option NTree} (hr : Reach s) {v fuel : ℕ}
    (hv : v < 2 ^ 64) (hfresh : ∀ w ∈ tidsOpt s, w ≠ v) (hfuel : 9 ≤ fuel)
    {s2 : Option NTree} (hins : insertF fuel s (loadKey v) 0 v = some s2) :
    lookup fuel s2 (loadKey v) 8 0 = some (some v) := by
  have hwfo := reach_wf hr
  rcases s with _ | t
  · rcases fuel with _ | f
    · omega
    simp only [insertF] at hins
    rw [← Option.some_inj.mp hins]
    exact lookup_found (Wf.leaf (by omega) hv) (by simp) hfuel
  · have hwf : Wf 0 t := hwfo
    have hfr : ∀ w ∈ tids t, ¬ AgreeOn (loadKey w) (loadKey v) 0 8 := by
      intro w hw hag
      have hwlt := wf_tids_lt hwf w hw
      exact hfresh w hw (loadKey_inj hwlt hv (fun i hi => hag i hi (by omega)))
    rcases insertF_wf hwf fuel (by omega) (loadKey v) v hv
        (fun i h1 h2 => rfl) hfr with ⟨t2, heq, hwf2, hmem⟩
    rw [heq] at hins
    rw [← Option.some_inj.mp hins]
    exact lookup_found hwf2 ((hmem v).mpr (Or.inr rfl)) hfuel

/-- C1 at a concrete input: the root built by inserting 3 then 5 into the
empty slot answers the lookup of 5. -/
theorem C1_lookup_after_insert_witness :
    (5 : ℕ) < 2 ^ 64 ∧
    insertF 9 (some (leaf 3)) (loadKey 5) 0 5 =
      some (some (n4 7 [0, 0, 0, 0, 0, 0, 0] [3, 5] [leaf 3, leaf 5])) ∧
    lookup 9 (some (n4 7 [0, 0, 0, 0, 0, 0, 0] [3, 5] [leaf 3, leaf 5]))
      (loadKey 5) 8 0 = some (some 5) :=
  ⟨by norm_num, rfl,
    @C1_lookup_after_insert (some (leaf 3))
      (@Reach.ins none (some (leaf 3)) 3 9 Reach.base (by norm_num)
        (by intro w hw; simp [tidsOpt] at hw) (by norm_num) rfl)
      5 9 (by norm_num)
      (by intro w hw; simp [tidsOpt] at hw; omega) (by norm_num)
      (some (n4 7 [0, 0, 0, 0, 0, 0, 0] [3, 5] [leaf 3, leaf 5])) rfl⟩

/-- C2: the small branch of insertBulk (ART.cpp lines 793-803) point-inserts
dataset[1] .. dataset[n-1], starting at index 1 with nothing yet installed in
a null root slot, so bulk loading [1, 2] into the empty tree loses
dataset[0] = 1: the bulk tree answers NULL for key 1, while point-inserting
the same dataset builds a tree whose lookup finds it.  The two trees are not
lookup-equivalent. -/
theorem C2_bulk_small_loses_first :
    insertBulk 9 none [1, 2] 0 = some (some (leaf 2)) ∧
    lookup 9 (some (leaf 2)) (loadKey 1) 8 0 = some none ∧
    insertF 9 none (loadKey 1) 0 1 = some (some (leaf 1)) ∧
    insertF 9 (some (leaf 1)) (loadKey 2) 0 2 =
      some (some (n4 7 [0, 0, 0, 0, 0, 0, 0] [1, 2] [leaf 1, leaf 2])) ∧
    lookup 9 (some (n4 7 [0, 0, 0, 0, 0, 0, 0] [1, 2] [leaf 1, leaf 2]))
      (loadKey 1) 8 0 = some (some 1) :=
  ⟨rfl, rfl, rfl, rfl, rfl⟩

/-- C3: insert then erase then lookup.  On every reachable root slot, after
point insert of a fresh v and point erase of v the lookup of v returns NULL,
and when the tree held no other key (the slot was null before the insert) the
root slot is null after the erase. -/
theorem C3_insert_erase_lookup {s : Option NTree} (hr : Reach s) {v fuel : ℕ}
    (hv : v < 2 ^ 64) (hfresh : ∀ w ∈ tidsOpt s, w ≠ v) (hfuel : 9 ≤ fuel)
    {s2 s3 : Option NTree}
    (hins : insertF fuel s (loadKey v) 0 v = some s2)
    (hdel : eraseF fuel s2 (loadKey v) 8 0 = some s3) :
    lookup fuel s3 (loadKey v) 8 0 = some none ∧ (s = none → s3 = none) := by
  have hwfo := reach_wf hr
  rcases s with _ | t
  · rcases fuel with _ | f
    · omega
    simp only [insertF] at hins
    rw [← Option.some_inj.mp hins] at hdel
    have hlm : leafMatches v (loadKey v) 8 0 = true := by
      unfold leafMatches
      rw [if_pos (by norm_num)]
      exact decide_eq_true (fun i h1 h2 => rfl)
    simp only [eraseF, hlm, if_true] at hdel
    rw [← Option.some_inj.mp hdel]
    exact ⟨rfl, fun _ => rfl⟩
  · have hwf : Wf 0 t := hwfo
    have hfr : ∀ w ∈ tids t, ¬ AgreeOn (loadKey w) (loadKey v) 0 8 := by
      intro w hw hag
      have hwlt := wf_tids_lt hwf w hw
      exact hfresh w hw (loadKey_inj hwlt hv (fun i hi => hag i hi (by omega)))
    rcases insertF_wf hwf fuel (by omega) (loadKey v) v hv
        (fun i h1 h2 => rfl) hfr with ⟨t2, heq, hwf2, hmem⟩
    rw [heq] at hins
    rw [← Option.some_inj.mp hins] at hdel
    have hvmem : v ∈ tids t2 := (hmem v).mpr (Or.inr rfl)
    rcases eraseF_wf hwf2 fuel (by omega) (loadKey v) v
        (fun i h1 h2 => rfl) hvmem with ⟨e, hte, hres⟩ | ⟨t3, hres, hwf3, hmem3⟩
    · exfalso
      rcases List.exists_mem_of_ne_nil _ (wf_tids_ne_nil hwf) with ⟨w, hwt⟩
      have hw2 : w ∈ tids t2 := (hmem w).mpr (Or.inl hwt)
      have hwv : w ≠ v := hfresh w hwt
      rw [hte] at hw2 hvmem
      simp only [tids_leaf, List.mem_singleton] at hw2 hvmem
      exact hwv (by rw [hw2, hvmem])
    · rw [hres] at hdel
      rw [← Option.some_inj.mp hdel]
      refine ⟨?_, fun h => Option.noConfusion h⟩
      rcases lookupF_wf hwf3 fuel (by omega) (loadKey v) with
        ⟨v2, hv2m, hag, hres2⟩ | ⟨hno, hres2⟩
      · exfalso
        have hv2lt := wf_tids_lt hwf3 v2 hv2m
        have hv2 : v2 = v := loadKey_inj hv2lt hv (fun i hi => hag i hi (by omega))
        rw [hv2] at hv2m
        exact ((hmem3 v).mp hv2m).2 rfl
      · simpa [lookup] using hres2

/-- C3 at a concrete input: insert 5 into the empty slot, erase it again; the
lookup answers NULL and the root slot is null. -/
theorem C3_insert_erase_lookup_witness :
    insertF 9 none (loadKey 5) 0 5 = some (some (leaf 5)) ∧
    eraseF 9 (some (leaf 5)) (loadKey 5) 8 0 = some none ∧
    lookup 9 (none : Option NTree) (loadKey 5) 8 0 = some none ∧
    ((none : Option NTree) = none → (none : Option NTree) = none) :=
  ⟨rfl, rfl,
    (@C3_insert_erase_lookup none Reach.base 5 9 (by norm_num)
      (by intro w hw; simp [tidsOpt] at hw) (by norm_num)
      (some (leaf 5)) none rfl rfl).1,
    (@C3_insert_erase_lookup none Reach.base 5 9 (by norm_num)
      (by intro w hw; simp [tidsOpt] at hw) (by norm_num)
      (some (leaf 5)) none rfl rfl).2⟩

/-- C4 (amended): erasing an absent key — one agreeing with no stored leaf
key — from a point-reachable root slot is a no-op: the slot keeps the
identical tree.  On bulk-loaded trees the original claim fails; see the
counterexample. -/
theorem C4_erase_absent_noop {s : Option NTree} (hr : Reach s) {fuel : ℕ}
    (hfuel : 9 ≤ fuel) (key : ℕ → ℕ)
    (habsent : ∀ w ∈ tidsOpt s, ¬ AgreeOn (loadKey w) key 0 8) :
    eraseF fuel s key 8 0 = some s := by
  rcases s with _ | t
  · rcases fuel with _ | f
    · omega
    rfl
  · exact eraseF_nomatch (reach_wf hr) fuel (by omega) key habsent

/-- C4 at a concrete input: erasing the absent key 5 from the reachable root
holding only 3 changes nothing. -/
theorem C4_erase_absent_noop_witness :
    eraseF 9 (some (leaf 3)) (loadKey 5) 8 0 = some (some (leaf 3)) :=
  @C4_erase_absent_noop (some (leaf 3))
    (@Reach.ins none (some (leaf 3)) 3 9 Reach.base (by norm_num)
      (by intro w hw; simp [tidsOpt] at hw) (by norm_num) rfl)
    9 (by norm_num) (loadKey 5)
    (by intro w hw; simp [tidsOpt] at hw; subst hw; decide)

set_option maxRecDepth 8000 in
/-- The unamended C4 fails on a bulk-loaded tree: bulk loading these ten
identifiers produces an NLinear node whose learned model scatters the two
keys with fifth byte 0 into bucket 3; the absent key 65578 (fifth byte 1) is
also predicted into bucket 3, its erase descends there with a depth off by
the NLinear level, and deletes the unrelated leaf 10794. -/
theorem C4_erase_absent_noop_cex :
    ∃ s s2 : Option NTree,
      insertBulk 20 none [10794, 12800, 327936, 328192, 328448, 328704,
        328960, 329216, 329472, 329728] 0 = some s ∧
      lookup 20 s (loadKey 65578) 8 0 = some none ∧
      lookup 20 s (loadKey 10794) 8 0 = some (some 10794) ∧
      eraseF 20 s (loadKey 65578) 8 0 = some s2 ∧
      lookup 20 s2 (loadKey 10794) 8 0 = some none :=
  ⟨_, _, rfl, rfl, rfl, rfl, rfl⟩

/-- C5 (amended): when erase removes a leaf child from a well-formed N256
node the count is decremented and the removal is exact; the node is demoted
to an N48 (built by the ascending byte scan of ART.cpp lines 681-695) exactly
when the count drops to NODE48_SIZE * 3 / 4, which is 24 * 3 / 4 = 18 with
the source's NODE48_SIZE of 24 — not 36 — and at every other count the N256
node is retained with the slot nulled. -/
theorem C5_n256_demotion {d pl : ℕ} {pf : List ℕ} {ch : List (Option NTree)}
    {cnt b v : ℕ} (hwf : Wf d (n256 pl pf ch cnt)) (hb : b < 256)
    (hleaf : ch.getD b none = some (leaf v)) :
    NODE48_SIZE * 3 / 4 = 18 ∧
    Wf d (eraseNode256 pl pf ch cnt b) ∧
    (∀ w, w ∈ tids (eraseNode256 pl pf ch cnt b) ↔
      w ∈ tids (n256 pl pf ch cnt) ∧ w ≠ v) ∧
    (cnt - 1 ≠ 18 →
      eraseNode256 pl pf ch cnt b = n256 pl pf (ch.set b none) (cnt - 1)) ∧
    (cnt - 1 = 18 → ∃ ci ch48, eraseNode256 pl pf ch cnt b =
      n48 pl (pf.take (min pl maxPrefLen)) ci ch48 (cnt - 1)) := by
  have hwhole := eraseNode256_wf hwf hb hleaf
  have hchlen : ch.length = 256 := by
    cases hwf with
    | n256 hd hpf hchlen hcnt hc1 hc2 hch hbr hpref => exact hchlen
  have hcnt : cnt =
      ((List.range 256).filter (fun b2 => (ch.getD b2 none).isSome)).length := by
    cases hwf with
    | n256 hd hpf hchlen hcnt hc1 hc2 hch hbr hpref => exact hcnt
  refine ⟨rfl, hwhole.1, hwhole.2, ?_, ?_⟩
  · intro hne
    simp only [eraseNode256]
    rw [if_neg (by rw [show NODE48_SIZE * 3 / 4 = 18 from rfl]; exact hne)]
  · intro he
    have hfl : ((List.range 256).filter
        (fun b2 => ((ch.set b none).getD b2 none).isSome)).length = cnt - 1 := by
      have hsame : ∀ y, y < 256 → y ≠ b →
          ((ch.set b none).getD y none).isSome = (ch.getD y none).isSome := by
        intro y _ hy
        rw [getD_set_ne _ _ (fun hc => hy hc.symm)]
      have hpx : ((ch.set b none).getD b none).isSome = false := by
        rw [getD_set_self _ _ (by omega)]
        rfl
      have hqx : (ch.getD b none).isSome = true := by
        rw [hleaf]
        rfl
      have h2 := filter_range_length_update (n := 256) hb hsame hpx hqx
      omega
    have hocc : ((List.range 256).filterMap (fun b2 =>
        ((ch.set b none).getD b2 none).map (fun c => (b2, c)))).length = cnt - 1 := by
      rw [length_filterMap_pairs (fun b2 p hp => ?_) (List.range 256)]
      · rw [filter_range_length_congr (fun y hy => ?_)]
        · exact hfl
        · rcases (ch.set b none).getD y none with _ | c <;> rfl
      · rcases hg2 : (ch.set b none).getD b2 none with _ | c
        · rw [hg2] at hp
          exact Option.noConfusion hp
        · rw [hg2] at hp
          rw [show ((some c : Option NTree)).map (fun c2 => (b2, c2)) =
            some (b2, c) from rfl] at hp
          rw [← Option.some_inj.mp hp]
    refine ⟨((List.range 256).filterMap (fun b2 =>
        ((ch.set b none).getD b2 none).map (fun c => (b2, c)))).enum.foldl
        (fun acc p => acc.set p.2.1 p.1) ((List.range 256).map (fun x => emptyMarker)),
      ((List.range 256).filterMap (fun b2 =>
        ((ch.set b none).getD b2 none).map (fun c => (b2, c)))).map
          (fun p => some p.2) ++
        List.replicate (NODE48_SIZE - ((List.range 256).filterMap (fun b2 =>
          ((ch.set b none).getD b2 none).map (fun c => (b2, c)))).length) none, ?_⟩
    simp only [eraseNode256]
    rw [if_pos (by rw [show NODE48_SIZE * 3 / 4 = 18 from rfl]; exact he), hocc]

/-- C5 at a concrete input: the claim's threshold of 36 is wrong — an N256
node whose count drops from 37 to 36 is retained as an N256, and the demotion
constant of the source evaluates to 18. -/
theorem C5_n256_demotion_cex :
    eraseNode256 3 [7, 7, 7]
      ((List.range 37).map (fun j => some (leaf j)) ++ List.replicate 219 none)
      37 5 =
      n256 3 [7, 7, 7]
        (((List.range 37).map (fun j => some (leaf j)) ++
          List.replicate 219 none).set 5 none) 36 ∧
    NODE48_SIZE * 3 / 4 ≠ 36 :=
  ⟨rfl, by decide⟩

/-- C6 (amended): the optimistic lookup prefix policy (ART.cpp lines
330-339).  At an inner node the stored prefix bytes are all compared against
the searched key — returning NULL on any mismatch — exactly when
prefixLength is strictly below maxPrefixLength = 9; when prefixLength ≥ 9
(the spec's boundary case prefixLength = 9 included) the comparison is
skipped entirely and the skipped flag is set.  On reaching a leaf with depth
≠ keyLength the key is verified over [0..keyLength) when a skip occurred and
over [depth..keyLength) otherwise. -/
theorem C6_optimistic_prefix_policy (pl : ℕ) (pf : List ℕ) (key : ℕ → ℕ)
    (d : ℕ) (sk : Bool) (v kl fl : ℕ) :
    (pl ≠ 0 → pl < maxPrefLen →
      ((∀ j, j < pl → key (d + j) = pf.getD j 0) →
        lookupPref pl pf key d sk = some (d + pl, sk)) ∧
      (∀ j, j < pl → key (d + j) ≠ pf.getD j 0 →
        lookupPref pl pf key d sk = none)) ∧
    (pl ≠ 0 → maxPrefLen ≤ pl → lookupPref pl pf key d sk = some (d + pl, true)) ∧
    (d ≠ kl →
      lookupF (fl + 1) (leaf v) key kl d sk =
        if AgreeOn (loadKey v) key (if sk then 0 else d) kl then some (some v)
        else some none) := by
  refine ⟨fun h0 hlt => ⟨?_, ?_⟩, fun h0 hge => ?_, fun hdk => ?_⟩
  · intro hmatch
    exact lookupPref_match hlt hmatch
  · intro j hj hne
    exact @lookupPref_mismatch _ _ _ _ _ hlt _ hj hne
  · unfold lookupPref
    rw [if_pos h0, if_neg (by omega)]
  · simp only [lookupF]
    rw [if_neg (fun hc => hdk hc.2), if_pos hdk]

/-- C6 at a concrete input: the claim's boundary is wrong — at
prefixLength = 9 = MAX_PREFIX the stored prefix bytes are not compared: every
stored byte differs from the searched key, yet the lookup prefix stage skips
the comparison and continues with the skipped flag set instead of returning
NULL. -/
theorem C6_optimistic_prefix_policy_cex :
    (fun x => 0 * x) 0 ≠ [1, 1, 1, 1, 1, 1, 1, 1, 1].getD 0 0 ∧
    lookupPref 9 [1, 1, 1, 1, 1, 1, 1, 1, 1] (fun x => 0 * x) 0 false =
      some (9, true) :=
  ⟨by decide, rfl⟩

/-- C7: NLinear is frozen after bulk load.  At an NLinear node whose prefix
stage has passed, point insert into an empty learned-bucket slot returns the
identical node (the switch of ART.cpp line 454 has no NodeTypeLinear case),
point insert into an occupied slot only replaces that slot's subtree and
keeps the slot occupancy unchanged, and point erase returns the identical
node both when the bucket slot is empty and when it holds the matching leaf
(the switch of ART.cpp line 587 has no NodeTypeLinear case), while an erase
that recurses also keeps the occupancy unchanged.  No point operation
populates or clears a child slot of an NLinear node. -/
theorem C7_nlin_frozen (fuel pl d v kl : ℕ) (pf : List ℕ) (a b : Dbl)
    (ch : List (Option NTree)) (key : ℕ → ℕ) :
    (∀ d2, insPrefixStage fuel (nlin pl pf a b ch) key d v = some (Sum.inr d2) →
      (ch.getD (linBucket a b (key d2)) none = none →
        insertF (fuel + 1) (some (nlin pl pf a b ch)) key d v =
          some (some (nlin pl pf a b ch))) ∧
      (∀ c c2, ch.getD (linBucket a b (key d2)) none = some c →
        insertF fuel (some c) key (d2 + 1) v = some (some c2) →
        insertF (fuel + 1) (some (nlin pl pf a b ch)) key d v =
          some (some (nlin pl pf a b
            (ch.set (linBucket a b (key d2)) (some c2)))) ∧
        ∀ j, ((ch.set (linBucket a b (key d2)) (some c2)).getD j none).isSome =
          (ch.getD j none).isSome)) ∧
    (∀ d2, erasePref fuel (nlin pl pf a b ch) key d = some (some d2) →
      (ch.getD (linBucket a b (key d2)) none = none →
        eraseF (fuel + 1) (some (nlin pl pf a b ch)) key kl d =
          some (some (nlin pl pf a b ch))) ∧
      (∀ c, ch.getD (linBucket a b (key d2)) none = some c →
        isLeafMatching c key kl d2 = true →
        eraseF (fuel + 1) (some (nlin pl pf a b ch)) key kl d =
          some (some (nlin pl pf a b ch))) ∧
      (∀ c c2, ch.getD (linBucket a b (key d2)) none = some c →
        isLeafMatching c key kl d2 = false →
        eraseF fuel (some c) key kl (d2 + 1) = some (some c2) →
        eraseF (fuel + 1) (some (nlin pl pf a b ch)) key kl d =
          some (some (nlin pl pf a b
            (ch.set (linBucket a b (key d2)) (some c2)))) ∧
        ∀ j, ((ch.set (linBucket a b (key d2)) (some c2)).getD j none).isSome =
          (ch.getD j none).isSome)) := by
  have hkeep : ∀ c c2 : NTree, ∀ bk, ch.getD bk none = some c →
      ∀ j, ((ch.set bk (some c2)).getD j none).isSome = (ch.getD j none).isSome := by
    intro c c2 bk hc j
    have hbk : bk < ch.length := by
      by_contra hge
      rw [List.getD_eq_getElem?_getD, List.getElem?_eq_none (by omega)] at hc
      simp at hc
    by_cases hj : j = bk
    · subst hj
      rw [getD_set_self _ _ hbk, hc]
      rfl
    · rw [getD_set_ne _ _ (fun hc2 => hj hc2.symm)]
  constructor
  · intro d2 hps
    constructor
    · intro hslot
      simp only [insertF, hps, hslot]
    · intro c c2 hslot hrec
      refine ⟨?_, hkeep c c2 _ hslot⟩
      simp only [insertF, hps, hslot, hrec]
  · intro d2 hep
    refine ⟨?_, ?_, ?_⟩
    · intro hslot
      simp only [eraseF, hep, hslot]
    · intro c hslot hlm
      simp only [eraseF, hep, hslot]
      rw [if_pos hlm]
    · intro c c2 hslot hlm hrec
      refine ⟨?_, hkeep c c2 _ hslot⟩
      simp only [eraseF, hep, hslot]
      rw [if_neg (by rw [hlm]; exact Bool.false_ne_true)]
      simp only [hrec]

/-- A concrete well-formed two-leaf Node4: prefix 7 zero bytes, branch bytes
3 and 5, leaves 3 and 5. -/
theorem wf_pair35 : Wf 0 (n4 7 [0, 0, 0, 0, 0, 0, 0] [3, 5] [leaf 3, leaf 5]) := by
  refine Wf.n4 (by norm_num) (by norm_num) (by norm_num) (by norm_num)
    (by norm_num) (by decide) (by decide) ?_ ?_ ?_
  · intro j hj
    simp only [List.length_cons, List.length_nil] at hj
    interval_cases j
    · exact Wf.leaf (by norm_num) (by norm_num)
    · exact Wf.leaf (by norm_num) (by norm_num)
  · intro j hj w hw
    simp only [List.length_cons, List.length_nil] at hj
    interval_cases j
    · simp only [List.getD_cons_zero, tids_leaf, List.mem_singleton] at hw
      subst hw
      decide
    · simp only [List.getD_cons_succ, List.getD_cons_zero, tids_leaf,
        List.mem_singleton] at hw
      subst hw
      decide
  · intro w hw j hj
    simp only [List.flatMap_cons, List.flatMap_nil, tids_leaf, List.append_nil,
      List.mem_append, List.mem_singleton] at hw
    interval_cases j <;> rcases hw with hw | hw <;> subst hw <;> decide

/-- C8 (amended): on a well-formed subtree built of the four adaptive node
variants, minimum (ART.cpp lines 109-142) returns the leaf whose key is
lexicographically smallest from the subtree's key position on — an N4 or N16
recurses into slot 0, an N48 into the child of the first byte whose
childIndex entry is not EMPTY, an N256 into the first non-null child.  On an
NLinear node, however, minimum is not supported: the switch falls through to
throw, modelled by the crash marker. -/
theorem C8_minimum_smallest {d : ℕ} {t : NTree} (hwf : Wf d t) {fuel : ℕ}
    (hfuel : 9 - d ≤ fuel) :
    (∃ v, v ∈ tids t ∧ minimumF fuel t = some (some v) ∧
      ∀ w ∈ tids t, LexLeFrom d (loadKey v) (loadKey w)) ∧
    (∀ pl pf a b ch fl, minimumF fl (nlin pl pf a b ch) = none) := by
  refine ⟨minimumF_wf hwf fuel hfuel, ?_⟩
  intro pl pf a b ch fl
  rcases fl with _ | f <;> rfl

/-- C8 at a concrete input: on the two-leaf Node4 the minimum is the leaf 3,
whose key is lexicographically below the key of 5. -/
theorem C8_minimum_smallest_witness :
    9 - 0 ≤ 9 ∧
    ((∃ v, v ∈ tids (n4 7 [0, 0, 0, 0, 0, 0, 0] [3, 5] [leaf 3, leaf 5]) ∧
        minimumF 9 (n4 7 [0, 0, 0, 0, 0, 0, 0] [3, 5] [leaf 3, leaf 5]) =
          some (some v) ∧
        ∀ w ∈ tids (n4 7 [0, 0, 0, 0, 0, 0, 0] [3, 5] [leaf 3, leaf 5]),
          LexLeFrom 0 (loadKey v) (loadKey w)) ∧
      (∀ pl pf a b ch fl, minimumF fl (nlin pl pf a b ch) = none)) :=
  ⟨by norm_num, C8_minimum_smallest wf_pair35 (by norm_num)⟩

/-- The unamended C8 fails on an NLinear node: minimum on an NLinear holding
the single leaf 3 does not scan the slots in index order but returns the
crash marker (the throw of ART.cpp line 140). -/
theorem C8_minimum_smallest_cex :
    minimumF 9 (nlin 0 [] ⟨0, 1⟩ ⟨0, 1⟩ [some (leaf 3)]) = none ∧
    (3 : ℕ) ∈ tidsOpt (some (leaf 3)) :=
  ⟨rfl, by simp [tidsOpt]⟩

/-- C9: prefixMismatch (ART.cpp lines 191-209) returns the index of the
first byte at which the searched key diverges from the node's true prefix —
the stored bytes below the maxPrefixLength cap, and the bytes of the minimum
descendant leaf's key at the cap and beyond — or prefixLength when the
prefix fully matches.  The minimum result hypothesis fixes the leaf the
continuation loads (a NULL minimum is read as identifier 0, as the source's
getLeafValue(NULL) does). -/
theorem C9_prefix_mismatch_first {fuel : ℕ} {t : NTree} {key : ℕ → ℕ} {d : ℕ}
    {r : Option ℕ} (hmin : minimumF fuel t = some r) :
    ∃ m, prefixMismatch fuel t key d = some m ∧ m ≤ prefLenOf t ∧
      (∀ j, j < m → key (d + j) =
        (if j < maxPrefLen then (pfOf t).getD j 0
         else loadKey (r.getD 0) (d + j))) ∧
      (m < prefLenOf t → key (d + m) ≠
        (if m < maxPrefLen then (pfOf t).getD m 0
         else loadKey (r.getD 0) (d + m))) := by
  have h9 : maxPrefLen = 9 := rfl
  rcases Nat.lt_or_ge maxPrefLen (prefLenOf t) with hgt | hle
  · rcases find_range_spec maxPrefLen
        (fun pos => decide (key (d + pos) ≠ (pfOf t).getD pos 0)) with
      ⟨hn, hall⟩ | ⟨x, hx, hxlt, hpx, hminx⟩
    · rcases find_range_spec (prefLenOf t - maxPrefLen)
          (fun j => decide (key (d + maxPrefLen + j) ≠
            loadKey (r.getD 0) (d + maxPrefLen + j))) with
        ⟨hn2, hall2⟩ | ⟨y, hy, hylt, hpy, hminy⟩
      · refine ⟨prefLenOf t, ?_, le_rfl, ?_, by omega⟩
        · simp only [prefixMismatch]
          rw [if_pos hgt]
          simp only [hn, hmin, hn2]
        · intro j hj
          rcases Nat.lt_or_ge j maxPrefLen with h2 | h2
          · rw [if_pos h2]
            have h3 := hall j h2
            simpa using h3
          · rw [if_neg (by omega)]
            have h3 := hall2 (j - maxPrefLen) (by omega)
            simp only [decide_eq_false_iff_not, not_not] at h3
            have hj2 : d + maxPrefLen + (j - maxPrefLen) = d + j := by omega
            rw [hj2] at h3
            exact h3
      · refine ⟨maxPrefLen + y, ?_, by omega, ?_, ?_⟩
        · simp only [prefixMismatch]
          rw [if_pos hgt]
          simp only [hn, hmin, hy]
        · intro j hj
          rcases Nat.lt_or_ge j maxPrefLen with h2 | h2
          · rw [if_pos h2]
            have h3 := hall j h2
            simpa using h3
          · rw [if_neg (by omega)]
            have h3 := hminy (j - maxPrefLen) (by omega)
            simp only [decide_eq_false_iff_not, not_not] at h3
            have hj2 : d + maxPrefLen + (j - maxPrefLen) = d + j := by omega
            rw [hj2] at h3
            exact h3
        · intro hlt2
          rw [if_neg (by omega)]
          have h3 : key (d + maxPrefLen + y) ≠
              loadKey (r.getD 0) (d + maxPrefLen + y) := by simpa using hpy
          have hj2 : d + maxPrefLen + y = d + (maxPrefLen + y) := by omega
          rw [hj2] at h3
          exact h3
    · refine ⟨x, ?_, by omega, ?_, ?_⟩
      · simp only [prefixMismatch]
        rw [if_pos hgt]
        simp only [hx]
      · intro j hj
        rw [if_pos (by omega)]
        have h3 := hminx j hj
        simpa using h3
      · intro hlt2
        rw [if_pos hxlt]
        simpa using hpx
  · rcases @prefixMismatch_le fuel d t key hle with
      ⟨m, hpm, hmlt, hmne, hmatch⟩ | ⟨hpm, hmatch⟩
    · refine ⟨m, hpm, by omega, ?_, ?_⟩
      · intro j hj
        rw [if_pos (by omega)]
        exact hmatch j hj
      · intro hlt2
        rw [if_pos (by omega)]
        exact hmne
    · refine ⟨prefLenOf t, hpm, le_rfl, ?_, by omega⟩
      intro j hj
      rw [if_pos (by omega)]
      exact hmatch j hj

/-- C9 at a concrete input: a node whose true prefix length 12 exceeds the
9-byte cap; the stored bytes match the searched key, the continuation
against the minimum leaf's key diverges first at index 10. -/
theorem C9_prefix_mismatch_first_witness :
    minimumF 2 (n4 12 [0, 0, 0, 0, 0, 0, 0, 0, 0] [1, 2] [leaf 3, leaf 5]) =
      some (some 3) ∧
    ∃ m, prefixMismatch 2 (n4 12 [0, 0, 0, 0, 0, 0, 0, 0, 0] [1, 2]
        [leaf 3, leaf 5]) (fun x => if x = 10 then 1 else 0) 0 = some m ∧
      m ≤ prefLenOf (n4 12 [0, 0, 0, 0, 0, 0, 0, 0, 0] [1, 2]
        [leaf 3, leaf 5]) ∧
      (∀ j, j < m → (fun x => if x = 10 then 1 else 0) (0 + j) =
        (if j < maxPrefLen
         then (pfOf (n4 12 [0, 0, 0, 0, 0, 0, 0, 0, 0] [1, 2]
           [leaf 3, leaf 5])).getD j 0
         else loadKey ((some 3 : Option ℕ).getD 0) (0 + j))) ∧
      (m < prefLenOf (n4 12 [0, 0, 0, 0, 0, 0, 0, 0, 0] [1, 2]
          [leaf 3, leaf 5]) →
        (fun x => if x = 10 then 1 else 0) (0 + m) ≠
        (if m < maxPrefLen
         then (pfOf (n4 12 [0, 0, 0, 0, 0, 0, 0, 0, 0] [1, 2]
           [leaf 3, leaf 5])).getD m 0
         else loadKey ((some 3 : Option ℕ).getD 0) (0 + m))) :=
  ⟨rfl, C9_prefix_mismatch_first rfl⟩

/-- C10: the common-prefix loop of insert at an existing leaf (ART.cpp lines
403-405) scans byte by byte from depth with no bound of its own.  If the
inserted key agrees with the existing leaf's key at every position from
depth on, the loop never stops — the model returns the crash marker at every
fuel.  If the two keys differ at some position at or after depth within the
8-byte key buffer, the insert terminates and replaces the leaf with a Node4
holding both. -/
theorem C10_insert_lcp_termination (e v d : ℕ) (key : ℕ → ℕ) :
    ((∀ i, loadKey e (d + i) = key (d + i)) →
      ∀ fuel, insertF fuel (some (leaf e)) key d v = none) ∧
    ((∃ j, j < 8 - d ∧ loadKey e (d + j) ≠ key (d + j)) →
      ∀ fuel, 9 - d ≤ fuel →
        ∃ t2, insertF fuel (some (leaf e)) key d v = some (some t2)) := by
  constructor
  · intro hag fuel
    rcases fuel with _ | f
    · rfl
    simp only [insertF]
    rw [lcpScan_agree_none hag]
  · intro hex fuel hfuel
    rcases fuel with _ | f
    · omega
    rcases find_range_spec (8 - d)
        (fun j => decide (loadKey e (d + j) ≠ key (d + j))) with
      ⟨hn, hall⟩ | ⟨j0, hj0, hj0lt, hpj0, hmin0⟩
    · exfalso
      rcases hex with ⟨j, hj, hne⟩
      have h3 := hall j hj
      simp only [decide_eq_false_iff_not, not_not] at h3
      exact hne h3
    · have hne : loadKey e (d + j0) ≠ key (d + j0) := by simpa using hpj0
      have hagree : ∀ i, 0 ≤ i → i < j0 → loadKey e (d + i) = key (d + i) := by
        intro i h1 hi
        have h3 := hmin0 i hi
        simpa using h3
      have hscan := lcpScan_spec hne (8 - d) 0 (by omega) (by omega)
        (fun i h1 h2 => hagree i h1 h2)
      simp only [insertF, hscan]
      exact ⟨_, rfl⟩

/-- C10 at a concrete input: the keys of 3 and 5 differ at byte 7, so the
insert of 5 over the leaf 3 terminates. -/
theorem C10_insert_lcp_termination_witness :
    ∃ t2, insertF 9 (some (leaf 3)) (loadKey 5) 0 5 = some (some t2) :=
  (C10_insert_lcp_termination 3 5 0 (loadKey 5)).2
    ⟨7, by norm_num, by decide⟩ 9 (by norm_num)

set_option maxRecDepth 8000 in
/-- A concrete well-formed N256 node with 19 leaf children at bytes 0..18,
each leaf's identifier carrying its byte in the top key position. -/
theorem wf_n256_19 : Wf 0 (n256 0 []
    ((List.range 19).map (fun x => some (leaf (x * 256 ^ 7))) ++
      List.replicate 237 none) 19) := by
  have hlen19 : ((List.range 19).map
      (fun x => some (leaf (x * 256 ^ 7))) : List (Option NTree)).length = 19 := by
    rw [List.length_map, List.length_range]
  have hget : ∀ b, b < 256 →
      ((List.range 19).map (fun x => some (leaf (x * 256 ^ 7))) ++
        List.replicate 237 none).getD b none =
      (if b < 19 then some (leaf (b * 256 ^ 7)) else none) := by
    intro b hb
    by_cases hblt : b < 19
    · rw [if_pos hblt, getD_append_lt _ (by rw [hlen19]; exact hblt),
        getD_range_map _ hblt]
    · rw [if_neg hblt, getD_append_ge _ (by rw [hlen19]; omega),
        List.getD_eq_getElem?_getD, List.getElem?_replicate]
      split <;> rfl
  have hvlt : ∀ b : ℕ, b < 19 → b * 256 ^ 7 < 2 ^ 64 := by
    intro b hb
    calc b * 256 ^ 7 ≤ 18 * 256 ^ 7 := Nat.mul_le_mul_right _ (by omega)
      _ < 2 ^ 64 := by norm_num
  have hload : ∀ b : ℕ, b < 19 → loadKey (b * 256 ^ 7) 0 = b := by
    intro b hb
    unfold loadKey
    rw [if_pos (by norm_num), show (7 : ℕ) - 0 = 7 from rfl,
      Nat.mul_div_cancel _ (by norm_num : (0 : ℕ) < 256 ^ 7)]
    exact Nat.mod_eq_of_lt (by omega)
  refine Wf.n256 (by norm_num) (by norm_num)
    (by rw [List.length_append, hlen19, List.length_replicate]) (by decide)
    (by norm_num) (by norm_num) ?_ ?_ ?_
  · intro b hb c hc
    rw [hget b hb] at hc
    by_cases hblt : b < 19
    · rw [if_pos hblt] at hc
      rw [← Option.some_inj.mp hc]
      exact Wf.leaf (by norm_num) (hvlt b hblt)
    · rw [if_neg hblt] at hc
      exact Option.noConfusion hc
  · intro b hb c hc w hw
    rw [hget b hb] at hc
    by_cases hblt : b < 19
    · rw [if_pos hblt] at hc
      rw [← Option.some_inj.mp hc] at hw
      simp only [tids_leaf, List.mem_singleton] at hw
      rw [hw]
      exact hload b hblt
    · rw [if_neg hblt] at hc
      exact Option.noConfusion hc
  · intro w hw j hj
    omega

set_option maxRecDepth 8000 in
/-- C5 at a concrete input: erasing the leaf child at byte 5 of the
19-child N256 node drops the count to 18 = NODE48_SIZE * 3 / 4 and demotes
the node to an N48. -/
theorem C5_n256_demotion_witness :
    NODE48_SIZE * 3 / 4 = 18 ∧
    Wf 0 (eraseNode256 0 []
      ((List.range 19).map (fun x => some (leaf (x * 256 ^ 7))) ++
        List.replicate 237 none) 19 5) ∧
    (∀ w, w ∈ tids (eraseNode256 0 []
        ((List.range 19).map (fun x => some (leaf (x * 256 ^ 7))) ++
          List.replicate 237 none) 19 5) ↔
      w ∈ tids (n256 0 []
        ((List.range 19).map (fun x => some (leaf (x * 256 ^ 7))) ++
          List.replicate 237 none) 19) ∧ w ≠ 5 * 256 ^ 7) ∧
    (19 - 1 ≠ 18 → eraseNode256 0 []
        ((List.range 19).map (fun x => some (leaf (x * 256 ^ 7))) ++
          List.replicate 237 none) 19 5 =
      n256 0 [] (((List.range 19).map (fun x => some (leaf (x * 256 ^ 7))) ++
        List.replicate 237 none).set 5 none) (19 - 1)) ∧
    (19 - 1 = 18 → ∃ ci ch48, eraseNode256 0 []
        ((List.range 19).map (fun x => some (leaf (x * 256 ^ 7))) ++
          List.replicate 237 none) 19 5 =
      n48 0 (List.take (min 0 maxPrefLen) []) ci ch48 (19 - 1)) :=
  C5_n256_demotion wf_n256_19 (by norm_num) rfl

end ART
